import Mathlib

/-!
Verification of the chunked MCA stack traversal engine
(`PyMca5/PyMcaPhysics/xrf/McaStackView.py`).

The Python source is shallowly embedded: Python ints are `Int` (or `Nat`
where the source values are provably non-negative counts), Python `//` is
`Int.fdiv` (floor division), CPython `slice.indices` is `pyIndices`,
CPython `range` materialisation is `pyRangeList`, and fallible code runs
in `Except PyErr`.
-/

namespace McaStackView

/-- Kinds of Python exceptions the embedded code can raise. -/
inductive PyErr where
  | valueError (msg : String)
  | typeError (msg : String)
  | attributeError (msg : String)
  | indexError (msg : String)
  | zeroDivisionError (msg : String)
  deriving Repr, DecidableEq

/-- Python list read `l[i]` with negative-index semantics;
raises `IndexError` out of range. -/
def pyGet {α : Type _} (l : List α) (i : Int) : Except PyErr α :=
  let j : Int := if i < 0 then i + l.length else i
  if h : 0 ≤ j ∧ j.toNat < l.length then .ok (l.get ⟨j.toNat, h.2⟩)
  else .error (.indexError "list index out of range")

/-- Python list write `l[i] = v` with negative-index semantics. -/
def pySet {α : Type _} (l : List α) (i : Int) (v : α) : Except PyErr (List α) :=
  let j : Int := if i < 0 then i + l.length else i
  if 0 ≤ j ∧ j.toNat < l.length then .ok (l.set j.toNat v)
  else .error (.indexError "list assignment index out of range")

/-- Embeds `possitive_index` (sic) from the source: make an axis index
positive.  Python `//` is `Int.fdiv`; the source would raise
`ZeroDivisionError` for `n = 0`, a case no claim exercises. -/
def possitive_index (i : Int) (n : Nat) : Int :=
  if i < 0 then i + max ((-i).fdiv n) 1 * n else i

/-- Number of elements of CPython `range(start, stop, step)` (the closed
form used by CPython's `range_length`; `step = 0` raises in Python and is
excluded by hypotheses wherever it matters). -/
def pyRangeLen (start stop step : Int) : Nat :=
  if 0 < step then
    if start < stop then ((stop - start - 1) / step).toNat + 1 else 0
  else if step < 0 then
    if stop < start then ((start - stop - 1) / (-step)).toNat + 1 else 0
  else 0

/-- Materialisation of CPython `list(range(start, stop, step))`:
the `k`-th element is `start + step * k`. -/
def pyRangeList (start stop step : Int) : List Int :=
  (List.range (pyRangeLen start stop step)).map (fun k : Nat => start + step * (k : Int))

theorem pyRangeList_length (start stop step : Int) :
    (pyRangeList start stop step).length = pyRangeLen start stop step := by
  simp [pyRangeList]

/-- Floor division is invariant under negating both operands. -/
theorem fdiv_neg_neg (a b : Int) : (-a).fdiv (-b) = a.fdiv b := by
  cases a with
  | ofNat m =>
    cases m with
    | zero => simp
    | succ m =>
      cases b with
      | ofNat n =>
        cases n with
        | zero => simp
        | succ n => rfl
      | negSucc n => rfl
  | negSucc m =>
    cases b with
    | ofNat n =>
      cases n with
      | zero => simp
      | succ n => rfl
    | negSucc n => rfl

/-- The length recurrence of `pyRangeLen`: a nonempty range loses one
element when the start advances by one step. -/
theorem pyRangeLen_succ {start stop step : Int}
    (h : (0 < step ∧ start < stop) ∨ (step < 0 ∧ stop < start)) :
    pyRangeLen start stop step = pyRangeLen (start + step) stop step + 1 := by
  rcases h with ⟨hs, hlt⟩ | ⟨hs, hlt⟩
  · have hs0 : step ≠ 0 := by omega
    simp only [pyRangeLen, if_pos hs, if_pos hlt]
    by_cases h2 : start + step < stop
    · rw [if_pos h2]
      have key : (stop - start - 1) / step = (stop - (start + step) - 1) / step + 1 := by
        have : stop - start - 1 = (stop - (start + step) - 1) + 1 * step := by ring
        rw [this, Int.add_mul_ediv_right _ _ hs0]
      rw [key]
      have h3 : 0 ≤ (stop - (start + step) - 1) / step :=
        Int.ediv_nonneg (by omega) (by omega)
      omega
    · rw [if_neg h2]
      have hnum0 : 0 ≤ stop - start - 1 := by omega
      have hnum1 : stop - start - 1 < step := by omega
      rw [Int.ediv_eq_zero_of_lt hnum0 hnum1]
      simp
  · have hs0 : (0:Int) < -step := by omega
    simp only [pyRangeLen, if_neg (by omega : ¬ (0:Int) < step), if_pos hs, if_pos hlt]
    by_cases h2 : stop < start + step
    · rw [if_pos h2]
      have key : (start - stop - 1) / (-step) = (start + step - stop - 1) / (-step) + 1 := by
        have : start - stop - 1 = (start + step - stop - 1) + 1 * (-step) := by ring
        rw [this, Int.add_mul_ediv_right _ _ (by omega : (-step) ≠ 0)]
      rw [key]
      have h3 : 0 ≤ (start + step - stop - 1) / (-step) :=
        Int.ediv_nonneg (by omega) (by omega)
      omega
    · rw [if_neg h2]
      have hnum0 : 0 ≤ start - stop - 1 := by omega
      have hnum1 : start - stop - 1 < -step := by omega
      rw [Int.ediv_eq_zero_of_lt hnum0 hnum1]
      simp

/-- An empty Python range materialises to the empty list. -/
theorem pyRangeList_nil {start stop step : Int}
    (h : ¬ ((0 < step ∧ start < stop) ∨ (step < 0 ∧ stop < start))) :
    pyRangeList start stop step = [] := by
  have : pyRangeLen start stop step = 0 := by
    unfold pyRangeLen
    by_cases h1 : 0 < step
    · rw [if_pos h1, if_neg (by tauto)]
    · rw [if_neg h1]
      by_cases h2 : step < 0
      · rw [if_pos h2, if_neg (by tauto)]
      · rw [if_neg h2]
  simp [pyRangeList, this]

/-- The enumeration recurrence of `pyRangeList`: its head is `start` and
its tail is the range starting one step later.  Together with
`pyRangeList_nil` this characterises `pyRangeList` as exactly the loop
`for a in range(start, stop, step)`. -/
theorem pyRangeList_cons {start stop step : Int}
    (h : (0 < step ∧ start < stop) ∨ (step < 0 ∧ stop < start)) :
    pyRangeList start stop step = start :: pyRangeList (start + step) stop step := by
  unfold pyRangeList
  rw [pyRangeLen_succ h, List.range_succ_eq_map, List.map_cons, List.map_map]
  refine congrArg₂ _ (by ring_nf) ?_
  refine List.map_congr_left (fun k _ => ?_)
  simp only [Function.comp_apply, Nat.succ_eq_add_one]
  push_cast
  ring

/-- A Python `slice(start, stop, step)` object; `none` is Python `None`. -/
structure PySlice where
  start : Option Int
  stop : Option Int
  step : Option Int
  deriving Repr, DecidableEq

/-- Python `slice(None)` (select a whole axis). -/
def slcNone : PySlice := ⟨none, none, none⟩

/-- CPython `slice.indices(n)` for `n ≥ 0` (PySlice_Unpack +
PySlice_AdjustIndices): resolve the endpoints against length `n`.
CPython raises `ValueError` for `step = 0`; every claim hypothesises a
nonzero step, so this total model never sees that case with its result
used. -/
def pyIndices (s : PySlice) (n : Nat) : Int × Int × Int :=
  let step : Int := s.step.getD 1
  let lower : Int := if step < 0 then -1 else 0
  let upper : Int := if step < 0 then (n : Int) - 1 else (n : Int)
  let start : Int :=
    match s.start with
    | none => if step < 0 then upper else lower
    | some v => if v < 0 then max (v + n) lower else min v upper
  let stop : Int :=
    match s.stop with
    | none => if step < 0 then lower else upper
    | some v => if v < 0 then max (v + n) lower else min v upper
  (start, stop, step)

/-- The elements selected by `slc` out of `range(n)`,
i.e. `list(range(n))[slc] == list(range(*slc.indices(n)))`. -/
def sliceList (slc : PySlice) (n : Nat) : List Int :=
  let (start, stop, step) := pyIndices slc n
  pyRangeList start stop step

/-- Embeds `sliceLen` from the source: closed-form length after slicing
`range(n)`; Python `//` is floor division `Int.fdiv`. -/
def sliceLen (slc : PySlice) (n : Nat) : Int :=
  let (start, stop, step) := pyIndices slc n
  let one : Int := if step < 0 then -1 else 1
  max 0 ((stop - start + step - one).fdiv step)

/-- Embeds `sliceReverse` from the source: slice yielding the same items
in reversed order. -/
def sliceReverse (slc : PySlice) (n : Nat) : PySlice :=
  let (start, stop, step) := pyIndices slc n
  let one : Int := if step < 0 then 1 else -1
  let stop2 := (stop - start + one).fdiv step * step + start
  let start2 := start + one
  ⟨some stop2, if start2 = -1 then none else some start2, some (-step)⟩

theorem pyIndices_step (s : PySlice) (n : Nat) :
    (pyIndices s n).2.2 = s.step.getD 1 := rfl

/-- Endpoints normalised with a positive step land in `[0, n]`. -/
theorem pyIndices_bounds_pos (s : PySlice) (n : Nat)
    (h : 0 < (pyIndices s n).2.2) :
    0 ≤ (pyIndices s n).1 ∧ (pyIndices s n).1 ≤ n ∧
    0 ≤ (pyIndices s n).2.1 ∧ (pyIndices s n).2.1 ≤ n := by
  simp only [pyIndices] at h ⊢
  rcases s.start with _ | v <;> rcases s.stop with _ | w <;>
    split_ifs <;> simp_all <;> omega

/-- Endpoints normalised with a negative step land in `[-1, n-1]`. -/
theorem pyIndices_bounds_neg (s : PySlice) (n : Nat)
    (h : (pyIndices s n).2.2 < 0) :
    -1 ≤ (pyIndices s n).1 ∧ (pyIndices s n).1 ≤ (n : Int) - 1 ∧
    -1 ≤ (pyIndices s n).2.1 ∧ (pyIndices s n).2.1 ≤ (n : Int) - 1 := by
  simp only [pyIndices] at h ⊢
  rcases s.start with _ | v <;> rcases s.stop with _ | w <;>
    split_ifs <;> simp_all <;> omega

/-- The closed-form `sliceLen` arithmetic agrees with the CPython range
length, for any normalised triple with nonzero step. -/
theorem sliceLen_formula (start stop step : Int) (h : step ≠ 0) :
    max 0 ((stop - start + step - (if step < 0 then -1 else 1)).fdiv step)
      = (pyRangeLen start stop step : Int) := by
  rcases lt_trichotomy step 0 with hs | hs | hs
  · rw [if_pos hs]
    rw [show stop - start + step - -1 = stop - start + step + 1 by ring]
    rw [← fdiv_neg_neg (stop - start + step + 1) step]
    rw [Int.fdiv_eq_ediv _ (by omega)]
    unfold pyRangeLen
    rw [if_neg (by omega), if_pos hs]
    by_cases h2 : stop < start
    · rw [if_pos h2]
      have key : -(stop - start + step + 1) = (start - stop - 1) + 1 * (-step) := by ring
      rw [key, Int.add_mul_ediv_right _ _ (by omega : (-step) ≠ 0)]
      have h3 : 0 ≤ (start - stop - 1) / (-step) :=
        Int.ediv_nonneg (by omega) (by omega)
      omega
    · rw [if_neg h2]
      have hle : -(stop - start + step + 1) ≤ (-step) - 1 := by omega
      have h0 : (-(stop - start + step + 1)) / (-step) ≤ ((-step) - 1) / (-step) :=
        Int.ediv_le_ediv (by omega) hle
      have hz : ((-step) - 1) / (-step) = 0 := Int.ediv_eq_zero_of_lt (by omega) (by omega)
      rw [hz] at h0
      omega
  · omega
  · rw [if_neg (by omega)]
    rw [Int.fdiv_eq_ediv _ (by omega)]
    unfold pyRangeLen
    rw [if_pos hs]
    by_cases h2 : start < stop
    · rw [if_pos h2]
      have key : stop - start + step - 1 = (stop - start - 1) + 1 * step := by ring
      rw [key, Int.add_mul_ediv_right _ _ h]
      have h3 : 0 ≤ (stop - start - 1) / step :=
        Int.ediv_nonneg (by omega) (by omega)
      omega
    · rw [if_neg h2]
      have hle : stop - start + step - 1 ≤ step - 1 := by omega
      have h0 : (stop - start + step - 1) / step ≤ (step - 1) / step :=
        Int.ediv_le_ediv (by omega) hle
      have hz : (step - 1) / step = 0 := Int.ediv_eq_zero_of_lt (by omega) (by omega)
      rw [hz] at h0
      omega

/-- C5: `sliceLen(slc, n)` equals the length of the materialised index
list `list(range(*slc.indices(n)))`, and is never negative. -/
theorem sliceLen_correct (slc : PySlice) (n : Nat) (h : slc.step ≠ some 0) :
    sliceLen slc n = ((sliceList slc n).length : Int) ∧ 0 ≤ sliceLen slc n := by
  have hstep : (pyIndices slc n).2.2 ≠ 0 := by
    rw [pyIndices_step]
    rcases hs : slc.step with _ | v
    · simp
    · simp only [Option.getD_some]
      intro hv; exact h (by rw [hs, hv])
  constructor
  · show sliceLen slc n = _
    unfold sliceLen sliceList
    rcases hI : pyIndices slc n with ⟨start, stop, step⟩
    rw [hI] at hstep
    simp only [pyRangeList_length]
    exact sliceLen_formula start stop step hstep
  · unfold sliceLen
    rcases pyIndices slc n with ⟨start, stop, step⟩
    simp

/-- Witness for C5 at the concrete slice `[-7::-2]` and `n = 10`. -/
theorem sliceLen_correct_witness :
    (⟨some (-7), none, some (-2)⟩ : PySlice).step ≠ some 0 ∧
    sliceLen ⟨some (-7), none, some (-2)⟩ 10
      = ((sliceList ⟨some (-7), none, some (-2)⟩ 10).length : Int) := by
  refine ⟨by decide, ?_⟩
  exact (sliceLen_correct ⟨some (-7), none, some (-2)⟩ 10 (by decide)).1

/-- An arithmetic progression read backwards from its last element is the
reverse of the forward progression, provided the two range lengths agree. -/
theorem pyRangeList_rev_eq (start step : Int) (L : Nat) (stop stop2 : Int)
    (h1 : pyRangeLen start stop step = L)
    (h2 : pyRangeLen (start + step * ((L : Int) - 1)) stop2 (-step) = L) :
    pyRangeList (start + step * ((L : Int) - 1)) stop2 (-step)
      = (pyRangeList start stop step).reverse := by
  apply List.ext_getElem
  · simp [pyRangeList, h1, h2]
  · intro i hi1 hi2
    have hiL : i < L := by simpa [pyRangeList, h2] using hi1
    rw [List.getElem_reverse]
    simp only [pyRangeList, List.getElem_map, List.getElem_range, List.length_map,
      List.length_range, h1, h2]
    have hcast : ((L - 1 - i : Nat) : Int) = (L : Int) - 1 - i := by omega
    rw [hcast]
    ring

/-- The normalised step of `pyIndices` is nonzero when the slice's own
step is not literally zero. -/
theorem pyIndices_step_ne (slc : PySlice) (n : Nat) (h : slc.step ≠ some 0) :
    (pyIndices slc n).2.2 ≠ 0 := by
  rw [pyIndices_step]
  rcases hs : slc.step with _ | v
  · simp
  · simp only [Option.getD_some]
    intro hv; exact h (by rw [hs, hv])

/-- C6 (amended): for every slice with nonzero step whose selection from
`range(n)` is nonempty, `sliceReverse` selects exactly the same elements
in exactly reversed order.  (For empty selections the code can return a
slice selecting a different, nonempty set; see the counterexample.) -/
theorem sliceReverse_correct (slc : PySlice) (n : Nat) (h : slc.step ≠ some 0)
    (hne : sliceList slc n ≠ []) :
    sliceList (sliceReverse slc n) n = (sliceList slc n).reverse := by
  have hstep0 := pyIndices_step_ne slc n h
  rcases hI : pyIndices slc n with ⟨start, stop, step⟩
  rw [hI] at hstep0
  simp only at hstep0
  have hsl : sliceList slc n = pyRangeList start stop step := by
    unfold sliceList; rw [hI]
  have hLpos : 0 < pyRangeLen start stop step := by
    rcases Nat.eq_zero_or_pos (pyRangeLen start stop step) with h0 | h0
    · exfalso
      apply hne
      rw [hsl]
      unfold pyRangeList
      rw [h0]
      rfl
    · exact h0
  have hrs : sliceReverse slc n
      = ⟨some ((stop - start + (if step < 0 then 1 else -1)).fdiv step * step + start),
         if start + (if step < 0 then 1 else -1) = -1 then none
           else some (start + (if step < 0 then 1 else -1)),
         some (-step)⟩ := by
    unfold sliceReverse
    rw [hI]
  rcases lt_trichotomy step 0 with hs | hs | hs
  · -- negative step: selection descends, its reverse ascends
    have hb := pyIndices_bounds_neg slc n (by rw [hI]; exact hs)
    rw [hI] at hb
    simp only at hb
    obtain ⟨hb1, hb2, hb3, hb4⟩ := hb
    have hlt : stop < start := by
      by_contra hc
      unfold pyRangeLen at hLpos
      rw [if_neg (by omega), if_pos hs, if_neg hc] at hLpos
      omega
    have hstart0 : 0 ≤ start := by omega
    set Q : Int := (start - stop - 1) / (-step) with hQdef
    have hQ0 : 0 ≤ Q := Int.ediv_nonneg (by omega) (by omega)
    have hL : pyRangeLen start stop step = Q.toNat + 1 := by
      unfold pyRangeLen
      rw [if_neg (by omega), if_pos hs, if_pos hlt]
    have hfd : (stop - start + 1).fdiv step = Q := by
      rw [show stop - start + 1 = -(start - stop - 1) by ring]
      rw [← fdiv_neg_neg (-(start - stop - 1)) step]
      rw [neg_neg, Int.fdiv_eq_ediv _ (by omega)]
    have hQle : Q * (-step) ≤ start - stop - 1 := Int.ediv_mul_le _ (by omega)
    have hQstep : Q * step ≤ 0 := by nlinarith
    have hstop2ge : stop + 1 ≤ Q * step + start := by nlinarith
    rw [hrs]
    simp only [if_pos hs, hfd]
    rw [if_neg (by omega : ¬ start + 1 = -1)]
    have hIr : pyIndices ⟨some (Q * step + start), some (start + 1), some (-step)⟩ n
        = (Q * step + start, start + 1, -step) := by
      simp only [pyIndices, Option.getD_some, Prod.mk.injEq]
      split_ifs <;> exact ⟨by omega, by omega, by trivial⟩
    have hsl2 : sliceList ⟨some (Q * step + start), some (start + 1), some (-step)⟩ n
        = pyRangeList (Q * step + start) (start + 1) (-step) := by
      unfold sliceList; rw [hIr]
    rw [hsl2, hsl]
    have hstop2 : Q * step + start = start + step * ((Q.toNat + 1 : Nat) - 1 : Int) := by
      have : ((Q.toNat + 1 : Nat) : Int) - 1 = Q := by omega
      rw [this]; ring
    rw [hstop2]
    apply pyRangeList_rev_eq start step (Q.toNat + 1) stop (start + 1) hL
    have hcast : ((Q.toNat + 1 : Nat) : Int) - 1 = Q := by omega
    rw [hcast]
    unfold pyRangeLen
    rw [if_pos (by omega : (0:Int) < -step)]
    rw [if_pos (by nlinarith : start + step * Q < start + 1)]
    have hnum : start + 1 - (start + step * Q) - 1 = Q * (-step) := by ring
    rw [hnum, Int.mul_ediv_cancel _ (by omega)]
  · omega
  · -- positive step: selection ascends, its reverse descends
    have hb := pyIndices_bounds_pos slc n (by rw [hI]; exact hs)
    rw [hI] at hb
    simp only at hb
    obtain ⟨hb1, hb2, hb3, hb4⟩ := hb
    have hlt : start < stop := by
      by_contra hc
      unfold pyRangeLen at hLpos
      rw [if_pos hs, if_neg hc] at hLpos
      omega
    set Q : Int := (stop - start - 1) / step with hQdef
    have hQ0 : 0 ≤ Q := Int.ediv_nonneg (by omega) (by omega)
    have hL : pyRangeLen start stop step = Q.toNat + 1 := by
      unfold pyRangeLen
      rw [if_pos hs, if_pos hlt]
    have hfd : (stop - start + -1).fdiv step = Q := by
      rw [show stop - start + -1 = stop - start - 1 by ring]
      rw [Int.fdiv_eq_ediv _ (by omega)]
    have hQle : Q * step ≤ stop - start - 1 := Int.ediv_mul_le _ (by omega)
    have hQstep : 0 ≤ Q * step := by nlinarith
    rw [hrs]
    simp only [if_neg (by omega : ¬ step < 0), hfd]
    have hIr : pyIndices ⟨some (Q * step + start),
        if start + -1 = -1 then none else some (start + -1), some (-step)⟩ n
        = (Q * step + start, start - 1, -step) := by
      by_cases hz : start + -1 = -1
      · rw [if_pos hz]
        simp only [pyIndices, Option.getD_some, Prod.mk.injEq]
        split_ifs <;> exact ⟨by omega, by omega, by trivial⟩
      · rw [if_neg hz]
        simp only [pyIndices, Option.getD_some, Prod.mk.injEq]
        split_ifs <;> exact ⟨by omega, by omega, by trivial⟩
    have hsl2 : sliceList ⟨some (Q * step + start),
        if start + -1 = -1 then none else some (start + -1), some (-step)⟩ n
        = pyRangeList (Q * step + start) (start - 1) (-step) := by
      unfold sliceList; rw [hIr]
    rw [hsl2, hsl]
    have hstop2 : Q * step + start = start + step * ((Q.toNat + 1 : Nat) - 1 : Int) := by
      have : ((Q.toNat + 1 : Nat) : Int) - 1 = Q := by omega
      rw [this]; ring
    rw [hstop2]
    apply pyRangeList_rev_eq start step (Q.toNat + 1) stop (start - 1) hL
    have hcast : ((Q.toNat + 1 : Nat) : Int) - 1 = Q := by omega
    rw [hcast]
    unfold pyRangeLen
    rw [if_neg (by omega : ¬ (0:Int) < -step), if_pos (by omega : -step < 0)]
    rw [if_pos (by nlinarith : start - 1 < start + step * Q)]
    have hnum : start + step * Q - (start - 1) - 1 = Q * (- -step) := by ring
    rw [hnum, Int.mul_ediv_cancel _ (by omega)]

/-- Counterexample to C6 as stated: for the empty slice `0:0:1` over
`n = 5`, the reversed slice selects `[4, 3, 2, 1, 0]` rather than the
reversal of the empty selection. -/
theorem sliceReverse_counterexample :
    sliceList (sliceReverse ⟨some 0, some 0, some 1⟩ 5) 5
        = [4, 3, 2, 1, 0] ∧
      (sliceList ⟨some 0, some 0, some 1⟩ 5).reverse = [] ∧
      sliceList (sliceReverse ⟨some 0, some 0, some 1⟩ 5) 5
        ≠ (sliceList ⟨some 0, some 0, some 1⟩ 5).reverse := by
  refine ⟨by decide, by decide, by decide⟩

/-- Witness for C6 (amended) at the spec scenario `slice(None, None, -1)`
with `n = 5`: the reverse selects `[0, 1, 2, 3, 4]`. -/
theorem sliceReverse_correct_witness :
    sliceList (sliceReverse ⟨none, none, some (-1)⟩ 5) 5
        = (sliceList ⟨none, none, some (-1)⟩ 5).reverse ∧
      sliceList (sliceReverse ⟨none, none, some (-1)⟩ 5) 5 = [0, 1, 2, 3, 4] := by
  constructor
  · exact sliceReverse_correct ⟨none, none, some (-1)⟩ 5 (by decide) (by decide)
  · decide

/-- Embeds `chunkIndexGen` from the source: the index list
`range(start, stop, sign(step))` delivered in chunks of `step` items,
as `(slice, nElements)` pairs.  The integral-type checks of the source
are enforced by the `Int` typing; `step is None` never occurs at the
embedded call sites. -/
def chunkIndexGen (start stop step : Int) : List (PySlice × Nat) :=
  let one : Int := if step < 0 then -1 else 1
  (pyRangeList start stop step).map (fun a =>
    let b := if step < 0 then max (a + step) stop else min (a + step) stop
    (⟨some a, if b = -1 then none else some b, some one⟩, (b - a).natAbs))

/-- With a positive step, `chunkIndexGen` is a map producing
ascending unit-step piece slices. -/
theorem chunkIndexGen_pos_eq (start stop st : Int) (hst : 0 < st) :
    chunkIndexGen start stop st = (pyRangeList start stop st).map (fun a =>
      (⟨some a, if min (a + st) stop = -1 then none else some (min (a + st) stop),
        some 1⟩, (min (a + st) stop - a).natAbs)) := by
  simp only [chunkIndexGen, if_neg (show ¬ st < 0 by omega)]

theorem pyRangeLen_one (x y : Int) : pyRangeLen x y 1 = (y - x).toNat := by
  unfold pyRangeLen
  rw [if_pos (by omega : (0:Int) < 1)]
  by_cases h : x < y
  · rw [if_pos h]
    rw [Int.ediv_one]
    omega
  · rw [if_neg h]
    omega

/-- Splitting an ascending unit range at an intermediate point. -/
theorem pyRangeList_append {a b c : Int} (h1 : a ≤ b) (h2 : b ≤ c) :
    pyRangeList a b 1 ++ pyRangeList b c 1 = pyRangeList a c 1 := by
  unfold pyRangeList
  rw [pyRangeLen_one, pyRangeLen_one, pyRangeLen_one]
  have hsum : (c - a).toNat = (b - a).toNat + (c - b).toNat := by omega
  rw [hsum, List.range_add, List.map_append, List.map_map]
  refine congrArg₂ _ rfl ?_
  refine List.map_congr_left (fun k hk => ?_)
  have : ((b - a).toNat : Int) = b - a := by omega
  simp only [Function.comp_apply]
  push_cast
  omega

/-- Elements of `range(0, m, st)` with positive step lie in `[0, m)`. -/
theorem pyRangeList_mem_bounds {m st a : Int} (hst : 0 < st)
    (ha : a ∈ pyRangeList 0 m st) : 0 ≤ a ∧ a < m := by
  unfold pyRangeList at ha
  obtain ⟨k, hk, rfl⟩ := List.mem_map.1 ha
  rw [List.mem_range] at hk
  have hk0 : (0:Int) ≤ st * k := by positivity
  constructor
  · omega
  · unfold pyRangeLen at hk
    rw [if_pos hst] at hk
    by_cases hm : 0 < m
    · rw [if_pos hm] at hk
      have hd : 0 ≤ (m - 0 - 1) / st := Int.ediv_nonneg (by omega) (by omega)
      have hk1 : (k : Int) ≤ (m - 0 - 1) / st := by omega
      have hk2 : st * k ≤ st * ((m - 0 - 1) / st) :=
        mul_le_mul_of_nonneg_left hk1 (by omega)
      have hk3 : ((m - 0 - 1) / st) * st ≤ m - 0 - 1 := Int.ediv_mul_le _ (by omega)
      nlinarith
    · rw [if_neg hm] at hk
      omega

/-- Normalising a slice whose explicit endpoints already lie in `[0, n]`
is the identity. -/
theorem pyIndices_of_pair (a b : Int) (n : Nat) (ha : 0 ≤ a) (ha2 : a ≤ n)
    (hb : 0 ≤ b) (hb2 : b ≤ n) :
    pyIndices ⟨some a, some b, some 1⟩ n = (a, b, 1) := by
  simp only [pyIndices, Option.getD_some, Prod.mk.injEq]
  split_ifs <;> exact ⟨by omega, by omega, by trivial⟩

theorem sliceList_of_pair (a b : Int) (n : Nat) (ha : 0 ≤ a) (ha2 : a ≤ n)
    (hb : 0 ≤ b) (hb2 : b ≤ n) :
    sliceList ⟨some a, some b, some 1⟩ n = pyRangeList a b 1 := by
  unfold sliceList
  rw [pyIndices_of_pair a b n ha ha2 hb hb2]

/-- `slice(None)` over an axis of length `n` selects all of `range(n)`. -/
theorem sliceList_slcNone (n : Nat) : sliceList slcNone n = pyRangeList 0 n 1 := by
  unfold sliceList slcNone
  have : pyIndices ⟨none, none, none⟩ n = (0, (n : Int), 1) := by
    simp only [pyIndices, Option.getD_none, Prod.mk.injEq]
    split_ifs <;> exact ⟨by omega, by omega, by trivial⟩
  rw [this]

/-- The piece slices generated by `chunkIndexGen 0 m st` expand, in
order, to exactly `range(m)`: the partition of one axis is exact. -/
theorem chunkIndexGen_flat (m st : Nat) (hst : 1 ≤ st) :
    ((chunkIndexGen 0 m st).map (fun p => sliceList p.1 m)).flatten
      = pyRangeList 0 m 1 := by
  rw [chunkIndexGen_pos_eq 0 m st (by exact_mod_cast hst), List.map_map]
  have main : ∀ (k : ℕ) (a0 : Int), 0 ≤ a0 → pyRangeLen a0 m st = k →
      ((pyRangeList a0 m st).map ((fun p => sliceList p.1 m) ∘ (fun a =>
        (⟨some a, if min (a + st) m = -1 then none else some (min (a + st) m),
          some 1⟩, (min (a + st) m - a).natAbs)))).flatten
        = pyRangeList a0 m 1 := by
    intro k
    induction k with
    | zero =>
      intro a0 ha0 hlen
      have hnil : pyRangeList a0 m st = [] := by
        unfold pyRangeList
        rw [hlen]
        rfl
      have hge : ¬ (a0 < m) := by
        intro hc
        unfold pyRangeLen at hlen
        rw [if_pos (by exact_mod_cast hst : (0:Int) < st), if_pos hc] at hlen
        omega
      rw [hnil]
      rw [pyRangeList_nil (by omega)]
      rfl
    | succ k ih =>
      intro a0 ha0 hlen
      have hstI : (0:Int) < st := by exact_mod_cast hst
      have hlt : a0 < m := by
        by_contra hc
        unfold pyRangeLen at hlen
        rw [if_pos hstI, if_neg hc] at hlen
        omega
      have hcons : pyRangeList a0 m st = a0 :: pyRangeList (a0 + st) m st :=
        pyRangeList_cons (Or.inl ⟨hstI, hlt⟩)
      rw [hcons, List.map_cons, List.flatten_cons]
      set b : Int := min (a0 + st) m with hbdef
      have hb0 : 0 ≤ b := by omega
      have hbne : ¬ b = -1 := by omega
      have hhead : ((fun p => sliceList p.1 m) ∘ (fun a : Int =>
          ((⟨some a, if min (a + st) (m:Int) = -1 then none
              else some (min (a + st) m), some 1⟩ : PySlice),
           (min (a + st) (m:Int) - a).natAbs))) a0 = pyRangeList a0 b 1 := by
        simp only [Function.comp_apply, ← hbdef, if_neg hbne]
        exact sliceList_of_pair a0 b m ha0 (by omega) hb0 (by omega)
      rw [hhead]
      have hlen' : pyRangeLen (a0 + st) m st = k := by
        have := @pyRangeLen_succ a0 m st (Or.inl ⟨hstI, hlt⟩)
        omega
      rw [ih (a0 + st) (by omega) hlen']
      by_cases hcase : a0 + st ≤ m
      · have hbeq : b = a0 + st := by omega
        rw [hbeq]
        exact pyRangeList_append (by omega) (by omega)
      · have hbeq : b = m := by omega
        have hnil2 : pyRangeList (a0 + st) m 1 = [] := pyRangeList_nil (by omega)
        rw [hbeq, hnil2, List.append_nil]
  exact main (pyRangeLen 0 m st) 0 le_rfl rfl

/-- Each piece of `chunkIndexGen 0 m st` records its true selection
length, which is positive and at most `st`. -/
theorem chunkIndexGen_piece (m st : Nat) (hst : 1 ≤ st) {p : PySlice × Nat}
    (hp : p ∈ chunkIndexGen 0 m st) :
    (sliceList p.1 m).length = p.2 ∧ p.2 ≤ st ∧ 0 < p.2 := by
  rw [chunkIndexGen_pos_eq 0 m st (by exact_mod_cast hst)] at hp
  obtain ⟨a, ha, rfl⟩ := List.mem_map.1 hp
  obtain ⟨ha0, ham⟩ := pyRangeList_mem_bounds (by exact_mod_cast hst) ha
  set b : Int := min (a + st) m with hbdef
  have hab : a < b := by omega
  have hbm : b ≤ m := by omega
  have hbne : ¬ b = -1 := by omega
  simp only [← hbdef, if_neg hbne]
  rw [sliceList_of_pair a b m ha0 (by omega) (by omega) hbm]
  rw [pyRangeList_length, pyRangeLen_one]
  refine ⟨by omega, by omega, by omega⟩

/-- The number of pieces equals the CPython range length of the stride
walk, itself the ceiling `m / st` computed the way the source does. -/
theorem chunkIndexGen_length (m st : Nat) :
    (chunkIndexGen 0 m st).length = pyRangeLen 0 m st := by
  unfold chunkIndexGen
  rw [List.length_map, pyRangeList_length]

theorem pyRangeLen_zero_ceil (m st : Nat) (hst : 0 < st) :
    pyRangeLen 0 m st = m / st + (if m % st ≠ 0 then 1 else 0) := by
  rcases Nat.eq_zero_or_pos m with hm | hm
  · subst hm
    unfold pyRangeLen
    rw [if_pos (by exact_mod_cast hst : (0:Int) < st), if_neg (by omega)]
    simp
  · have key : (m - 1) / st + 1 = m / st + (if m % st ≠ 0 then 1 else 0) := by
      have hq := Nat.div_add_mod m st
      have hrlt : m % st < st := Nat.mod_lt m hst
      rcases Nat.eq_zero_or_pos (m % st) with hr0 | hr0
      · have hqpos : 0 < m / st := by
          rcases Nat.eq_zero_or_pos (m / st) with h0 | h0
          · rw [h0, Nat.mul_zero] at hq; omega
          · exact h0
        obtain ⟨q2, hq2⟩ := Nat.exists_eq_add_of_le hqpos
        have hmul : st * (m / st) = st + st * q2 := by
          rw [hq2, Nat.mul_add, Nat.mul_one]
        have hm1 : m - 1 = (st - 1) + st * q2 := by omega
        rw [hm1, Nat.add_mul_div_left _ _ hst, Nat.div_eq_of_lt (by omega)]
        simp only [if_neg (by omega : ¬ m % st ≠ 0)]
        omega
      · have hm1 : m - 1 = (m % st - 1) + st * (m / st) := by omega
        rw [hm1, Nat.add_mul_div_left _ _ hst, Nat.div_eq_of_lt (by omega)]
        simp only [if_pos (by omega : m % st ≠ 0)]
        omega
    unfold pyRangeLen
    rw [if_pos (by exact_mod_cast hst : (0:Int) < st),
      if_pos (by exact_mod_cast hm : (0:Int) < m)]
    have hcast : ((m:Int) - 0 - 1) / (st:Int) = (((m - 1) / st : Nat) : Int) := by
      have h1 : ((m:Int) - 0 - 1) = ((m - 1 : Nat) : Int) := by omega
      rw [h1]
      exact_mod_cast (Int.ofNat_ediv (m-1) st).symm
    rw [hcast]
    simpa using key

/-- All non-final pieces of `chunkIndexGen 0 m st` have exactly `st`
elements: only the last piece may be shorter. -/
theorem chunkIndexGen_count_full (m st : Nat) (hst : 1 ≤ st) (i : Nat)
    (hi : i < (chunkIndexGen 0 m st).length)
    (hlast : i + 1 < (chunkIndexGen 0 m st).length) :
    ((chunkIndexGen 0 m st).get ⟨i, hi⟩).2 = st := by
  have hstI : (0:Int) < st := by exact_mod_cast hst
  have hlen := chunkIndexGen_length m st
  have heq := chunkIndexGen_pos_eq 0 m st hstI
  rw [List.get_eq_getElem, List.getElem_of_eq heq]
  have hi2 := hi
  rw [heq] at hi2
  rw [List.getElem_map]
  have hi' : i < (pyRangeList 0 m st).length := by
    simpa using hi2
  have hget : (pyRangeList 0 m st)[i] = (0:Int) + st * i := by
    simp [pyRangeList, List.getElem_map]
  rw [hget]
  have hLlen : i + 1 < pyRangeLen 0 m st := by
    rw [hlen] at hlast
    exact hlast
  have hm : 0 < m := by
    by_contra hc
    unfold pyRangeLen at hLlen
    rw [if_pos hstI, if_neg (by omega)] at hLlen
    omega
  have hbound : (st:Int) * i + st ≤ m := by
    unfold pyRangeLen at hLlen
    rw [if_pos hstI, if_pos (by omega : (0:Int) < m)] at hLlen
    have hd : 0 ≤ ((m:Int) - 0 - 1) / st := Int.ediv_nonneg (by omega) (by omega)
    have hk1 : (i : Int) + 1 ≤ ((m:Int) - 0 - 1) / st := by omega
    have hk2 : (st:Int) * (i + 1) ≤ st * (((m:Int) - 0 - 1) / st) :=
      mul_le_mul_of_nonneg_left hk1 (by omega)
    have hk3 : (((m:Int) - 0 - 1) / st) * st ≤ (m:Int) - 0 - 1 :=
      Int.ediv_mul_le _ (by omega)
    nlinarith
  have hbmin : min ((0:Int) + st * i + st) (m:Int) = (0:Int) + st * i + st := by
    omega
  simp only [hbmin]
  omega

/-- Total element count over all pieces of one axis split is the axis
length. -/
theorem chunkIndexGen_sum_counts (m st : Nat) (hst : 1 ≤ st) :
    ((chunkIndexGen 0 m st).map (fun p => p.2)).sum = m := by
  have h1 := chunkIndexGen_flat m st hst
  have h2 : ((chunkIndexGen 0 m st).map (fun p => sliceList p.1 m)).flatten.length
      = m := by
    rw [h1, pyRangeList_length, pyRangeLen_one]
    omega
  rw [List.length_flatten, List.map_map] at h2
  have h2' : ((chunkIndexGen 0 m st).map (fun p => (sliceList p.1 m).length)).sum = m := by
    simpa [Function.comp] using h2
  have heq : (chunkIndexGen 0 m st).map (fun p => p.2)
      = (chunkIndexGen 0 m st).map (fun p => (sliceList p.1 m).length) :=
    List.map_congr_left (fun p hp => ((chunkIndexGen_piece m st hst hp).1).symm)
  rw [heq]
  exact h2'

/-- Embeds `itertools.product` (first factor is the outermost loop). -/
def pyProduct {α : Type _} : List (List α) → List (List α)
  | [] => [[]]
  | l :: ls => l.flatMap (fun x => (pyProduct ls).map (fun c => x :: c))

/-- Apply a list of predicates positionally and conjoin. -/
def allZip {α : Type _} (ps : List (α → Bool)) (c : List α) : Bool :=
  (List.zipWith (fun p x => p x) ps c).all id

/-- Apply a list of weights positionally and multiply. -/
def prodZip {α : Type _} (ws : List (α → Nat)) (c : List α) : Nat :=
  (List.zipWith (fun w x => w x) ws c).prod

theorem sum_map_ite {α : Type _} (p : α → Bool) (N : Nat) (l : List α) :
    (l.map (fun x => if p x then N else 0)).sum = l.countP p * N := by
  induction l with
  | nil => simp
  | cons a l ih =>
    by_cases hpa : p a
    · simp [hpa, ih, List.countP_cons, Nat.add_mul]
      omega
    · simp [hpa, ih, List.countP_cons]

theorem sum_map_mul_right {α : Type _} (l : List α) (f : α → Nat) (S : Nat) :
    (l.map (fun x => f x * S)).sum = (l.map f).sum * S := by
  induction l with
  | nil => simp
  | cons a l ih => simp [ih, Nat.add_mul]

/-- Counting matching tuples in a Cartesian product: the number of tuples
satisfying all positional predicates is the product of the per-factor
match counts. -/
theorem countP_pyProduct {α : Type _} (ps : List (α → Bool)) (ls : List (List α))
    (h : ps.length = ls.length) :
    (pyProduct ls).countP (fun c => allZip ps c)
      = ((ps.zip ls).map (fun q => q.2.countP q.1)).prod := by
  induction ls generalizing ps with
  | nil =>
    rcases ps with _ | ⟨p, ps⟩
    · simp [pyProduct, allZip]
    · simp at h
  | cons l ls ih =>
    rcases ps with _ | ⟨p, ps⟩
    · simp at h
    · simp only [List.length_cons, Nat.add_right_cancel_iff] at h
      unfold pyProduct
      rw [List.flatMap_def, List.countP_flatten, List.map_map]
      have hinner : ∀ x : α,
          ((pyProduct ls).map (fun c => x :: c)).countP (fun c => allZip (p :: ps) c)
            = if p x then (pyProduct ls).countP (fun c => allZip ps c) else 0 := by
        intro x
        rw [List.countP_map]
        by_cases hpx : p x
        · rw [if_pos hpx]
          refine List.countP_congr (fun c _ => ?_)
          simp [Function.comp, allZip, hpx]
        · rw [if_neg hpx]
          refine List.countP_eq_zero.2 (fun c hc => ?_)
          simp [Function.comp, allZip, hpx]
      have hmap2 : List.map ((List.countP fun c => allZip (p :: ps) c) ∘
            fun x => List.map (fun c => x :: c) (pyProduct ls)) l
          = List.map (fun x => if p x then
              List.countP (fun c => allZip ps c) (pyProduct ls) else 0) l :=
        List.map_congr_left (fun x _ => hinner x)
      rw [hmap2, sum_map_ite, ih ps h]
      simp [List.zip_cons_cons]

/-- Summing a positional product weight over a Cartesian product equals
the product of the per-factor weight sums. -/
theorem sum_prodZip_pyProduct {α : Type _} (ws : List (α → Nat)) (ls : List (List α))
    (h : ws.length = ls.length) :
    ((pyProduct ls).map (fun c => prodZip ws c)).sum
      = ((ws.zip ls).map (fun q => (q.2.map q.1).sum)).prod := by
  induction ls generalizing ws with
  | nil =>
    rcases ws with _ | ⟨w, ws⟩
    · simp [pyProduct, prodZip]
    · simp at h
  | cons l ls ih =>
    rcases ws with _ | ⟨w, ws⟩
    · simp at h
    · simp only [List.length_cons, Nat.add_right_cancel_iff] at h
      unfold pyProduct
      rw [List.flatMap_def, List.map_flatten, List.map_map, List.sum_flatten,
        List.map_map]
      have hinner : ∀ x : α,
          (((pyProduct ls).map (fun c => x :: c)).map (fun c => prodZip (w :: ws) c)).sum
            = w x * ((pyProduct ls).map (fun c => prodZip ws c)).sum := by
        intro x
        rw [List.map_map]
        have : ((pyProduct ls).map ((fun c => prodZip (w :: ws) c) ∘ (fun c => x :: c)))
            = (pyProduct ls).map (fun c => w x * prodZip ws c) :=
          List.map_congr_left (fun c _ => by simp [Function.comp, prodZip])
        rw [this]
        have h2 : ((pyProduct ls).map (fun c => w x * prodZip ws c))
            = (pyProduct ls).map (fun c => (prodZip ws c) * w x) :=
          List.map_congr_left (fun c _ => by ring)
        rw [h2, sum_map_mul_right]
        ring
      have hmap2 : List.map (List.sum ∘ (List.map fun c => prodZip (w :: ws) c) ∘
            fun x => List.map (fun c => x :: c) (pyProduct ls)) l
          = List.map (fun x => w x * ((pyProduct ls).map (fun c => prodZip ws c)).sum) l :=
        List.map_congr_left (fun x _ => hinner x)
      rw [hmap2, sum_map_mul_right, ih ws h]
      simp [List.zip_cons_cons]

/-- Destructuring a successful `Except` bind. -/
theorem bindOk {ε α β : Type _} {x : Except ε α} {f : α → Except ε β} {r : β}
    (h : x.bind f = .ok r) : ∃ a, x = .ok a ∧ f a = .ok r := by
  cases x with
  | error e => exact absurd h (by simp [Except.bind])
  | ok a => exact ⟨a, rfl, by simpa [Except.bind] using h⟩

/-- Python `int(bool(k))`. -/
def intBool (k : Nat) : Nat := if k ≠ 0 then 1 else 0

/-- `a/b + int(bool(a%b))` is the ceiling of `a / b`; it is positive for
positive `a`. -/
theorem ceil_pos (a b : Nat) (ha : 1 ≤ a) (hb : 1 ≤ b) :
    1 ≤ a / b + intBool (a % b) := by
  unfold intBool
  rcases Nat.lt_or_ge a b with h | h
  · rw [Nat.div_eq_of_lt h, Nat.mod_eq_of_lt h, if_pos (by omega)]
  · have h1 : 1 ≤ a / b := (Nat.one_le_div_iff hb).2 h
    omega

theorem ceil_mul_ge (a b : Nat) (hb : 1 ≤ b) :
    a ≤ (a / b + intBool (a % b)) * b := by
  have h1 := Nat.div_add_mod a b
  have h2 : a % b < b := Nat.mod_lt a hb
  unfold intBool
  by_cases h : a % b ≠ 0
  · rw [if_pos h, Nat.add_mul, Nat.one_mul, Nat.mul_comm (a / b) b]
    omega
  · rw [if_neg h, Nat.add_zero, Nat.mul_comm (a / b) b]
    omega

theorem ceil_div_le (a n s : Nat) (hn : 1 ≤ n) (h : a ≤ n * s) :
    a / n + intBool (a % n) ≤ s := by
  have h1 := Nat.div_add_mod a n
  have h2 : a % n < n := Nat.mod_lt a hn
  have hd : a / n ≤ s := by
    calc a / n ≤ (n * s) / n := Nat.div_le_div_right h
    _ = s := Nat.mul_div_cancel_left s hn
  unfold intBool
  by_cases hmod : a % n ≠ 0
  · rw [if_pos hmod]
    rcases Nat.lt_or_ge (a / n) s with h3 | h3
    · omega
    · have he : a / n = s := le_antisymm hd h3
      rw [he] at h1
      omega
  · rw [if_neg hmod]
    omega

/-- Embeds the loop over `axesOrder` in `fullChunkIndex` (source lines
209-235): walk the order axes accumulating `nItems` (product of already
visited axis sizes) and `nBuffer` (rows held by one chunk), producing for
each axis its list of `(slice, length)` pieces.  The three branches are
the source's: consume the axis whole, split into unit pieces, or split
into `ceil(nAxis / step)` equalised pieces. -/
def fciLoop (shape : List Nat) (cap : Nat) : List Int → Nat → Nat →
    Except PyErr (List (List (PySlice × Nat)) × Nat)
  | [], _, nBuffer => .ok ([], nBuffer)
  | axis :: rest, nItems, nBuffer =>
    (pyGet shape axis).bind (fun nAxis =>
      let nItemsNew := nItems * nAxis
      let q : List (PySlice × Nat) × Nat :=
        if nItemsNew ≤ cap then ([(slcNone, nAxis)], nBuffer * nAxis)
        else if cap < nItems then (chunkIndexGen 0 nAxis 1, nBuffer)
        else
          let step := cap / nItems
          let n := nAxis / step + intBool (nAxis % step)
          let step2 := nAxis / n + intBool (nAxis % n)
          (chunkIndexGen 0 nAxis step2, nBuffer * step2)
      (fciLoop shape cap rest nItemsNew q.2).bind (fun r =>
        .ok (q.1 :: r.1, r.2)))

/-- Embeds the `chunkAxesSlice` validation of `chunkIndexParameters`. -/
def cipSlice (cAxes : List Int) (chunkAxesSlice : Option (List PySlice)) :
    Except PyErr (List PySlice) :=
  match chunkAxesSlice with
  | none => .ok (List.replicate cAxes.length slcNone)
  | some s =>
    if cAxes.length = s.length then .ok s
    else .error (.valueError "Chunk slicing does not correspond with chunk dimensions")

/-- Embeds the default `axesOrder` computation of `chunkIndexParameters`:
all dimensions, reversed for C order, with the chunk axes removed. -/
def cipDefaultOrder (ndim : Nat) (cAxes : List Int) (defaultOrderC : Bool) :
    List Int :=
  let a0 := (List.range ndim).map (fun i : Nat => (i : Int))
  let a1 := if defaultOrderC then a0.reverse else a0
  a1.filter (fun i => decide (i ∉ cAxes))

/-- Embeds the `axesOrder` validation of `chunkIndexParameters`: a
caller-supplied order must be a rearrangement (equal sorted lists) of the
default one. -/
def cipOrder (ndim : Nat) (aAxesOrder : List Int) (axesOrder : Option (List Int)) :
    Except PyErr (List Int) :=
  match axesOrder with
  | none => .ok aAxesOrder
  | some ao =>
    let ao2 := ao.map (fun i => possitive_index i ndim)
    if List.insertionSort (fun a b => a ≤ b) ao2
        = List.insertionSort (fun a b => a ≤ b) aAxesOrder
    then .ok ao2
    else .error (.valueError "axesOrder and chunkAxes do not correspond")

/-- Embeds `chunkIndexParameters` from the source: normalise and
cross-check the chunk/order axis assignment, and coerce the capacity to
at least 1. -/
def chunkIndexParameters (shape : List Nat) (nChunksMax : Nat)
    (chunkAxes : Option (List Int)) (axesOrder : Option (List Int))
    (chunkAxesSlice : Option (List PySlice)) (defaultOrderC : Bool) :
    Except PyErr (Nat × List Int × List Int × List PySlice) :=
  let ndim := shape.length
  let cAxes := (chunkAxes.getD []).map (fun i => possitive_index i ndim)
  (cipSlice cAxes chunkAxesSlice).bind (fun cSlice =>
    (cipOrder ndim (cipDefaultOrder ndim cAxes defaultOrderC) axesOrder).bind
      (fun aOrder => .ok (max nChunksMax 1, cAxes, aOrder, cSlice)))

/-- Embeds `fullChunkIndex` from the source: per-dimension lists of
`(slice, length)` pieces whose Cartesian product is the set of chunk
indices, plus the resolved axes and the buffer row count `nBuffer`. -/
def fullChunkIndex (shape : List Nat) (nChunksMax : Nat)
    (chunkAxes : Option (List Int)) (axesOrder : Option (List Int))
    (chunkAxesSlice : Option (List PySlice)) (defaultOrderC : Bool) :
    Except PyErr (List (List (PySlice × Nat)) × List Int × List Int × Nat) :=
  (chunkIndexParameters shape nChunksMax chunkAxes axesOrder chunkAxesSlice
      defaultOrderC).bind (fun par =>
    let cap := par.1
    let cAxes := par.2.1
    let aOrder := par.2.2.1
    let cSlice := par.2.2.2
    ((cAxes.zip cSlice).mapM (fun q =>
        (pyGet shape q.1).bind (fun nAxis =>
          .ok [(q.2, (sliceLen q.2 nAxis).toNat)]))).bind (fun chunkIndex1 =>
      (fciLoop shape cap aOrder 1 1).bind (fun r =>
        .ok (chunkIndex1 ++ r.1.reverse, cAxes, aOrder, r.2))))

/-- Embeds `chunkIndexProduct` from the source: iterate the Cartesian
product of the per-dimension piece lists (last entry is the inner loop),
assembling for each combination the full-dimensional index, the chunk
shape and the row count.  The source allocates `idxData`/`chunkShape`
once outside the loop; since every iteration overwrites exactly the
positions listed in `axes`, re-assembling from fresh `None` lists per
combination is observationally identical. -/
def chunkIndexProduct (chunkIndex : List (List (PySlice × Nat)))
    (chunkAxes axesOrder : List Int) :
    Except PyErr (List (List (Option PySlice) × List (Option Nat) × Nat)) :=
  let axes := chunkAxes ++ axesOrder.reverse
  let ndim := axes.length
  (pyProduct chunkIndex).mapM (fun idxChunk =>
    (axes.zip idxChunk).foldlM
      (fun st q =>
        (pySet st.1 q.1 (some q.2.1)).bind (fun idxData =>
          (pySet st.2.1 q.1 (some q.2.2)).bind (fun chunkShape =>
            .ok (idxData, chunkShape,
              if q.1 ∈ axesOrder then st.2.2 * q.2.2 else st.2.2))))
      ((List.replicate ndim none, List.replicate ndim none, 1) :
        List (Option PySlice) × List (Option Nat) × Nat))

/-- Invariant of the dense planner loop: on success it returns one piece
list per order axis; each piece records its true selection length, bounded
by a per-axis contribution; the pieces of each axis expand in order to
exactly `range(nAxis)`; and `nBuffer` is the entry buffer times the
product of the contributions, never exceeding the capacity. -/
theorem fciLoop_spec (shape : List Nat) (cap : Nat) :
    ∀ (axes : List Int) (nItems nBuffer : Nat)
      (res : List (List (PySlice × Nat)) × Nat),
      fciLoop shape cap axes nItems nBuffer = .ok res →
      nBuffer ≤ nItems → nBuffer ≤ cap →
      ∃ details : List (Nat × Nat),
        details.length = axes.length ∧
        res.1.length = axes.length ∧
        res.2 = nBuffer * (details.map (fun d => d.2)).prod ∧
        res.2 ≤ cap ∧
        ∀ i, i < axes.length →
          pyGet shape (axes.getD i 0) = .ok (details.getD i (0, 0)).1 ∧
          (((res.1.getD i []).map
              (fun p => sliceList p.1 (details.getD i (0, 0)).1)).flatten
            = pyRangeList 0 (details.getD i (0, 0)).1 1) ∧
          ∀ p ∈ res.1.getD i [],
            (sliceList p.1 (details.getD i (0, 0)).1).length = p.2 ∧
              p.2 ≤ (details.getD i (0, 0)).2 := by
  intro axes
  induction axes with
  | nil =>
    intro nItems nBuffer res h hBN hBC
    simp only [fciLoop, Except.ok.injEq] at h
    refine ⟨[], by simp, by simp [← h], by simp [← h], by rw [← h]; exact hBC, ?_⟩
    intro i hi
    simp at hi
  | cons axis rest ih =>
    intro nItems nBuffer res h hBN hBC
    unfold fciLoop at h
    obtain ⟨nAxis, hget, h2⟩ := bindOk h
    by_cases hc1 : nItems * nAxis ≤ cap
    · -- branch 1: consume the whole axis
      simp only [if_pos hc1] at h2
      obtain ⟨r, hrec, h3⟩ := bindOk h2
      have hres : res = ([(slcNone, nAxis)] :: r.1, r.2) := by
        simpa using h3.symm
      have hBN2 : nBuffer * nAxis ≤ nItems * nAxis := Nat.mul_le_mul_right nAxis hBN
      have hBC2 : nBuffer * nAxis ≤ cap := le_trans hBN2 hc1
      obtain ⟨details, hdl, hrl, hprod, hcapb, hpos⟩ :=
        ih (nItems * nAxis) (nBuffer * nAxis) r hrec hBN2 hBC2
      refine ⟨(nAxis, nAxis) :: details, by simp [hdl], by simp [hres, hrl], ?_, ?_, ?_⟩
      · rw [hres]
        simp only [List.map_cons, List.prod_cons]
        rw [hprod]
        ring
      · rw [hres]; exact hcapb
      · intro i hi
        rw [hres]
        cases i with
        | zero =>
          simp only [List.getD_cons_zero]
          refine ⟨hget, ?_, ?_⟩
          · simp only [List.map_cons, List.map_nil, List.flatten_cons,
              List.flatten_nil, List.append_nil]
            exact sliceList_slcNone nAxis
          · intro p hp
            simp only [List.mem_singleton] at hp
            subst hp
            refine ⟨?_, le_rfl⟩
            rw [sliceList_slcNone nAxis, pyRangeList_length, pyRangeLen_one]
            omega
        | succ j =>
          simp only [List.getD_cons_succ]
          have hj : j < rest.length := by simpa using hi
          exact hpos j hj
    · by_cases hc2 : cap < nItems
      · -- branch 2: capacity exhausted, unit pieces
        simp only [if_neg hc1, if_pos hc2] at h2
        obtain ⟨r, hrec, h3⟩ := bindOk h2
        have hres : res = (chunkIndexGen 0 nAxis 1 :: r.1, r.2) := by
          simpa using h3.symm
        have hA1 : 1 ≤ nAxis := by
          by_contra hA
          have h0 : nAxis = 0 := by omega
          rw [h0, Nat.mul_zero] at hc1
          exact hc1 (Nat.zero_le cap)
        have hBN2 : nBuffer ≤ nItems * nAxis :=
          le_trans hBN (Nat.le_mul_of_pos_right nItems hA1)
        obtain ⟨details, hdl, hrl, hprod, hcapb, hpos⟩ :=
          ih (nItems * nAxis) nBuffer r hrec hBN2 hBC
        refine ⟨(nAxis, 1) :: details, by simp [hdl], by simp [hres, hrl], ?_, ?_, ?_⟩
        · rw [hres]
          simp only [List.map_cons, List.prod_cons]
          rw [hprod]
          ring
        · rw [hres]; exact hcapb
        · intro i hi
          rw [hres]
          cases i with
          | zero =>
            simp only [List.getD_cons_zero]
            refine ⟨hget, ?_, ?_⟩
            · have := chunkIndexGen_flat nAxis 1 le_rfl
              simpa using this
            · intro p hp
              have hp2 : p ∈ chunkIndexGen 0 (nAxis : Int) ((1:Nat) : Int) := by
                simpa using hp
              have := chunkIndexGen_piece nAxis 1 le_rfl hp2
              exact ⟨this.1, this.2.1⟩
          | succ j =>
            simp only [List.getD_cons_succ]
            have hj : j < rest.length := by simpa using hi
            exact hpos j hj
      · -- branch 3: split the boundary axis into equalised pieces
        simp only [if_neg hc1, if_neg hc2] at h2
        obtain ⟨r, hrec, h3⟩ := bindOk h2
        set step : Nat := cap / nItems with hstepdef
        set n1 : Nat := nAxis / step + intBool (nAxis % step) with hn1def
        set step2 : Nat := nAxis / n1 + intBool (nAxis % n1) with hstep2def
        have hres : res = (chunkIndexGen 0 nAxis step2 :: r.1, r.2) := by
          simpa using h3.symm
        have hA1 : 1 ≤ nAxis := by
          by_contra hA
          have h0 : nAxis = 0 := by omega
          rw [h0, Nat.mul_zero] at hc1
          exact hc1 (Nat.zero_le cap)
        have hI1 : 1 ≤ nItems := by
          by_contra hI
          have h0 : nItems = 0 := by omega
          rw [h0, Nat.zero_mul] at hc1
          exact hc1 (Nat.zero_le cap)
        have hstep1 : 1 ≤ step := (Nat.one_le_div_iff hI1).2 (le_of_not_lt hc2)
        have hn1pos : 1 ≤ n1 := ceil_pos nAxis step hA1 hstep1
        have hstep2pos : 1 ≤ step2 := ceil_pos nAxis n1 hA1 hn1pos
        have hle : nAxis ≤ n1 * step := by
          have := ceil_mul_ge nAxis step hstep1
          rw [← hn1def] at this
          exact this
        have hs2le : step2 ≤ step := ceil_div_le nAxis n1 step hn1pos hle
        have hBC2 : nBuffer * step2 ≤ cap := by
          calc nBuffer * step2 ≤ nItems * step := Nat.mul_le_mul hBN hs2le
          _ = step * nItems := Nat.mul_comm _ _
          _ ≤ cap := Nat.div_mul_le_self cap nItems
        have hBN2 : nBuffer * step2 ≤ nItems * nAxis := by
          have : cap < nItems * nAxis := lt_of_not_ge hc1
          omega
        obtain ⟨details, hdl, hrl, hprod, hcapb, hpos⟩ :=
          ih (nItems * nAxis) (nBuffer * step2) r hrec hBN2 hBC2
        refine ⟨(nAxis, step2) :: details, by simp [hdl], by simp [hres, hrl],
          ?_, ?_, ?_⟩
        · rw [hres]
          simp only [List.map_cons, List.prod_cons]
          rw [hprod]
          ring
        · rw [hres]; exact hcapb
        · intro i hi
          rw [hres]
          cases i with
          | zero =>
            simp only [List.getD_cons_zero]
            refine ⟨hget, ?_, ?_⟩
            · exact chunkIndexGen_flat nAxis step2 hstep2pos
            · intro p hp
              have := chunkIndexGen_piece nAxis step2 hstep2pos hp
              exact ⟨this.1, this.2.1⟩
          | succ j =>
            simp only [List.getD_cons_succ]
            have hj : j < rest.length := by simpa using hi
            exact hpos j hj

theorem pyGet_ok {α : Type _} (l : List α) (i : Int) (d : α)
    (h0 : 0 ≤ i) (h1 : i.toNat < l.length) :
    pyGet l i = .ok (l.getD i.toNat d) := by
  unfold pyGet
  simp only [if_neg (by omega : ¬ i < 0)]
  rw [dif_pos ⟨h0, h1⟩]
  rw [List.getD_eq_getElem l d h1]
  rfl

theorem pySet_ok {α : Type _} (l : List α) (i : Int) (v : α)
    (h0 : 0 ≤ i) (h1 : i.toNat < l.length) :
    pySet l i v = .ok (l.set i.toNat v) := by
  unfold pySet
  simp only [if_neg (by omega : ¬ i < 0)]
  rw [if_pos ⟨h0, h1⟩]

/-- Destructuring a successful monadic `Except` bind. -/
theorem bindOkM {ε α β : Type _} {x : Except ε α} {f : α → Except ε β} {r : β}
    (h : (x >>= f) = .ok r) : ∃ a, x = .ok a ∧ f a = .ok r := by
  cases x with
  | error e => exact absurd h (by simp [Bind.bind, Except.bind])
  | ok a => exact ⟨a, rfl, by simpa [Bind.bind, Except.bind] using h⟩

theorem mapM_ok_of_forall {ε α β : Type _} (f : α → Except ε β) (g : α → β) :
    ∀ (l : List α), (∀ x ∈ l, f x = .ok (g x)) → l.mapM f = .ok (l.map g) := by
  intro l
  induction l with
  | nil => intro _; rfl
  | cons a l ih =>
    intro h
    rw [List.mapM_cons, h a (by simp), ih (fun x hx => h x (by simp [hx]))]
    rfl

theorem mapM_ok_mem {ε α β : Type _} {f : α → Except ε β} :
    ∀ {l : List α} {ys : List β}, l.mapM f = .ok ys →
      ys.length = l.length ∧ ∀ y ∈ ys, ∃ x ∈ l, f x = .ok y := by
  intro l
  induction l with
  | nil =>
    intro ys h
    have : ys = [] := by
      have h2 : (Except.ok [] : Except ε (List β)) = .ok ys := h
      simpa using h2
    subst this
    exact ⟨rfl, by simp⟩
  | cons a l ih =>
    intro ys h
    rw [List.mapM_cons] at h
    obtain ⟨b, hb, h2⟩ := bindOkM h
    obtain ⟨bs, hbs, h3⟩ := bindOkM h2
    have hys : b :: bs = ys := by
      have h4 : (Except.ok (b :: bs) : Except ε (List β)) = .ok ys := h3
      simpa using h4
    subst hys
    obtain ⟨hl, hmem⟩ := ih hbs
    refine ⟨by simp [hl], ?_⟩
    intro y hy
    rcases List.mem_cons.1 hy with hy | hy
    · exact ⟨a, by simp, hy ▸ hb⟩
    · obtain ⟨x, hx, hfx⟩ := hmem y hy
      exact ⟨x, by simp [hx], hfx⟩

theorem pyProduct_length {α : Type _} :
    ∀ {ls : List (List α)} {c : List α}, c ∈ pyProduct ls → c.length = ls.length := by
  intro ls
  induction ls with
  | nil =>
    intro c hc
    simp [pyProduct] at hc
    simp [hc]
  | cons l ls ih =>
    intro c hc
    simp only [pyProduct, List.mem_flatMap, List.mem_map] at hc
    obtain ⟨x, _, c', hc', rfl⟩ := hc
    simp [ih hc']

theorem pyProduct_getD_mem {α : Type _} (d : α) :
    ∀ {ls : List (List α)} {c : List α}, c ∈ pyProduct ls →
      ∀ j, j < ls.length → c.getD j d ∈ ls.getD j [] := by
  intro ls
  induction ls with
  | nil =>
    intro c _ j hj
    simp at hj
  | cons l ls ih =>
    intro c hc j hj
    simp only [pyProduct, List.mem_flatMap, List.mem_map] at hc
    obtain ⟨x, hx, c', hc', rfl⟩ := hc
    cases j with
    | zero => simpa using hx
    | succ j =>
      simp only [List.getD_cons_succ]
      exact ih hc' j (by simpa using hj)

theorem getD_reverse {α : Type _} (l : List α) (k : Nat) (h : k < l.length) (d : α) :
    l.reverse.getD k d = l.getD (l.length - 1 - k) d := by
  rw [List.getD_eq_getElem?_getD, List.getD_eq_getElem?_getD,
    List.getElem?_reverse h]

theorem getD_zip {α β : Type _} (l1 : List α) (l2 : List β) (t : Nat) (d1 : α)
    (d2 : β) (h1 : t < l1.length) (h2 : t < l2.length) :
    (l1.zip l2).getD t (d1, d2) = (l1.getD t d1, l2.getD t d2) := by
  rw [List.getD_eq_getElem _ _ (show t < (l1.zip l2).length by
      rw [List.length_zip]; exact Nat.lt_min.2 ⟨h1, h2⟩),
    List.getElem_zip, List.getD_eq_getElem _ _ h1, List.getD_eq_getElem _ _ h2]

/-- A list of distinct elements injects into any list containing them. -/
theorem nodup_subset_length_le {α : Type _} [DecidableEq α] {l1 l2 : List α}
    (h1 : l1.Nodup) (hsub : ∀ a ∈ l1, a ∈ l2) : l1.length ≤ l2.length := by
  have h2 : l1.toFinset.card = l1.length := List.toFinset_card_of_nodup h1
  have h3 : l1.toFinset ⊆ l2.toFinset :=
    fun a ha => List.mem_toFinset.2 (hsub a (List.mem_toFinset.1 ha))
  calc l1.length = l1.toFinset.card := h2.symm
  _ ≤ l2.toFinset.card := Finset.card_le_card h3
  _ ≤ l2.length := List.toFinset_card_le l2

theorem allZip_cons {α : Type _} (p : α → Bool) (ps : List (α → Bool))
    (x : α) (c : List α) :
    allZip (p :: ps) (x :: c) = (p x && allZip ps c) := by
  simp [allZip]

theorem allZip_iff {α : Type _} (dp : α → Bool) (d : α) :
    ∀ (ps : List (α → Bool)) (c : List α), ps.length = c.length →
      (allZip ps c = true ↔ ∀ t, t < ps.length → (ps.getD t dp) (c.getD t d) = true) := by
  intro ps
  induction ps with
  | nil =>
    intro c h
    simp [allZip]
  | cons p ps ih =>
    intro c h
    rcases c with _ | ⟨x, c⟩
    · simp at h
    · simp only [List.length_cons, Nat.add_right_cancel_iff] at h
      have hih := ih c h
      rw [allZip_cons, Bool.and_eq_true]
      constructor
      · intro hall t ht
        cases t with
        | zero => simpa using hall.1
        | succ t =>
          simp only [List.getD_cons_succ]
          exact hih.1 hall.2 t (by simpa using ht)
      · intro hfa
        have h0 : p x = true := by simpa using hfa 0 (by simp)
        have hrest : allZip ps c = true :=
          hih.2 (fun t ht => by simpa using hfa (t + 1) (by simpa using ht))
        exact ⟨h0, hrest⟩

/-- A list of naturals summing to 1 has exactly one positive entry. -/
theorem sum_one_countP_pos {l : List Nat} (h : l.sum = 1) :
    l.countP (fun k => decide (0 < k)) = 1 := by
  induction l with
  | nil => simp at h
  | cons k l ih =>
    simp only [List.sum_cons] at h
    rcases Nat.eq_zero_or_pos k with hk | hk
    · subst hk
      rw [List.countP_cons_of_neg _ _ (by simp)]
      exact ih (by omega)
    · have hk1 : k = 1 := by omega
      have hl0 : l.sum = 0 := by omega
      have hall : ∀ x ∈ l, ¬ (decide (0 < x) = true) := by
        intro x hx
        have : x = 0 := List.sum_eq_zero_iff.1 hl0 x hx
        simp [this]
      rw [List.countP_cons_of_pos _ _ (by simp [hk]), List.countP_eq_zero.2 hall]

/-- If the pieces of one axis expand exactly to `range(m)`, then every
in-range index belongs to exactly one piece. -/
theorem flat_exact_countP (m : Nat) (pieces : List (PySlice × Nat))
    (hflat : ((pieces.map (fun p => sliceList p.1 m)).flatten = pyRangeList 0 m 1))
    (j : Int) (hj0 : 0 ≤ j) (hjm : j < (m : Int)) :
    pieces.countP (fun p => decide (j ∈ sliceList p.1 m)) = 1 := by
  have hmem : j ∈ pyRangeList 0 m 1 := by
    unfold pyRangeList
    rw [List.mem_map]
    refine ⟨j.toNat, ?_, show 0 + 1 * ((j.toNat : Nat) : Int) = j by omega⟩
    rw [List.mem_range, pyRangeLen_one]
    omega
  have hnd : (pyRangeList 0 m 1).Nodup := by
    unfold pyRangeList
    refine List.Nodup.map ?_ (List.nodup_range _)
    intro a b hab
    have h2 : 0 + 1 * (a : Int) = 0 + 1 * (b : Int) := hab
    omega
  have hcount : ((pieces.map (fun p => sliceList p.1 m)).flatten).count j = 1 := by
    rw [hflat]
    exact List.count_eq_one_of_mem hnd hmem
  rw [List.count_flatten, List.map_map] at hcount
  have hstep : pieces.countP (fun p => decide (j ∈ sliceList p.1 m))
      = (pieces.map (List.count j ∘ fun p => sliceList p.1 m)).countP
          (fun k => decide (0 < k)) := by
    rw [List.countP_map]
    refine List.countP_congr (fun p _ => ?_)
    simp [Function.comp, List.count_pos_iff]
  rw [hstep]
  exact sum_one_countP_pos hcount

/-- One step of the chunk-assembly fold in `chunkIndexProduct` (pure
form, after the in-range index checks have succeeded). -/
def assembleStep (axesOrder : List Int)
    (st : List (Option PySlice) × List (Option Nat) × Nat)
    (q : Int × (PySlice × Nat)) :
    List (Option PySlice) × List (Option Nat) × Nat :=
  (st.1.set q.1.toNat (some q.2.1), st.2.1.set q.1.toNat (some q.2.2),
    if q.1 ∈ axesOrder then st.2.2 * q.2.2 else st.2.2)

/-- Pure form of one `chunkIndexProduct` iteration: assign each axis its
piece and multiply the order-axis lengths into the count. -/
def assembleChunk (axes axesOrder : List Int) (idxChunk : List (PySlice × Nat)) :
    List (Option PySlice) × List (Option Nat) × Nat :=
  (axes.zip idxChunk).foldl (assembleStep axesOrder)
    (List.replicate axes.length none, List.replicate axes.length none, 1)

theorem foldl_assemble_count (axesOrder : List Int) :
    ∀ (ps : List (Int × (PySlice × Nat)))
      (st0 : List (Option PySlice) × List (Option Nat) × Nat),
      (ps.foldl (assembleStep axesOrder) st0).2.2
        = st0.2.2 * (ps.map (fun q => if q.1 ∈ axesOrder then q.2.2 else 1)).prod := by
  intro ps
  induction ps with
  | nil => intro st0; simp
  | cons q ps ih =>
    intro st0
    rw [List.foldl_cons, ih]
    simp only [assembleStep, List.map_cons, List.prod_cons]
    by_cases hq : q.1 ∈ axesOrder
    · rw [if_pos hq, if_pos hq]
      ring
    · rw [if_neg hq, if_neg hq]
      ring

theorem foldl_assemble_length (axesOrder : List Int) :
    ∀ (ps : List (Int × (PySlice × Nat)))
      (st0 : List (Option PySlice) × List (Option Nat) × Nat),
      (ps.foldl (assembleStep axesOrder) st0).1.length = st0.1.length ∧
      (ps.foldl (assembleStep axesOrder) st0).2.1.length = st0.2.1.length := by
  intro ps
  induction ps with
  | nil => intro st0; exact ⟨rfl, rfl⟩
  | cons q ps ih =>
    intro st0
    rw [List.foldl_cons]
    obtain ⟨h1, h2⟩ := ih (assembleStep axesOrder st0 q)
    refine ⟨?_, ?_⟩
    · rw [h1]; simp [assembleStep]
    · rw [h2]; simp [assembleStep]

/-- Positions untouched by the fold keep their value. -/
theorem foldl_assemble_preserve (axesOrder : List Int) :
    ∀ (ps : List (Int × (PySlice × Nat)))
      (st0 : List (Option PySlice) × List (Option Nat) × Nat) (pos : Nat),
      (∀ q ∈ ps, q.1.toNat ≠ pos) →
      (ps.foldl (assembleStep axesOrder) st0).1.getD pos none = st0.1.getD pos none ∧
      (ps.foldl (assembleStep axesOrder) st0).2.1.getD pos none = st0.2.1.getD pos none := by
  intro ps
  induction ps with
  | nil => intro st0 pos _; exact ⟨rfl, rfl⟩
  | cons q ps ih =>
    intro st0 pos hne
    rw [List.foldl_cons]
    obtain ⟨h1, h2⟩ := ih (assembleStep axesOrder st0 q) pos
      (fun r hr => hne r (by simp [hr]))
    have hq : q.1.toNat ≠ pos := hne q (by simp)
    refine ⟨?_, ?_⟩
    · rw [h1]
      simp only [assembleStep, List.getD_eq_getElem?_getD, List.getElem?_set_ne hq]
    · rw [h2]
      simp only [assembleStep, List.getD_eq_getElem?_getD, List.getElem?_set_ne hq]

/-- After the fold, position `j`'s axis holds exactly the `j`-th piece,
provided the axes are distinct, non-negative and in range. -/
theorem foldl_assemble_lookup (axesOrder : List Int) :
    ∀ (ps : List (Int × (PySlice × Nat)))
      (st0 : List (Option PySlice) × List (Option Nat) × Nat),
      (ps.map (fun q => q.1)).Nodup →
      (∀ q ∈ ps, 0 ≤ q.1 ∧ q.1.toNat < st0.1.length ∧ q.1.toNat < st0.2.1.length) →
      ∀ j, j < ps.length →
        (ps.foldl (assembleStep axesOrder) st0).1.getD
            (ps.getD j (0, slcNone, 0)).1.toNat none
          = some (ps.getD j (0, slcNone, 0)).2.1 ∧
        (ps.foldl (assembleStep axesOrder) st0).2.1.getD
            (ps.getD j (0, slcNone, 0)).1.toNat none
          = some (ps.getD j (0, slcNone, 0)).2.2 := by
  intro ps
  induction ps with
  | nil => intro st0 _ _ j hj; simp at hj
  | cons q ps ih =>
    intro st0 hnd hrange j hj
    rw [List.foldl_cons]
    have hndtail : (ps.map (fun q => q.1)).Nodup := by
      simpa using List.Nodup.of_cons hnd
    have hnotin : q.1 ∉ ps.map (fun r => r.1) := by
      have h5 := hnd
      rw [List.map_cons, List.nodup_cons] at h5
      exact fun hc => h5.1 hc
    have hqnotin : ∀ r ∈ ps, r.1.toNat ≠ q.1.toNat := by
      intro r hr
      have hr1 : r.1 ∈ ps.map (fun r => r.1) := List.mem_map_of_mem _ hr
      have hne : q.1 ≠ r.1 := fun hc => hnotin (hc ▸ hr1)
      have hq0 : 0 ≤ q.1 := (hrange q (by simp)).1
      have hr0 : 0 ≤ r.1 := (hrange r (by simp [hr])).1
      omega
    cases j with
    | zero =>
      simp only [List.getD_cons_zero]
      obtain ⟨hp1, hp2⟩ := foldl_assemble_preserve axesOrder ps
        (assembleStep axesOrder st0 q) q.1.toNat hqnotin
      have hq0 := hrange q (by simp)
      refine ⟨?_, ?_⟩
      · rw [hp1]
        simp only [assembleStep, List.getD_eq_getElem?_getD,
          List.getElem?_set_self hq0.2.1]
        rfl
      · rw [hp2]
        simp only [assembleStep, List.getD_eq_getElem?_getD,
          List.getElem?_set_self hq0.2.2]
        rfl
    | succ j =>
      simp only [List.getD_cons_succ]
      refine ih (assembleStep axesOrder st0 q) hndtail ?_ j (by simpa using hj)
      intro r hr
      obtain ⟨h0, h1, h2⟩ := hrange r (by simp [hr])
      refine ⟨h0, ?_, ?_⟩
      · simpa [assembleStep] using h1
      · simpa [assembleStep] using h2

/-- When every axis index is non-negative and in range, the monadic
assembly of `chunkIndexProduct` succeeds and equals the pure
`assembleChunk` over the Cartesian product. -/
theorem chunkIndexProduct_eq (chunkIndex : List (List (PySlice × Nat)))
    (cAxes aOrder : List Int)
    (hval : ∀ a ∈ cAxes ++ aOrder.reverse,
      0 ≤ a ∧ a.toNat < (cAxes ++ aOrder.reverse).length) :
    chunkIndexProduct chunkIndex cAxes aOrder
      = .ok ((pyProduct chunkIndex).map
          (fun combo => assembleChunk (cAxes ++ aOrder.reverse) aOrder combo)) := by
  unfold chunkIndexProduct
  apply mapM_ok_of_forall
  intro combo _
  unfold assembleChunk
  set axes : List Int := cAxes ++ aOrder.reverse with haxes
  set st0 : List (Option PySlice) × List (Option Nat) × Nat :=
    (List.replicate axes.length none, List.replicate axes.length none, 1) with hst0
  have hlen1 : st0.1.length = axes.length := by simp [hst0]
  have hlen2 : st0.2.1.length = axes.length := by simp [hst0]
  clear_value st0
  have main : ∀ (ps : List (Int × (PySlice × Nat)))
      (st : List (Option PySlice) × List (Option Nat) × Nat),
      (∀ q ∈ ps, 0 ≤ q.1 ∧ q.1.toNat < st.1.length ∧ q.1.toNat < st.2.1.length) →
      (ps.foldlM (fun st q =>
          (pySet st.1 q.1 (some q.2.1)).bind (fun idxData =>
            (pySet st.2.1 q.1 (some q.2.2)).bind (fun chunkShape =>
              .ok (idxData, chunkShape,
                if q.1 ∈ aOrder then st.2.2 * q.2.2 else st.2.2)))) st)
        = .ok (ps.foldl (assembleStep aOrder) st) := by
    intro ps
    induction ps with
    | nil => intro st _; rfl
    | cons q ps ih =>
      intro st hr
      obtain ⟨h0, h1, h2⟩ := hr q (by simp)
      rw [List.foldlM_cons, pySet_ok _ _ _ h0 h1]
      simp only [Except.bind]
      rw [pySet_ok _ _ _ h0 h2]
      simp only [Except.bind]
      rw [List.foldl_cons]
      refine ih (assembleStep aOrder st q) (fun r hrr => ?_)
      obtain ⟨g0, g1, g2⟩ := hr r (by simp [hrr])
      exact ⟨g0, by simpa [assembleStep] using g1, by simpa [assembleStep] using g2⟩
  apply main
  intro q hq
  obtain ⟨h0, h1⟩ := hval q.1 (by simpa using (List.of_mem_zip hq).1)
  exact ⟨h0, by rw [hlen1]; exact h1, by rw [hlen2]; exact h1⟩

theorem cipDefaultOrder_nodup (ndim : Nat) (cAxes : List Int) (c : Bool) :
    (cipDefaultOrder ndim cAxes c).Nodup := by
  unfold cipDefaultOrder
  apply List.Nodup.filter
  have hbase : ((List.range ndim).map (fun i : Nat => (i : Int))).Nodup :=
    List.Nodup.map (fun a b hab => by exact_mod_cast hab) (List.nodup_range _)
  by_cases hc : c
  · simp only [hc, if_pos]
    exact List.nodup_reverse.2 hbase
  · simp only [hc, if_neg]
    simpa using hbase

theorem cipDefaultOrder_mem (ndim : Nat) (cAxes : List Int) (c : Bool) (a : Int) :
    a ∈ cipDefaultOrder ndim cAxes c ↔ (0 ≤ a ∧ a < (ndim : Int) ∧ a ∉ cAxes) := by
  have hbase : ∀ x : Int,
      (x ∈ (if c = true
        then ((List.range ndim).map (fun i : Nat => (i : Int))).reverse
        else (List.range ndim).map (fun i : Nat => (i : Int))))
        ↔ (∃ i : Nat, i < ndim ∧ (i : Int) = x) := by
    intro x
    cases c <;> simp
  simp only [cipDefaultOrder, List.mem_filter, decide_eq_true_eq]
  rw [hbase a]
  constructor
  · rintro ⟨⟨i, hi, rfl⟩, hnotin⟩
    exact ⟨by omega, by omega, hnotin⟩
  · rintro ⟨h0, h1, hnotin⟩
    exact ⟨⟨a.toNat, by omega, by omega⟩, hnotin⟩

theorem cipOrder_perm (ndim : Nat) (aA : List Int) (axesOrder : Option (List Int))
    (res : List Int) (h : cipOrder ndim aA axesOrder = .ok res) :
    res.Perm aA := by
  rcases axesOrder with _ | ao
  · unfold cipOrder at h
    have : aA = res := by simpa using h
    rw [← this]
  · simp only [cipOrder] at h
    set ao2 := ao.map (fun i => possitive_index i ndim) with hao2
    by_cases hs : List.insertionSort (fun a b => a ≤ b) ao2
        = List.insertionSort (fun a b => a ≤ b) aA
    · rw [if_pos hs] at h
      have hres : ao2 = res := by simpa using h
      rw [← hres]
      have h1 : ao2.Perm (List.insertionSort (fun a b => a ≤ b) ao2) :=
        (List.perm_insertionSort _ ao2).symm
      rw [hs] at h1
      exact h1.trans (List.perm_insertionSort _ aA)
    · rw [if_neg hs] at h
      exact absurd h (by simp)

/-- Facts extracted from a successful `chunkIndexParameters` call. -/
theorem chunkIndexParameters_ok (shape : List Nat) (nChunksMax : Nat)
    (chunkAxes axesOrder : Option (List Int)) (chunkAxesSlice : Option (List PySlice))
    (c : Bool) (cap : Nat) (cAxes aOrder : List Int) (cSlice : List PySlice)
    (h : chunkIndexParameters shape nChunksMax chunkAxes axesOrder chunkAxesSlice c
      = .ok (cap, cAxes, aOrder, cSlice)) :
    cap = max nChunksMax 1 ∧
    cSlice.length = cAxes.length ∧
    aOrder.Nodup ∧
    (∀ a : Int, a ∈ aOrder ↔ (0 ≤ a ∧ a < (shape.length : Int) ∧ a ∉ cAxes)) := by
  unfold chunkIndexParameters at h
  obtain ⟨cSlice', h1, h2⟩ := bindOk h
  obtain ⟨aOrder', h3, h4⟩ := bindOk h2
  have h5 : cap = max nChunksMax 1 ∧ cAxes
        = ((chunkAxes.getD []).map (fun i => possitive_index i shape.length))
      ∧ aOrder' = aOrder ∧ cSlice' = cSlice := by
    have h6 := h4
    simp only [Except.ok.injEq, Prod.mk.injEq] at h6
    exact ⟨h6.1.symm, h6.2.1.symm, h6.2.2.1, h6.2.2.2⟩
  obtain ⟨hcap, hcAxes, haOrder, hcSlice⟩ := h5
  have hperm := cipOrder_perm shape.length _ axesOrder aOrder' h3
  rw [haOrder] at hperm
  have hslen : cSlice.length = cAxes.length := by
    rw [← hcSlice, hcAxes]
    rcases chunkAxesSlice with _ | sl
    · simp only [cipSlice] at h1
      have h7 : List.replicate ((chunkAxes.getD []).map
          (fun i => possitive_index i shape.length)).length slcNone = cSlice' := by
        simpa using h1
      rw [← h7, List.length_replicate]
    · simp only [cipSlice] at h1
      by_cases he : ((chunkAxes.getD []).map
          (fun i => possitive_index i shape.length)).length = sl.length
      · simp only [if_pos he] at h1
        have h7 : sl = cSlice' := by simpa using h1
        rw [← h7, he]
      · simp only [if_neg he] at h1
        exact absurd h1 (by simp)
  refine ⟨hcap, hslen, hperm.nodup_iff.2 (cipDefaultOrder_nodup _ _ _), ?_⟩
  intro a
  rw [hperm.mem_iff, cipDefaultOrder_mem, ← hcAxes]

/-- Selection of an optional per-axis index entry (a missing entry
selects nothing). -/
def sliceListO (o : Option PySlice) (n : Nat) : List Int :=
  match o with
  | some s => sliceList s n
  | none => []

/-- Pieces that expand exactly to `range(m)` and record true lengths have
counts summing to `m`. -/
theorem pieces_sum_counts (m : Nat) (pieces : List (PySlice × Nat))
    (hflat : (pieces.map (fun p => sliceList p.1 m)).flatten = pyRangeList 0 m 1)
    (hrec : ∀ p ∈ pieces, (sliceList p.1 m).length = p.2) :
    (pieces.map (fun p => p.2)).sum = m := by
  have h2 : ((pieces.map (fun p => sliceList p.1 m)).flatten).length = m := by
    rw [hflat, pyRangeList_length, pyRangeLen_one]
    omega
  rw [List.length_flatten, List.map_map] at h2
  have h2' : (pieces.map (fun p => (sliceList p.1 m).length)).sum = m := by
    simpa [Function.comp] using h2
  have heq : pieces.map (fun p => p.2)
      = pieces.map (fun p => (sliceList p.1 m).length) :=
    List.map_congr_left (fun p hp => (hrec p hp).symm)
  rw [heq]
  exact h2'

/-- Positionwise bounds on naturals give a product bound. -/
theorem prod_le_prod_of_getD :
    ∀ (l1 l2 : List Nat), l1.length = l2.length →
      (∀ i, i < l1.length → l1.getD i 0 ≤ l2.getD i 0) →
      l1.prod ≤ l2.prod := by
  intro l1
  induction l1 with
  | nil =>
    intro l2 hlen _
    have h2 : l2 = [] := List.eq_nil_of_length_eq_zero hlen.symm
    simp [h2]
  | cons a l1 ih =>
    intro l2 hlen h
    rcases l2 with _ | ⟨b, l2⟩
    · simp at hlen
    · simp only [List.prod_cons]
      have h0 : a ≤ b := by simpa using h 0 (by simp)
      have hrest : l1.prod ≤ l2.prod := by
        refine ih l2 (by simpa using hlen) (fun i hi => ?_)
        simpa using h (i + 1) (by simpa using hi)
      exact Nat.mul_le_mul h0 hrest


theorem fullChunkIndex_master
    (shape : List Nat) (nChunksMax : Nat)
    (chunkAxesO axesOrderO : Option (List Int)) (chunkAxesSliceO : Option (List PySlice))
    (chunkIndex : List (List (PySlice × Nat))) (cAxes aOrder : List Int) (nBuffer : Nat)
    (chunks : List (List (Option PySlice) × List (Option Nat) × Nat))
    (hfull : fullChunkIndex shape nChunksMax chunkAxesO axesOrderO chunkAxesSliceO true
        = .ok (chunkIndex, cAxes, aOrder, nBuffer))
    (hprod : chunkIndexProduct chunkIndex cAxes aOrder = .ok chunks)
    (hCnodup : cAxes.Nodup)
    (hCrange : ∀ a ∈ cAxes, 0 ≤ a ∧ a < (shape.length : Int)) :
    ((chunks.map (fun ch => ch.2.2)).sum
        = (aOrder.map (fun a => shape.getD a.toNat 0)).prod) ∧
    (∀ ch ∈ chunks, ch.2.2 ≤ nBuffer) ∧
    nBuffer ≤ max nChunksMax 1 ∧
    (∀ coord : List Int, coord.length = aOrder.length →
      (∀ j, j < aOrder.length → 0 ≤ coord.getD j 0 ∧
          coord.getD j 0 < (shape.getD (aOrder.getD j 0).toNat 0 : Int)) →
      chunks.countP (fun ch => decide (∀ j, j < aOrder.length →
          coord.getD j 0 ∈ sliceListO (ch.1.getD (aOrder.getD j 0).toNat none)
            (shape.getD (aOrder.getD j 0).toNat 0))) = 1) := by
  -- step 1: decompose the success of fullChunkIndex
  unfold fullChunkIndex at hfull
  obtain ⟨par, hpar, h2⟩ := bindOk hfull
  obtain ⟨cap2, cAxes2, aOrder2, cSlice2⟩ := par
  obtain ⟨chunkIndex1, hmapm, h3⟩ := bindOk h2
  obtain ⟨r, hloop, h4⟩ := bindOk h3
  have h5 : chunkIndex1 ++ r.1.reverse = chunkIndex ∧ cAxes2 = cAxes ∧
      aOrder2 = aOrder ∧ r.2 = nBuffer := by
    have h6 := h4
    simp only [Except.ok.injEq, Prod.mk.injEq] at h6
    exact h6
  obtain ⟨hCI, hCA, hAO, hNB⟩ := h5
  subst hCA
  subst hAO
  subst hNB
  subst hCI
  simp only at hmapm hloop
  obtain ⟨hcap2, hslen, hAOnodup, hAOmem⟩ :=
    chunkIndexParameters_ok shape nChunksMax chunkAxesO axesOrderO chunkAxesSliceO
      true cap2 cAxes2 aOrder2 cSlice2 hpar
  have hcap1 : 1 ≤ cap2 := by rw [hcap2]; omega
  obtain ⟨details, hdl, hrl, hprodB, hcapB, hposD⟩ :=
    fciLoop_spec shape cap2 aOrder2 1 1 r hloop le_rfl hcap1
  obtain ⟨hlen1z, hmem1⟩ := mapM_ok_mem hmapm
  have hlen1 : chunkIndex1.length = cAxes2.length := by
    rw [hlen1z, List.length_zip, hslen, Nat.min_self]
  have hsing : ∀ y ∈ chunkIndex1, ∃ s n, y = [((s : PySlice), (n : Nat))] := by
    intro y hy
    obtain ⟨x, hx, hfx⟩ := hmem1 y hy
    obtain ⟨nA, hga, hok⟩ := bindOk hfx
    exact ⟨x.2, (sliceLen x.2 nA).toNat, by simpa using hok.symm⟩
  -- step 2: global structure of the axes list
  obtain ⟨axes, haxes⟩ : ∃ axes : List Int, axes = cAxes2 ++ aOrder2.reverse :=
    ⟨_, rfl⟩
  have hdisj : ∀ a ∈ cAxes2, a ∉ aOrder2 := by
    intro a ha hb
    exact ((hAOmem a).1 hb).2.2 ha
  have haxmem : ∀ a ∈ axes, 0 ≤ a ∧ a < (shape.length : Int) := by
    intro a ha
    rw [haxes] at ha
    rcases List.mem_append.1 ha with h | h
    · exact hCrange a h
    · have h7 := (hAOmem a).1 (List.mem_reverse.1 h)
      exact ⟨h7.1, h7.2.1⟩
  have haxnodup : axes.Nodup := by
    rw [haxes, List.nodup_append]
    refine ⟨hCnodup, List.nodup_reverse.2 hAOnodup, ?_⟩
    intro a ha hb
    exact hdisj a ha (List.mem_reverse.1 hb)
  have hR : ∀ x : Int, x ∈ (List.range shape.length).map (fun i : Nat => (i : Int))
      ↔ (0 ≤ x ∧ x < (shape.length : Int)) := by
    intro x
    simp only [List.mem_map, List.mem_range]
    constructor
    · rintro ⟨i, hi, rfl⟩
      omega
    · rintro ⟨h0, h1⟩
      exact ⟨x.toNat, by omega, by omega⟩
  have hRnodup : ((List.range shape.length).map (fun i : Nat => (i : Int))).Nodup :=
    List.Nodup.map (fun a b hab => by exact_mod_cast hab) (List.nodup_range _)
  have hlenax : axes.length = shape.length := by
    apply le_antisymm
    · have h7 := nodup_subset_length_le haxnodup
        (fun a ha => (hR a).2 (haxmem a ha))
      simpa using h7
    · have hsub : ∀ a ∈ (List.range shape.length).map (fun i : Nat => (i : Int)),
          a ∈ axes := by
        intro a ha
        obtain ⟨h0, h1⟩ := (hR a).1 ha
        rw [haxes]
        by_cases hc : a ∈ cAxes2
        · exact List.mem_append.2 (Or.inl hc)
        · exact List.mem_append.2 (Or.inr (List.mem_reverse.2
            ((hAOmem a).2 ⟨h0, h1, hc⟩)))
      have h7 := nodup_subset_length_le hRnodup hsub
      simpa using h7
  have haxrange : ∀ a ∈ axes, 0 ≤ a ∧ a.toNat < axes.length := by
    intro a ha
    obtain ⟨h0, h1⟩ := haxmem a ha
    rw [hlenax]
    exact ⟨h0, by omega⟩
  have hL : r.1.length = aOrder2.length := hrl
  have hCIlen : (chunkIndex1 ++ r.1.reverse).length = axes.length := by
    rw [List.length_append, List.length_reverse, hlen1, hL, haxes,
      List.length_append, List.length_reverse]
  -- step 3: the produced chunks are the pure assembly over the product
  have hchunks : chunks = (pyProduct (chunkIndex1 ++ r.1.reverse)).map
      (fun combo => assembleChunk axes aOrder2 combo) := by
    have h7 := chunkIndexProduct_eq (chunkIndex1 ++ r.1.reverse) cAxes2 aOrder2
      (by rw [← haxes]; exact haxrange)
    rw [hprod] at h7
    simpa [haxes] using h7
  have hcombol : ∀ combo ∈ pyProduct (chunkIndex1 ++ r.1.reverse),
      combo.length = axes.length := by
    intro c hc
    rw [pyProduct_length hc, hCIlen]
  have hcount : ∀ combo, (assembleChunk axes aOrder2 combo).2.2
      = ((axes.zip combo).map
          (fun q => if q.1 ∈ aOrder2 then q.2.2 else 1)).prod := by
    intro combo
    unfold assembleChunk
    rw [foldl_assemble_count]
    exact Nat.one_mul _
  obtain ⟨ws, hws⟩ : ∃ ws : List ((PySlice × Nat) → Nat),
      ws = axes.map (fun ax =>
        (fun q : PySlice × Nat => if ax ∈ aOrder2 then q.2 else 1)) :=
    ⟨_, rfl⟩
  have hfactor : ∀ combo, (assembleChunk axes aOrder2 combo).2.2 = prodZip ws combo := by
    intro combo
    rw [hcount combo]
    unfold prodZip
    refine congrArg _ ?_
    have e1 : (axes.zip combo).map
        (fun q : Int × (PySlice × Nat) => if q.1 ∈ aOrder2 then q.2.2 else 1)
        = List.zipWith (fun ax (q : PySlice × Nat) =>
            if ax ∈ aOrder2 then q.2 else 1) axes combo :=
      List.map_uncurry_zip_eq_zipWith
        (fun ax (q : PySlice × Nat) => if ax ∈ aOrder2 then q.2 else 1) axes combo
    have e2 : List.zipWith (fun ax (q : PySlice × Nat) =>
        if ax ∈ aOrder2 then q.2 else 1) axes combo
        = List.zipWith (fun w (q : PySlice × Nat) => w q) ws combo := by
      rw [hws]
      exact (List.zipWith_map_left axes combo
        (fun ax => (fun q : PySlice × Nat => if ax ∈ aOrder2 then q.2 else 1))
        (fun w (q : PySlice × Nat) => w q)).symm
    rw [e1, e2]
  have hwslen : ws.length = axes.length := by rw [hws, List.length_map]
  -- the per-axis size as seen positionally along aOrder2
  have hsize : ∀ i, i < aOrder2.length →
      (details.getD i (0, 0)).1 = shape.getD (aOrder2.getD i 0).toNat 0 := by
    intro i hi
    have hmem2 : aOrder2.getD i 0 ∈ aOrder2 := by
      rw [List.getD_eq_getElem _ _ hi]
      exact List.getElem_mem hi
    have hb := (hAOmem _).1 hmem2
    have hok := (hposD i hi).1
    rw [pyGet_ok shape (aOrder2.getD i 0) 0 hb.1 (by omega)] at hok
    have h7 : shape.getD (aOrder2.getD i 0).toNat 0 = (details.getD i (0, 0)).1 := by
      simpa using hok
    exact h7.symm
  refine ⟨?_, ?_, ?_, ?_⟩
  · -- sum of counts equals the product of the order-axis sizes
    rw [hchunks, List.map_map]
    have hmapc : (pyProduct (chunkIndex1 ++ r.1.reverse)).map
        ((fun ch : List (Option PySlice) × List (Option Nat) × Nat => ch.2.2)
          ∘ (fun combo => assembleChunk axes aOrder2 combo))
        = (pyProduct (chunkIndex1 ++ r.1.reverse)).map (fun combo => prodZip ws combo) :=
      List.map_congr_left (fun combo _ => hfactor combo)
    rw [hmapc, sum_prodZip_pyProduct ws _ (by rw [hwslen, hCIlen])]
    -- split the zip into the chunk-axis part and the order-axis part
    have hwsapp : ws = cAxes2.map (fun ax =>
          (fun q : PySlice × Nat => if ax ∈ aOrder2 then q.2 else 1))
        ++ aOrder2.reverse.map (fun ax =>
          (fun q : PySlice × Nat => if ax ∈ aOrder2 then q.2 else 1)) := by
      rw [hws, haxes, List.map_append]
    rw [hwsapp, List.zip_append (by rw [List.length_map, hlen1]), List.map_append,
      List.prod_append]
    have hprod1 : (((List.map (fun ax =>
        (fun q : PySlice × Nat => if ax ∈ aOrder2 then q.2 else 1)) cAxes2).zip
          chunkIndex1).map (fun q => (q.2.map q.1).sum)).prod = 1 := by
      apply List.prod_eq_one
      intro x hx
      obtain ⟨t, ht, hxe⟩ := List.mem_iff_getElem.1 hx
      have ht2 : t < ((List.map (fun ax =>
          (fun q : PySlice × Nat => if ax ∈ aOrder2 then q.2 else 1)) cAxes2).zip
            chunkIndex1).length := by
        simpa using ht
      rw [List.getElem_map, List.getElem_zip] at hxe
      have htc : t < cAxes2.length := by
        rw [List.length_zip, List.length_map, hlen1, Nat.min_self] at ht2
        exact ht2
      have hax : cAxes2[t] ∈ cAxes2 := List.getElem_mem (by omega)
      have hnot : cAxes2[t] ∉ aOrder2 := hdisj _ hax
      obtain ⟨sg, ng, hsg⟩ := hsing (chunkIndex1[t]) (List.getElem_mem (by omega))
      rw [← hxe]
      rw [List.getElem_map, hsg]
      simp [hnot]
    rw [hprod1, Nat.one_mul]
    -- order part: the factor list is exactly the reversed list of axis sizes
    have hkey : ((List.map (fun ax =>
        (fun q : PySlice × Nat => if ax ∈ aOrder2 then q.2 else 1)) aOrder2.reverse).zip
          r.1.reverse).map (fun q => (q.2.map q.1).sum)
        = aOrder2.reverse.map (fun a => shape.getD a.toNat 0) := by
      apply List.ext_getElem
      · simp [List.length_zip, hL]
      · intro k hk1 hk2
        have hkL : k < aOrder2.length := by simpa using hk2
        rw [List.getElem_map, List.getElem_zip]
        simp only [List.getElem_map, List.getElem_reverse]
        have hi1 : aOrder2.length - 1 - k < aOrder2.length := by omega
        have hi2 : r.1.length - 1 - k < r.1.length := by rw [hL]; omega
        rw [← List.getD_eq_getElem aOrder2 0 hi1, ← List.getD_eq_getElem r.1 [] hi2]
        have hir : r.1.length - 1 - k = aOrder2.length - 1 - k := by rw [hL]
        rw [hir]
        set i : Nat := aOrder2.length - 1 - k with hidef
        have hiL : i < aOrder2.length := by omega
        have hmem2 : aOrder2.getD i 0 ∈ aOrder2 := by
          rw [List.getD_eq_getElem _ _ hiL]
          exact List.getElem_mem hiL
        obtain ⟨hok, hflat, hrec⟩ := hposD i hiL
        have hfun : ((r.1.getD i []).map
            (fun q : PySlice × Nat => if aOrder2.getD i 0 ∈ aOrder2 then q.2 else 1))
            = ((r.1.getD i []).map (fun p => p.2)) := by
          refine List.map_congr_left (fun p _ => ?_)
          rw [if_pos hmem2]
        rw [hfun, pieces_sum_counts _ _ hflat (fun p hp => (hrec p hp).1),
          hsize i hiL]
    rw [hkey]
    have hrm : aOrder2.reverse.map (fun a => shape.getD a.toNat 0)
        = (aOrder2.map (fun a => shape.getD a.toNat 0)).reverse := by
      rw [List.map_reverse]
    rw [hrm, List.prod_reverse]
  · -- every chunk's item count is bounded by the buffer item count
    intro ch hch
    rw [hchunks] at hch
    obtain ⟨combo, hcombo, rfl⟩ := List.mem_map.1 hch
    rw [hfactor combo]
    obtain ⟨B, hB⟩ : ∃ B : List Nat,
        B = cAxes2.map (fun _ => 1) ++ (details.map (fun d => d.2)).reverse :=
      ⟨_, rfl⟩
    have hBlen : B.length = axes.length := by
      rw [hB, List.length_append, List.length_map, List.length_reverse,
        List.length_map, hdl, haxes, List.length_append, List.length_reverse]
    have hclen : combo.length = axes.length := hcombol combo hcombo
    obtain ⟨Z, hZ⟩ : ∃ Z : List Nat, Z = List.zipWith (fun w x => w x) ws combo :=
      ⟨_, rfl⟩
    have hzlen : Z.length = axes.length := by
      rw [hZ, List.length_zipWith, hwslen, hclen, Nat.min_self]
    have hle : prodZip ws combo ≤ B.prod := by
      unfold prodZip
      rw [← hZ]
      apply prod_le_prod_of_getD Z B (by rw [hzlen, hBlen])
      intro i hi
      rw [hzlen] at hi
      have hiw : i < ws.length := by rw [hwslen]; exact hi
      have hic : i < combo.length := by rw [hclen]; exact hi
      have hz : Z.getD i 0
          = (ws.getD i (fun _ => 1)) (combo.getD i (slcNone, 0)) := by
        rw [hZ]
        rw [List.getD_eq_getElem _ _
            (show i < (List.zipWith (fun w x => w x) ws combo).length by
              rw [← hZ, hzlen]; exact hi)]
        rw [List.getElem_zipWith, ← List.getD_eq_getElem ws _ hiw,
          ← List.getD_eq_getElem combo _ hic]
      have hwsi : ws.getD i (fun _ => 1)
          = (fun q : PySlice × Nat => if axes.getD i 0 ∈ aOrder2 then q.2 else 1) := by
        rw [hws, List.getD_eq_getElem _ _
            (show i < (axes.map (fun ax =>
              (fun q : PySlice × Nat => if ax ∈ aOrder2 then q.2 else 1))).length by
              rw [List.length_map]; exact hi),
          List.getElem_map, List.getD_eq_getElem axes 0 hi]
      rw [hz, hwsi]
      clear hz hwsi hzlen hZ
      show (if axes.getD i 0 ∈ aOrder2 then (combo.getD i (slcNone, 0)).2 else 1)
          ≤ B.getD i 0
      have hax2 : axes.length = cAxes2.length + aOrder2.length := by
        rw [haxes, List.length_append, List.length_reverse]
      by_cases hcase : i < cAxes2.length
      · -- chunk-axis position: factor is 1
        have haxi : axes.getD i 0 = cAxes2.getD i 0 := by
          rw [haxes, List.getD_eq_getElem?_getD,
            List.getElem?_append_left hcase, ← List.getD_eq_getElem?_getD]
        have hmemc : axes.getD i 0 ∈ cAxes2 := by
          rw [haxi, List.getD_eq_getElem _ _ hcase]
          exact List.getElem_mem hcase
        have hnot : axes.getD i 0 ∉ aOrder2 := hdisj _ hmemc
        have hBi : B.getD i 0 = 1 := by
          rw [hB, List.getD_eq_getElem?_getD,
            List.getElem?_append_left
              (show i < (cAxes2.map (fun _ => (1 : Nat))).length by
                rw [List.length_map]; exact hcase),
            ← List.getD_eq_getElem?_getD,
            List.getD_eq_getElem _ _
              (show i < (cAxes2.map (fun _ => (1 : Nat))).length by
                rw [List.length_map]; exact hcase),
            List.getElem_map]
        rw [hBi]
        show (if axes.getD i 0 ∈ aOrder2 then (combo.getD i (slcNone, 0)).2 else 1) ≤ 1
        rw [if_neg hnot]
      · -- order-axis position: factor is the piece count, bounded by the step
        have hkO : i - cAxes2.length < aOrder2.length := by omega
        have hjO : aOrder2.length - 1 - (i - cAxes2.length) < aOrder2.length := by
          omega
        have haxi : axes.getD i 0
            = aOrder2.getD (aOrder2.length - 1 - (i - cAxes2.length)) 0 := by
          rw [haxes, List.getD_eq_getElem?_getD,
            List.getElem?_append_right (show cAxes2.length ≤ i by omega),
            List.getElem?_reverse hkO, ← List.getD_eq_getElem?_getD]
        have hmemo : axes.getD i 0 ∈ aOrder2 := by
          rw [haxi, List.getD_eq_getElem _ _ hjO]
          exact List.getElem_mem hjO
        have hcm := pyProduct_getD_mem (slcNone, 0) hcombo i (by rw [hCIlen]; exact hi)
        have hgl : (chunkIndex1 ++ r.1.reverse).getD i []
            = r.1.getD (aOrder2.length - 1 - (i - cAxes2.length)) [] := by
          rw [List.getD_eq_getElem?_getD,
            List.getElem?_append_right (show chunkIndex1.length ≤ i by
              rw [hlen1]; omega),
            List.getElem?_reverse (show i - chunkIndex1.length < r.1.length by
              rw [hlen1, hL]; omega),
            ← List.getD_eq_getElem?_getD, hlen1, hL]
        rw [hgl] at hcm
        have hbound := ((hposD _ hjO).2.2 _ hcm).2
        have hBi : B.getD i 0
            = (details.getD (aOrder2.length - 1 - (i - cAxes2.length)) (0, 0)).2 := by
          rw [hB, List.getD_eq_getElem?_getD,
            List.getElem?_append_right
              (show (cAxes2.map (fun _ => (1 : Nat))).length ≤ i by
                rw [List.length_map]; omega),
            List.getElem?_reverse
              (show i - (cAxes2.map (fun _ => (1 : Nat))).length
                  < (details.map (fun d => d.2)).length by
                rw [List.length_map, List.length_map, hdl]; omega),
            ← List.getD_eq_getElem?_getD, List.length_map, List.length_map, hdl]
          rw [List.getD_eq_getElem _ _
              (show aOrder2.length - 1 - (i - cAxes2.length)
                  < (details.map (fun d => d.2)).length by
                rw [List.length_map, hdl]; exact hjO),
            List.getElem_map,
            List.getD_eq_getElem _ _
              (show aOrder2.length - 1 - (i - cAxes2.length) < details.length by
                rw [hdl]; exact hjO)]
        show (if axes.getD i 0 ∈ aOrder2 then (combo.getD i (slcNone, 0)).2 else 1)
            ≤ B.getD i 0
        rw [if_pos hmemo, hBi]
        exact hbound
    have hBprod : B.prod = r.2 := by
      rw [hB, List.prod_append, List.prod_reverse]
      have h1 : (cAxes2.map (fun _ => (1 : Nat))).prod = 1 := by
        apply List.prod_eq_one
        intro x hx
        obtain ⟨a, _, rfl⟩ := List.mem_map.1 hx
        rfl
      rw [h1, Nat.one_mul, hprodB, Nat.one_mul]
    rw [← hBprod]
    exact hle
  · -- the buffer item count never exceeds the requested maximum
    rw [← hcap2]
    exact hcapB
  · -- each in-range coordinate lies in exactly one chunk along the order axes
    intro coord hclen2 hbnd
    rw [hchunks, List.countP_map]
    obtain ⟨ps, hps⟩ : ∃ ps : List ((PySlice × Nat) → Bool),
        ps = cAxes2.map (fun _ => (fun _ => true))
          ++ ((List.range aOrder2.length).map (fun j =>
            (fun q : PySlice × Nat => decide (coord.getD j 0
              ∈ sliceList q.1 (shape.getD (aOrder2.getD j 0).toNat 0))))).reverse :=
      ⟨_, rfl⟩
    have hax2 : axes.length = cAxes2.length + aOrder2.length := by
      rw [haxes, List.length_append, List.length_reverse]
    have hpslen : ps.length = axes.length := by
      rw [hps, List.length_append, List.length_map, List.length_reverse,
        List.length_map, List.length_range, hax2]
    have hpsL : ∀ t, t < cAxes2.length →
        ps.getD t (fun _ => false) = (fun _ => true) := by
      intro t ht
      have htm : t < (cAxes2.map (fun _ =>
          (fun _ : PySlice × Nat => true))).length := by
        rw [List.length_map]; exact ht
      rw [hps, List.getD_append _ _ _ _ htm, List.getD_eq_getElem _ _ htm,
        List.getElem_map]
    have hpsR : ∀ k, k < aOrder2.length →
        ps.getD (cAxes2.length + k) (fun _ => false)
          = (fun q : PySlice × Nat =>
              decide (coord.getD (aOrder2.length - 1 - k) 0
                ∈ sliceList q.1
                  (shape.getD (aOrder2.getD (aOrder2.length - 1 - k) 0).toNat 0))) := by
      intro k hk
      have hlm : (cAxes2.map (fun _ =>
          (fun _ : PySlice × Nat => true))).length ≤ cAxes2.length + k := by
        rw [List.length_map]; omega
      rw [hps, List.getD_append_right _ _ _ _ hlm, List.length_map,
        Nat.add_sub_cancel_left,
        getD_reverse _ k (by rw [List.length_map, List.length_range]; exact hk) _,
        List.length_map, List.length_range,
        List.getD_eq_getElem _ _ (show aOrder2.length - 1 - k
            < ((List.range aOrder2.length).map (fun j =>
              (fun q : PySlice × Nat => decide (coord.getD j 0
                ∈ sliceList q.1 (shape.getD (aOrder2.getD j 0).toNat 0))))).length by
          rw [List.length_map, List.length_range]; omega),
        List.getElem_map, List.getElem_range]
    have hiff : ∀ combo ∈ pyProduct (chunkIndex1 ++ r.1.reverse),
        ((fun ch : List (Option PySlice) × List (Option Nat) × Nat =>
            decide (∀ j, j < aOrder2.length → coord.getD j 0
              ∈ sliceListO (ch.1.getD (aOrder2.getD j 0).toNat none)
                (shape.getD (aOrder2.getD j 0).toNat 0)))
          ∘ fun combo => assembleChunk axes aOrder2 combo) combo = true
        ↔ (fun c => allZip ps c) combo = true := by
      intro combo hcombo
      have hclen3 : combo.length = axes.length := hcombol combo hcombo
      have hzpos : ∀ j, j < aOrder2.length →
          (axes.zip combo).getD (cAxes2.length + (aOrder2.length - 1 - j))
              ((0 : Int), (slcNone, (0 : Nat)))
            = (aOrder2.getD j 0,
                combo.getD (cAxes2.length + (aOrder2.length - 1 - j))
                  (slcNone, 0)) := by
        intro j hj
        have ht : cAxes2.length + (aOrder2.length - 1 - j) < axes.length := by omega
        rw [getD_zip axes combo _ 0 (slcNone, 0) ht (by rw [hclen3]; exact ht)]
        have haxt : axes.getD (cAxes2.length + (aOrder2.length - 1 - j)) 0
            = aOrder2.getD j 0 := by
          rw [haxes, List.getD_append_right _ _ _ _ (Nat.le_add_right _ _),
            Nat.add_sub_cancel_left,
            getD_reverse aOrder2 _ (by omega) 0,
            show aOrder2.length - 1 - (aOrder2.length - 1 - j) = j by omega]
        rw [haxt]
      have hlookup : ∀ j, j < aOrder2.length →
          (assembleChunk axes aOrder2 combo).1.getD (aOrder2.getD j 0).toNat none
            = some ((combo.getD (cAxes2.length + (aOrder2.length - 1 - j))
                (slcNone, 0)).1) := by
        intro j hj
        have ht : cAxes2.length + (aOrder2.length - 1 - j)
            < (axes.zip combo).length := by
          rw [List.length_zip, hclen3, Nat.min_self]; omega
        have hfst : ((axes.zip combo).map
            (fun q : Int × (PySlice × Nat) => q.1)).Nodup := by
          have e : (axes.zip combo).map (fun q : Int × (PySlice × Nat) => q.1)
              = axes := List.map_fst_zip axes combo (by rw [hclen3])
          rw [e]
          exact haxnodup
        have hbnds : ∀ q ∈ axes.zip combo, 0 ≤ q.1 ∧
            q.1.toNat
              < (List.replicate axes.length (none : Option PySlice)).length ∧
            q.1.toNat < (List.replicate axes.length (none : Option Nat)).length := by
          intro q hq
          have hmq := List.of_mem_zip hq
          have hra := haxrange q.1 hmq.1
          simp only [List.length_replicate]
          exact ⟨hra.1, hra.2, hra.2⟩
        have hl := (foldl_assemble_lookup aOrder2 (axes.zip combo)
            (List.replicate axes.length none, List.replicate axes.length none, 1)
            hfst hbnds _ ht).1
        rw [hzpos j hj] at hl
        exact hl
      show decide (∀ j, j < aOrder2.length → coord.getD j 0
          ∈ sliceListO ((assembleChunk axes aOrder2 combo).1.getD
              (aOrder2.getD j 0).toNat none)
            (shape.getD (aOrder2.getD j 0).toNat 0)) = true
        ↔ allZip ps combo = true
      rw [decide_eq_true_iff,
        allZip_iff (fun _ => false) (slcNone, 0) ps combo (by rw [hpslen, hclen3])]
      constructor
      · intro h t htp
        rw [hpslen] at htp
        by_cases hcase : t < cAxes2.length
        · rw [hpsL t hcase]
        · obtain ⟨k, hk, rfl⟩ : ∃ k, k < aOrder2.length
              ∧ t = cAxes2.length + k :=
            ⟨t - cAxes2.length, by omega, by omega⟩
          rw [hpsR k hk]
          have hj : aOrder2.length - 1 - k < aOrder2.length := by omega
          have h2 := h _ hj
          rw [hlookup _ hj] at h2
          rw [show aOrder2.length - 1 - (aOrder2.length - 1 - k) = k by omega] at h2
          simp only [sliceListO] at h2
          exact decide_eq_true h2
      · intro h j hj
        rw [hlookup j hj]
        simp only [sliceListO]
        have h2 := h (cAxes2.length + (aOrder2.length - 1 - j))
          (by rw [hpslen]; omega)
        rw [hpsR _ (show aOrder2.length - 1 - j < aOrder2.length by omega)] at h2
        rw [show aOrder2.length - 1 - (aOrder2.length - 1 - j) = j by omega] at h2
        exact of_decide_eq_true h2
    rw [List.countP_congr hiff,
      countP_pyProduct ps _ (by rw [hpslen, hCIlen])]
    apply List.prod_eq_one
    intro x hx
    obtain ⟨t, ht, hxe⟩ := List.mem_iff_getElem.1 hx
    have htz : t < (ps.zip (chunkIndex1 ++ r.1.reverse)).length := by simpa using ht
    have htp : t < ps.length := by
      rw [List.length_zip] at htz
      omega
    have htA : t < axes.length := by rw [← hpslen]; exact htp
    have htC : t < (chunkIndex1 ++ r.1.reverse).length := by
      rw [hCIlen]; exact htA
    rw [List.getElem_map, List.getElem_zip,
      ← List.getD_eq_getElem ps (fun _ => false) htp,
      ← List.getD_eq_getElem (chunkIndex1 ++ r.1.reverse) [] htC] at hxe
    rw [← hxe]
    show ((chunkIndex1 ++ r.1.reverse).getD t []).countP
        (ps.getD t (fun _ => false)) = 1
    by_cases hcase : t < cAxes2.length
    · rw [hpsL t hcase]
      have htc1 : t < chunkIndex1.length := by rw [hlen1]; exact hcase
      rw [List.getD_append _ _ _ _ htc1]
      have hm1 : chunkIndex1.getD t [] ∈ chunkIndex1 := by
        rw [List.getD_eq_getElem _ _ htc1]
        exact List.getElem_mem htc1
      obtain ⟨sg, ng, hsg⟩ := hsing _ hm1
      rw [hsg]
      simp [List.countP_cons]
    · obtain ⟨k, hk, rfl⟩ : ∃ k, k < aOrder2.length ∧ t = cAxes2.length + k :=
        ⟨t - cAxes2.length, by omega, by omega⟩
      rw [hpsR k hk]
      have hgl : (chunkIndex1 ++ r.1.reverse).getD (cAxes2.length + k) []
          = r.1.getD (aOrder2.length - 1 - k) [] := by
        rw [List.getD_append_right _ _ _ _ (by rw [hlen1]; omega), hlen1,
          Nat.add_sub_cancel_left,
          getD_reverse r.1 k (by rw [hL]; omega) [], hL]
      rw [hgl]
      have hj : aOrder2.length - 1 - k < aOrder2.length := by omega
      obtain ⟨hok, hflat, hrec⟩ := hposD _ hj
      have hb := hbnd _ hj
      rw [← hsize _ hj] at hb
      rw [← hsize _ hj]
      exact flat_exact_countP _ _ hflat _ hb.1 hb.2

/-- C1: dense planner exact partition.  For every shape and capacity and
every channel-axis assignment accepted by the planner (the chunk axes being
distinct and in range), the chunks enumerated from `fullChunkIndex` through
`chunkIndexProduct` cover every in-range coordinate of the order-axes index
space exactly once (each coordinate lies in exactly one chunk's slice
selection), and the per-chunk counts sum to the product of the order-axis
sizes. -/
theorem fullChunkIndex_exact_partition
    (shape : List Nat) (nChunksMax : Nat)
    (chunkAxesO axesOrderO : Option (List Int))
    (chunkAxesSliceO : Option (List PySlice))
    (chunkIndex : List (List (PySlice × Nat))) (cAxes aOrder : List Int)
    (nBuffer : Nat)
    (chunks : List (List (Option PySlice) × List (Option Nat) × Nat))
    (hfull : fullChunkIndex shape nChunksMax chunkAxesO axesOrderO chunkAxesSliceO
        true = .ok (chunkIndex, cAxes, aOrder, nBuffer))
    (hprod : chunkIndexProduct chunkIndex cAxes aOrder = .ok chunks)
    (hCnodup : cAxes.Nodup)
    (hCrange : ∀ a ∈ cAxes, 0 ≤ a ∧ a < (shape.length : Int)) :
    ((chunks.map (fun ch => ch.2.2)).sum
        = (aOrder.map (fun a => shape.getD a.toNat 0)).prod) ∧
    (∀ coord : List Int, coord.length = aOrder.length →
      (∀ j, j < aOrder.length → 0 ≤ coord.getD j 0 ∧
          coord.getD j 0 < (shape.getD (aOrder.getD j 0).toNat 0 : Int)) →
      chunks.countP (fun ch => decide (∀ j, j < aOrder.length →
          coord.getD j 0 ∈ sliceListO (ch.1.getD (aOrder.getD j 0).toNat none)
            (shape.getD (aOrder.getD j 0).toNat 0))) = 1) := by
  obtain ⟨h1, h2, h3, h4⟩ := fullChunkIndex_master shape nChunksMax chunkAxesO
    axesOrderO chunkAxesSliceO chunkIndex cAxes aOrder nBuffer chunks hfull hprod
    hCnodup hCrange
  exact ⟨h1, h4⟩

theorem fullChunkIndex_exact_partition_witness :
    (([(([some (⟨some 0, some 2, some 1⟩ : PySlice), some slcNone],
          [some 2, some 4], 2) :
            List (Option PySlice) × List (Option Nat) × Nat),
        ([some (⟨some 2, some 3, some 1⟩ : PySlice), some slcNone],
          [some 1, some 4], 1)].map (fun ch => ch.2.2)).sum
      = (([0] : List Int).map (fun a => [3, 4].getD a.toNat 0)).prod) ∧
    ([(([some (⟨some 0, some 2, some 1⟩ : PySlice), some slcNone],
          [some 2, some 4], 2) :
            List (Option PySlice) × List (Option Nat) × Nat),
        ([some (⟨some 2, some 3, some 1⟩ : PySlice), some slcNone],
          [some 1, some 4], 1)].countP (fun ch =>
      decide (∀ j, j < ([0] : List Int).length →
        ([2] : List Int).getD j 0
          ∈ sliceListO (ch.1.getD ((([0] : List Int).getD j 0).toNat) none)
            ([3, 4].getD ((([0] : List Int).getD j 0).toNat) 0))) = 1) := by
  have h := fullChunkIndex_exact_partition [3, 4] 2 (some [1]) none
    (some [slcNone])
    [[(slcNone, 4)], [(⟨some 0, some 2, some 1⟩, 2), (⟨some 2, some 3, some 1⟩, 1)]]
    [1] [0] 2
    [([some (⟨some 0, some 2, some 1⟩ : PySlice), some slcNone],
        [some 2, some 4], 2),
      ([some (⟨some 2, some 3, some 1⟩ : PySlice), some slcNone],
        [some 1, some 4], 1)]
    rfl rfl (by decide) (by decide)
  exact ⟨h.1, h.2 [2] rfl (by decide)⟩

/-- C3 counterexample: for shape (100, 10) with channel axis 1 and row
capacity 30 the dense planner does not produce row counts [30, 30, 30, 10]:
the 100-row axis lands in the equalising branch (`consumed = 1 ≤ capacity`),
which splits it into ceil(100 / (30 div 1)) = 4 near-equal pieces of
ceil(100 / 4) = 25 rows each. -/
theorem fullChunkIndex_boundary_counterexample :
    ((fullChunkIndex [100, 10] 30 (some [1]) none (some [slcNone]) true).map
        (fun r => r.1.map (fun ax => ax.map (fun p => p.2)))
      = .ok [[10], [25, 25, 25, 25]]) ∧
    ([25, 25, 25, 25] ≠ [30, 30, 30, 10]) := by
  refine ⟨rfl, by decide⟩

/-- C3 (amended): for shape (100, 10) with channel axis 1 and row capacity
30, one element of the split axis consumes `consumed = 1 ≤ capacity` rows,
so the planner takes the equalising branch: the axis is split into
n = ceil(100 / (30 div 1)) = 4 pieces of length ceil(100 / 4) = 25 (the
unit-piece branch is reserved for `consumed > capacity`), yielding four
chunks of 25 rows covering rows 0..99 consecutively in order, with
`nBuffer = 25`. -/
theorem fullChunkIndex_boundary_split :
    fullChunkIndex [100, 10] 30 (some [1]) none (some [slcNone]) true
      = .ok ([[(slcNone, 10)],
          [(⟨some 0, some 25, some 1⟩, 25), (⟨some 25, some 50, some 1⟩, 25),
           (⟨some 50, some 75, some 1⟩, 25), (⟨some 75, some 100, some 1⟩, 25)]],
        [1], [0], 25) ∧
    (([((⟨some 0, some 25, some 1⟩ : PySlice), 25),
        (⟨some 25, some 50, some 1⟩, 25), (⟨some 50, some 75, some 1⟩, 25),
        (⟨some 75, some 100, some 1⟩, 25)].map
          (fun p : PySlice × Nat => sliceList p.1 100)).flatten
      = pyRangeList 0 100 1) := by
  refine ⟨rfl, by decide⟩

/-- A value appearing in a chunk index tuple: a slice or an integer-index
array. -/
inductive MIdx where
  | slc (s : PySlice)
  | lst (l : List Int)
  deriving DecidableEq

/-- A mask argument: a boolean numpy array (represented by the
per-dimension coordinate lists its `nonzero()` method returns) or a
tuple/list of per-axis integer-index lists. -/
inductive PyMask where
  | arr (nz : List (List Int))
  | tup (ls : List (List Int))
  deriving DecidableEq

/-- `mask.ndim`: an attribute of arrays; tuples and lists have no `ndim`
attribute, so the lookup raises `AttributeError`. -/
def pyMaskNdim : PyMask → Except PyErr Nat
  | .arr nz => .ok nz.length
  | .tup _ => .error (.attributeError "'tuple' object has no attribute 'ndim'")

/-- Python `list.insert(i, x)`: negative positions count from the end and
out-of-range positions clamp to the ends. -/
def pyInsert {α : Type _} (l : List α) (i : Int) (x : α) : List α :=
  let pos : Int := if i < 0 then max ((l.length : Int) + i) 0
    else min i (l.length : Int)
  List.insertIdx pos.toNat x l

/-- Python `min` of a list (meaningful for nonempty lists). -/
def pyMin (l : List Int) : Int := l.foldl min (l.getD 0 0)

/-- Embeds `intListIndexAxis`: the dimension at which numpy places the
broadcast integer-list dimension after indexing (`None` for no list axes,
the axis itself for one, the smallest for a consecutive run, else 0). -/
def intListIndexAxis (shape : List Nat) (axes : List Int) : Option Int :=
  if axes.length = 0 then none
  else if axes.length = 1 then some (axes.getD 0 0)
  else
    let s := List.insertionSort (fun a b => a ≤ b) axes
    if (s.zip s.tail).all (fun q => q.2 - q.1 == 1) then some (pyMin axes)
    else some 0

/-- Numpy/Python sequence slicing `l[slc]`. -/
def pyGetSlice (l : List Int) (slc : PySlice) : List Int :=
  (sliceList slc l.length).map (fun t => l.getD t.toNat 0)

/-- One iteration body of the `maskedChunkIndex` fill loop: write the
batch's row-index runs into the `axesOrder` slots of the chunk index,
write the batch's row count into the `lstAxis` slot of the chunk shape
(`chunkShape[None]` would be a `TypeError`), and pair them with the
count. -/
def mciBuild (aOrder : List Int) (maskIndex : List (List Int))
    (idxAxis0 : List MIdx) (lstAxis : Option Int)
    (chunkShape1 : List (Option Nat)) (piece : PySlice × Nat) :
    Except PyErr (List MIdx × List (Option Nat) × Nat) :=
  ((aOrder.zip maskIndex).foldlM
      (fun ia p => pySet ia p.1 (MIdx.lst (pyGetSlice p.2 piece.1)))
      idxAxis0).bind (fun idxAxis2 =>
    ((match lstAxis with
      | none => .error (.typeError
          "list indices must be integers or slices, not NoneType")
      | some la => pySet chunkShape1 la (some piece.2) :
        Except PyErr (List (Option Nat)))).bind (fun cs3 =>
      .ok (idxAxis2, cs3, piece.2)))

/-- Embeds `maskedChunkIndex` (the `mask is not None` path) from the
source: validate parameters with Fortran default order, look up the mask's
`ndim` attribute (raising `AttributeError` for tuple/list masks), build the
chunk-axis part of the index, then batch the mask's coordinate lists into
consecutive runs of at most `capacity` rows, filling a `nChunks`-slot list.
The source allocates `idxAxis` and `chunkShape` once and mutates them
across iterations; since every iteration overwrites exactly the
`axesOrder` positions of `idxAxis` and the `lstAxis` position of
`chunkShape`, rebuilding from the post-initialisation values each
iteration is observationally identical. -/
def maskedChunkIndex (shape : List Nat) (nChunksMax : Nat) (mask : PyMask)
    (chunkAxes : Option (List Int)) (axesOrder : Option (List Int))
    (chunkAxesSlice : Option (List PySlice)) :
    Except PyErr (List (Option (List MIdx × List (Option Nat) × Nat))
      × List Int × List Int × Nat) :=
  (chunkIndexParameters shape nChunksMax chunkAxes axesOrder chunkAxesSlice
      false).bind (fun par =>
    let cap := par.1
    let cAxes := par.2.1
    let aOrder := par.2.2.1
    let cSlice := par.2.2.2
    (pyMaskNdim mask).bind (fun mndim =>
      if aOrder.length ≠ mndim then
        .error (.valueError "Mask does not have the correct dimensions")
      else
        let ndim := shape.length
        ((cAxes.zip cSlice).foldlM
            (fun (st : List MIdx × List (Option Nat)) q =>
              (pyGet shape q.1).bind (fun nAxis =>
                (pySet st.1 q.1 (MIdx.slc q.2)).bind (fun idxAxis2 =>
                  (pySet st.2 q.1 (some (sliceLen q.2 nAxis).toNat)).bind
                    (fun chunkShape2 => .ok (idxAxis2, chunkShape2)))))
            (List.replicate ndim (MIdx.slc slcNone),
              shape.map (fun v => some v))).bind (fun st =>
          let idxAxis0 := st.1
          let chunkShape0 := (List.range ndim).filterMap (fun (i : Nat) =>
            if (i : Int) ∈ aOrder then none else some (st.2.getD i none))
          let lstAxis := intListIndexAxis shape aOrder
          let chunkShape1 := match lstAxis with
            | none => chunkShape0
            | some la => pyInsert chunkShape0 la none
          let maskIndex := match mask with
            | .arr nz => nz
            | .tup ls => ls
          (pyGet maskIndex 0).bind (fun ind0 =>
            let nAxis := ind0.length
            let nChunks := nAxis / cap + intBool (nAxis % cap)
            (((chunkIndexGen 0 nAxis cap).enum.foldlM
                (fun acc (q : Nat × (PySlice × Nat)) =>
                  (mciBuild aOrder maskIndex idxAxis0 lstAxis chunkShape1
                      q.2).bind (fun ch =>
                    pySet acc (q.1 : Int) (some ch)))
                (List.replicate nChunks
                  (none : Option (List MIdx × List (Option Nat) × Nat)))).bind
              (fun chunkIndexL =>
                .ok (chunkIndexL, cAxes, aOrder, cap)))))))

/-- Successful `pySet` is `List.set` at the normalised position. -/
theorem pySet_ok_inv {α : Type _} {l : List α} {i : Int} {v : α} {l' : List α}
    (h : pySet l i v = .ok l') :
    ∃ pos : Nat, pos < l.length ∧ l' = l.set pos v ∧ (0 ≤ i → pos = i.toNat) := by
  simp only [pySet] at h
  by_cases hneg : i < 0
  · rw [if_pos hneg] at h
    by_cases hc : 0 ≤ i + (l.length : Int) ∧ (i + (l.length : Int)).toNat < l.length
    · rw [if_pos hc] at h
      refine ⟨(i + (l.length : Int)).toNat, hc.2, by simpa using h.symm, ?_⟩
      intro hi
      omega
    · rw [if_neg hc] at h
      exact absurd h (by simp)
  · rw [if_neg hneg] at h
    by_cases hc : 0 ≤ i ∧ i.toNat < l.length
    · rw [if_pos hc] at h
      exact ⟨i.toNat, hc.2, by simpa using h.symm, fun _ => rfl⟩
    · rw [if_neg hc] at h
      exact absurd h (by simp)

theorem pySet_length {α : Type _} {l : List α} {i : Int} {v : α} {l' : List α}
    (h : pySet l i v = .ok l') : l'.length = l.length := by
  obtain ⟨pos, hp, rfl, h4⟩ := pySet_ok_inv h
  exact List.length_set l pos v

/-- A successful fold of `pySet` writes over nonnegative, distinct
positions: the result keeps the length, keeps untouched positions, and
holds the written value at each key. -/
theorem pySetFold_lookup {α β : Type _} (f : β → Int) (g : β → α) (d : β)
    (da : α) :
    ∀ (qs : List β) (st0 res : List α),
      qs.foldlM (fun ia p => pySet ia (f p) (g p)) st0 = .ok res →
      (∀ q ∈ qs, 0 ≤ f q) →
      ((qs.map (fun q => (f q).toNat)).Nodup) →
      res.length = st0.length ∧
      (∀ pos : Nat, (∀ q ∈ qs, (f q).toNat ≠ pos) →
        res.getD pos da = st0.getD pos da) ∧
      (∀ j, j < qs.length →
        res.getD (f (qs.getD j d)).toNat da = g (qs.getD j d)) := by
  intro qs
  induction qs with
  | nil =>
    intro st0 res h _ _
    have h2 : st0 = res := by
      have h3 : (pure st0 : Except PyErr (List α)) = .ok res := by
        simpa [List.foldlM] using h
      simpa [pure, Except.pure] using h3
    subst h2
    exact ⟨rfl, fun _ _ => rfl, fun j hj => by simp at hj⟩
  | cons q qs ih =>
    intro st0 res h hpos hnodup
    rw [List.foldlM_cons] at h
    obtain ⟨st1, hset, hrest⟩ := bindOk h
    obtain ⟨pos, hplt, rfl, hptn⟩ := pySet_ok_inv hset
    have hq0 : 0 ≤ f q := hpos q (List.mem_cons_self q qs)
    have hpeq : pos = (f q).toNat := hptn hq0
    have hcons : (∀ x ∈ qs, ¬ (f x).toNat = (f q).toNat)
        ∧ (qs.map (fun q => (f q).toNat)).Nodup := by
      simpa using hnodup
    have hnodup2 : (qs.map (fun q => (f q).toNat)).Nodup := hcons.2
    have hnotin : ∀ p ∈ qs, (f p).toNat ≠ (f q).toNat := hcons.1
    obtain ⟨hlen, hpres, hlook⟩ := ih (st0.set pos (g q)) res hrest
      (fun p hp => hpos p (List.mem_cons_of_mem q hp)) hnodup2
    refine ⟨by rw [hlen, List.length_set], ?_, ?_⟩
    · intro p hp
      have h1 := hpres p (fun r hr => hp r (List.mem_cons_of_mem q hr))
      rw [h1, List.getD_eq_getElem?_getD, List.getD_eq_getElem?_getD,
        List.getElem?_set_ne]
      rw [hpeq]
      exact hp q (List.mem_cons_self q qs)
    · intro j hj
      cases j with
      | zero =>
        have h1 := hpres (f q).toNat (by
          intro r hr
          exact hnotin r hr)
        simp only [List.getD_cons_zero]
        rw [h1, ← hpeq, List.getD_eq_getElem?_getD, List.getElem?_set_self hplt]
        simp
      | succ j =>
        have h2 := hlook j (by simpa using hj)
        simpa using h2

/-- Positional description of the `maskedChunkIndex` fill loop: on
success every batch slot `n + j` holds the successfully built chunk for
piece `j`, and slots outside the processed window are untouched. -/
theorem fillFold_spec {β γ : Type _} (F : β → Except PyErr γ) (d : β) :
    ∀ (pieces : List β) (n : Nat) (acc res : List (Option γ)),
      (pieces.enumFrom n).foldlM
          (fun acc q => (F q.2).bind (fun ch => pySet acc (q.1 : Int) (some ch)))
          acc = .ok res →
      res.length = acc.length ∧
      (∀ j, (j < n ∨ n + pieces.length ≤ j) →
        res.getD j none = acc.getD j none) ∧
      (∀ j, j < pieces.length → ∃ ch, F (pieces.getD j d) = .ok ch ∧
        res.getD (n + j) none = some ch) := by
  intro pieces
  induction pieces with
  | nil =>
    intro n acc res h
    have h2 : acc = res := by
      have h3 : (pure acc : Except PyErr (List (Option γ))) = .ok res := by
        simpa [List.enumFrom, List.foldlM] using h
      simpa [pure, Except.pure] using h3
    subst h2
    exact ⟨rfl, fun _ _ => rfl, fun j hj => by simp at hj⟩
  | cons p ps ih =>
    intro n acc res h
    have henum : (p :: ps).enumFrom n = (n, p) :: ps.enumFrom (n + 1) := rfl
    rw [henum, List.foldlM_cons] at h
    obtain ⟨acc1, hstep, hrest⟩ := bindOk h
    obtain ⟨ch, hF, hset⟩ := bindOk hstep
    obtain ⟨pos, hplt, rfl, hptn⟩ := pySet_ok_inv hset
    have hpeq : n = pos := by
      have := hptn (by exact_mod_cast Nat.zero_le n)
      omega
    subst hpeq
    obtain ⟨hlen, hpres, hlook⟩ := ih (n + 1) (acc.set n (some ch)) res hrest
    refine ⟨by rw [hlen, List.length_set], ?_, ?_⟩
    · intro j hj
      have h1 : res.getD j none = (acc.set n (some ch)).getD j none := by
        refine hpres j ?_
        rcases hj with hj | hj
        · exact Or.inl (by omega)
        · exact Or.inr (by simp at hj ⊢; omega)
      rw [h1, List.getD_eq_getElem?_getD, List.getD_eq_getElem?_getD,
        List.getElem?_set_ne]
      rcases hj with hj | hj
      · omega
      · simp at hj
        omega
    · intro j hj
      cases j with
      | zero =>
        refine ⟨ch, hF, ?_⟩
        have h1 : res.getD (n + 0) none
            = (acc.set n (some ch)).getD (n + 0) none :=
          hpres (n + 0) (Or.inl (by omega))
        rw [h1]
        simp only [Nat.add_zero]
        rw [List.getD_eq_getElem?_getD, List.getElem?_set_self hplt]
        simp
      | succ j =>
        obtain ⟨ch2, hF2, hval⟩ := hlook j (by simpa using hj)
        refine ⟨ch2, by simpa using hF2, ?_⟩
        rw [show n + (j + 1) = n + 1 + j by omega]
        exact hval

/-- Reading every position of a list in order reproduces the list. -/
theorem map_getD_range {α : Type _} (l : List α) (da : α) :
    (List.range l.length).map (fun k => l.getD k da) = l := by
  apply List.ext_getElem
  · simp
  · intro k hk1 hk2
    simp only [List.getElem_map, List.getElem_range]
    rw [List.getD_eq_getElem _ _ hk2]

/-- Slicing a list by the pieces of `chunkIndexGen` over its length and
concatenating reproduces the list. -/
theorem pyGetSlice_pieces_flatten (l : List Int) (st : Nat) (hst : 1 ≤ st) :
    ((chunkIndexGen 0 l.length st).map (fun p => pyGetSlice l p.1)).flatten
      = l := by
  unfold pyGetSlice
  rw [show (fun p : PySlice × Nat => (sliceList p.1 l.length).map
      (fun t => l.getD t.toNat 0))
    = (List.map (fun t : Int => l.getD t.toNat 0)) ∘
      (fun p : PySlice × Nat => sliceList p.1 l.length) from rfl]
  rw [← List.map_map, ← List.map_flatten, chunkIndexGen_flat l.length st hst]
  unfold pyRangeList
  rw [pyRangeLen_one]
  rw [List.map_map]
  rw [show ((l.length : Int) - 0).toNat = l.length by omega]
  have hfun : ((fun t : Int => l.getD t.toNat 0)
      ∘ (fun k : Nat => 0 + 1 * (k : Int))) = (fun k : Nat => l.getD k 0) := by
    funext k
    simp
  rw [hfun, map_getD_range]

/-- Extract the integer list of a chunk index entry (empty for slices). -/
def mlst : MIdx → List Int
  | .lst l => l
  | .slc _ => []

/-- Master description of the masked planner on boolean-array masks whose
`nonzero` coordinate lists all have length `m`: the capacity is coerced to
at least 1; there are exactly `ceil(m / cap)` batch slots; every slot holds
a chunk whose row count is the matching `chunkIndexGen` piece length (at
most `cap`, exactly `cap` except possibly for the final batch) and whose
order-axis index entries are the matching consecutive runs of the mask's
coordinate lists; the counts sum to `m`; and concatenating the runs
reproduces each coordinate list in its original order. -/
theorem maskedChunkIndex_spec
    (shape : List Nat) (nChunksMax : Nat) (nz : List (List Int))
    (chunkAxesO axesOrderO : Option (List Int))
    (chunkAxesSliceO : Option (List PySlice))
    (chunkIndexL : List (Option (List MIdx × List (Option Nat) × Nat)))
    (cAxes aOrder : List Int) (cap : Nat) (m : Nat)
    (hrun : maskedChunkIndex shape nChunksMax (.arr nz) chunkAxesO axesOrderO
        chunkAxesSliceO = .ok (chunkIndexL, cAxes, aOrder, cap))
    (hwf : ∀ l ∈ nz, l.length = m) :
    cap = max nChunksMax 1 ∧
    chunkIndexL.length = m / cap + intBool (m % cap) ∧
    (∀ j, j < chunkIndexL.length → ∃ ch : List MIdx × List (Option Nat) × Nat,
      chunkIndexL.getD j none = some ch ∧
      ch.2.2 = ((chunkIndexGen 0 m cap).getD j (slcNone, 0)).2 ∧
      ch.2.2 ≤ cap ∧
      (j + 1 < chunkIndexL.length → ch.2.2 = cap) ∧
      (∀ k, k < aOrder.length →
        ch.1.getD (aOrder.getD k 0).toNat (MIdx.slc slcNone)
          = MIdx.lst (pyGetSlice (nz.getD k [])
              ((chunkIndexGen 0 m cap).getD j (slcNone, 0)).1))) ∧
    ((chunkIndexL.map (fun o => (o.getD ([], [], 0)).2.2)).sum = m) ∧
    (∀ k, k < aOrder.length →
      (chunkIndexL.map (fun o => mlst ((o.getD ([], [], 0)).1.getD
          (aOrder.getD k 0).toNat (MIdx.slc slcNone)))).flatten
        = nz.getD k []) := by
  simp only [maskedChunkIndex] at hrun
  obtain ⟨par, hpar, h2⟩ := bindOk hrun
  obtain ⟨cap2, cAxes2, aOrder2, cSlice2⟩ := par
  simp only at h2
  obtain ⟨mndim, hnd, h3⟩ := bindOk h2
  have hmn : nz.length = mndim := by
    simpa [pyMaskNdim] using hnd
  subst hmn
  by_cases hdim : aOrder2.length ≠ nz.length
  · rw [if_pos hdim] at h3
    exact absurd h3 (by simp)
  rw [if_neg hdim] at h3
  have hdim2 : aOrder2.length = nz.length := by omega
  obtain ⟨st, hst, h4⟩ := bindOk h3
  obtain ⟨ind0, hind0, h5⟩ := bindOk h4
  obtain ⟨fillRes, hfill, h6⟩ := bindOk h5
  have h7 : fillRes = chunkIndexL ∧ cAxes2 = cAxes ∧ aOrder2 = aOrder ∧
      cap2 = cap := by
    have h8 := h6
    simp only [Except.ok.injEq, Prod.mk.injEq] at h8
    exact h8
  obtain ⟨hCI, hCA, hAO, hCap⟩ := h7
  subst hCI
  have hCA2 := hCA.symm
  subst hCA2
  have hAO2 := hAO.symm
  subst hAO2
  have hCap2 := hCap.symm
  subst hCap2
  obtain ⟨hcap2, hslen, hAOnodup, hAOmem⟩ :=
    chunkIndexParameters_ok shape nChunksMax chunkAxesO axesOrderO
      chunkAxesSliceO false cap cAxes aOrder cSlice2 hpar
  have hcap1 : 1 ≤ cap := by rw [hcap2]; omega
  -- the first mask coordinate list pins down the row count m
  have hnz0 : 0 < nz.length := by
    by_contra hc
    have hnil : nz = [] := List.eq_nil_of_length_eq_zero (by omega)
    subst hnil
    simp [pyGet] at hind0
  have hind0v : ind0 = nz.getD 0 [] := by
    rw [pyGet_ok nz 0 [] le_rfl (by simpa using hnz0)] at hind0
    simpa using hind0.symm
  have hm : ind0.length = m := by
    rw [hind0v]
    refine hwf _ ?_
    rw [List.getD_eq_getElem _ _ (by simpa using hnz0)]
    exact List.getElem_mem (by simpa using hnz0)
  rw [hm] at hfill
  -- the fill loop writes every batch slot
  obtain ⟨hflen, hfpres, hflook⟩ := fillFold_spec
    (mciBuild aOrder nz st.1 (intListIndexAxis shape aOrder)
      (match intListIndexAxis shape aOrder with
        | none => (List.range shape.length).filterMap (fun (i : Nat) =>
            if (i : Int) ∈ aOrder then none else some (st.2.getD i none))
        | some la => pyInsert ((List.range shape.length).filterMap
            (fun (i : Nat) =>
              if (i : Int) ∈ aOrder then none else some (st.2.getD i none))) la
            none))
    (slcNone, 0) (chunkIndexGen 0 m cap) 0
    (List.replicate (m / cap + intBool (m % cap)) none) fillRes hfill
  have hpl : (chunkIndexGen 0 m cap).length = m / cap + intBool (m % cap) := by
    rw [chunkIndexGen_length, pyRangeLen_zero_ceil m cap (by omega)]
    rfl
  have hlen2 : fillRes.length = m / cap + intBool (m % cap) := by
    rw [hflen, List.length_replicate]
  -- positional description of the slots
  have hslots : ∀ j, j < fillRes.length →
      ∃ ch : List MIdx × List (Option Nat) × Nat,
        fillRes.getD j none = some ch ∧
        ch.2.2 = ((chunkIndexGen 0 m cap).getD j (slcNone, 0)).2 ∧
        (∀ k, k < aOrder.length →
          ch.1.getD (aOrder.getD k 0).toNat (MIdx.slc slcNone)
            = MIdx.lst (pyGetSlice (nz.getD k [])
                ((chunkIndexGen 0 m cap).getD j (slcNone, 0)).1)) := by
    intro j hj
    have hjp : j < (chunkIndexGen 0 m cap).length := by
      rw [hpl]
      omega
    obtain ⟨ch, hF, hval⟩ := hflook j hjp
    obtain ⟨idxAxis2, hinner, hF2⟩ := bindOk hF
    obtain ⟨cs3, hcs, hF3⟩ := bindOk hF2
    have hch : ch = (idxAxis2, cs3,
        ((chunkIndexGen 0 m cap).getD j (slcNone, 0)).2) := by
      simpa using hF3.symm
    refine ⟨ch, by simpa using hval, by rw [hch], ?_⟩
    intro k hk
    have hknz : k < nz.length := by omega
    obtain ⟨hilen, hipres, hilook⟩ := pySetFold_lookup
      (fun q : Int × List Int => q.1)
      (fun q : Int × List Int => MIdx.lst (pyGetSlice q.2
        ((chunkIndexGen 0 m cap).getD j (slcNone, 0)).1))
      (0, []) (MIdx.slc slcNone) (aOrder.zip nz) st.1 idxAxis2 hinner
      (fun q hq => ((hAOmem q.1).1 (List.of_mem_zip hq).1).1)
      (by
        have he1 : (aOrder.zip nz).map
            (fun q : Int × List Int => (q.1).toNat)
            = aOrder.map (fun a => a.toNat) := by
          rw [show (fun q : Int × List Int => (q.1).toNat)
            = (fun a : Int => a.toNat) ∘ (fun q : Int × List Int => q.1)
            from rfl]
          rw [← List.map_map]
          rw [show (aOrder.zip nz).map (fun q : Int × List Int => q.1)
            = (aOrder.zip nz).map Prod.fst from rfl]
          rw [List.map_fst_zip aOrder nz (by omega)]
        rw [he1]
        refine hAOnodup.map_on ?_
        intro x hx y hy hxy
        have hx0 := ((hAOmem x).1 hx).1
        have hy0 := ((hAOmem y).1 hy).1
        omega)
    have hzv : (aOrder.zip nz).getD k (0, []) =
        (aOrder.getD k 0, nz.getD k []) :=
      getD_zip aOrder nz k 0 [] (by omega) hknz
    have hl2 := hilook k (by rw [List.length_zip]; omega)
    rw [hzv] at hl2
    rw [hch]
    exact hl2
  refine ⟨hcap2, by rw [hlen2], ?_, ?_, ?_⟩
  · intro j hj
    obtain ⟨ch, hval, hcnt, hlists⟩ := hslots j hj
    have hjp : j < (chunkIndexGen 0 m cap).length := by rw [hpl]; omega
    have hmem : (chunkIndexGen 0 m cap).getD j (slcNone, 0)
        ∈ chunkIndexGen 0 m cap := by
      rw [List.getD_eq_getElem _ _ hjp]
      exact List.getElem_mem hjp
    have hpiece := chunkIndexGen_piece m cap hcap1 hmem
    refine ⟨ch, hval, hcnt, by rw [hcnt]; exact hpiece.2.1, ?_, hlists⟩
    intro hjl
    rw [hcnt]
    have hfull := chunkIndexGen_count_full m cap hcap1 j hjp
      (by rw [hpl]; omega)
    rw [List.getD_eq_getElem _ _ hjp]
    simpa using hfull
  · have hmap : fillRes.map (fun o => (o.getD ([], [], 0)).2.2)
        = (chunkIndexGen 0 m cap).map (fun p => p.2) := by
      apply List.ext_getElem
      · rw [List.length_map, List.length_map, hpl, hlen2]
      · intro j hj1 hj2
        rw [List.length_map] at hj1
        obtain ⟨ch, hval, hcnt, hlists⟩ := hslots j hj1
        rw [List.getElem_map, List.getElem_map,
          ← List.getD_eq_getElem fillRes none hj1,
          ← List.getD_eq_getElem (chunkIndexGen 0 m cap) (slcNone, 0)
            (by rw [List.length_map] at hj2; exact hj2)]
        rw [hval]
        simpa using hcnt
    rw [hmap]
    exact chunkIndexGen_sum_counts m cap hcap1
  · intro k hk
    have hknz : k < nz.length := by omega
    have hmap : fillRes.map (fun o => mlst ((o.getD ([], [], 0)).1.getD
          (aOrder.getD k 0).toNat (MIdx.slc slcNone)))
        = (chunkIndexGen 0 m cap).map
            (fun p => pyGetSlice (nz.getD k []) p.1) := by
      apply List.ext_getElem
      · rw [List.length_map, List.length_map, hpl, hlen2]
      · intro j hj1 hj2
        rw [List.length_map] at hj1
        obtain ⟨ch, hval, hcnt, hlists⟩ := hslots j hj1
        rw [List.getElem_map, List.getElem_map,
          ← List.getD_eq_getElem fillRes none hj1,
          ← List.getD_eq_getElem (chunkIndexGen 0 m cap) (slcNone, 0)
            (by rw [List.length_map] at hj2; exact hj2)]
        rw [hval]
        have hl := hlists k hk
        show mlst (ch.1.getD (aOrder.getD k 0).toNat (MIdx.slc slcNone))
          = pyGetSlice (nz.getD k [])
              ((chunkIndexGen 0 m cap).getD j (slcNone, 0)).1
        rw [hl]
        rfl
    rw [hmap]
    have hlk : (nz.getD k []).length = m := by
      refine hwf _ ?_
      rw [List.getD_eq_getElem _ _ hknz]
      exact List.getElem_mem hknz
    rw [show m = (nz.getD k []).length from hlk.symm]
    exact pyGetSlice_pieces_flatten (nz.getD k []) cap hcap1

/-- C2 counterexample: a mask given as a tuple of per-axis index lists is
rejected with an `AttributeError` from the `mask.ndim` lookup before any
batching happens, so the batching property cannot hold for every mask. -/
theorem maskedChunkIndex_batching_counterexample :
    maskedChunkIndex [4, 5] 3 (.tup [[0, 1, 2]]) (some [1]) none
        (some [slcNone])
      = .error (.attributeError "'tuple' object has no attribute 'ndim'") := by
  rfl

/-- C2 (amended to boolean-array masks): for every boolean-array mask whose
`nonzero` coordinate lists have common length `m` and every accepted
capacity, `maskedChunkIndex` partitions the `m` rows into exactly
`ceil(m / cap)` consecutive batches; every batch slot is filled, each batch
has at most `cap` rows and only the final batch may be shorter; the
per-chunk counts sum to `m`; and concatenating the per-axis index runs over
the batches reproduces the mask's coordinate lists in their original
order. -/
theorem maskedChunkIndex_batching
    (shape : List Nat) (nChunksMax : Nat) (nz : List (List Int))
    (chunkAxesO axesOrderO : Option (List Int))
    (chunkAxesSliceO : Option (List PySlice))
    (chunkIndexL : List (Option (List MIdx × List (Option Nat) × Nat)))
    (cAxes aOrder : List Int) (cap : Nat) (m : Nat)
    (hrun : maskedChunkIndex shape nChunksMax (.arr nz) chunkAxesO axesOrderO
        chunkAxesSliceO = .ok (chunkIndexL, cAxes, aOrder, cap))
    (hwf : ∀ l ∈ nz, l.length = m) :
    chunkIndexL.length = m / cap + intBool (m % cap) ∧
    ((chunkIndexL.map (fun o => (o.getD ([], [], 0)).2.2)).sum = m) ∧
    (∀ j, j < chunkIndexL.length →
      ∃ ch : List MIdx × List (Option Nat) × Nat,
        chunkIndexL.getD j none = some ch ∧ ch.2.2 ≤ cap ∧
        (j + 1 < chunkIndexL.length → ch.2.2 = cap)) ∧
    (∀ k, k < aOrder.length →
      (chunkIndexL.map (fun o => mlst ((o.getD ([], [], 0)).1.getD
          (aOrder.getD k 0).toNat (MIdx.slc slcNone)))).flatten
        = nz.getD k []) := by
  obtain ⟨h1, h2, h3, h4, h5⟩ := maskedChunkIndex_spec shape nChunksMax nz
    chunkAxesO axesOrderO chunkAxesSliceO chunkIndexL cAxes aOrder cap m
    hrun hwf
  refine ⟨h2, h4, ?_, h5⟩
  intro j hj
  obtain ⟨ch, hval, hcnt, hle, hfull, hlists⟩ := h3 j hj
  exact ⟨ch, hval, hle, hfull⟩

theorem maskedChunkIndex_batching_witness :
    ([some ([MIdx.lst [0, 2], MIdx.slc slcNone], [some 2, some 5], 2),
      some ([MIdx.lst [3], MIdx.slc slcNone], [some 1, some 5], 1)].length
        = 3 / 2 + intBool (3 % 2)) ∧
    (([some ([MIdx.lst [0, 2], MIdx.slc slcNone], [some 2, some 5], 2),
       some ([MIdx.lst [3], MIdx.slc slcNone], [some 1, some 5], 1)].map
        (fun o : Option (List MIdx × List (Option Nat) × Nat) =>
          (o.getD ([], [], 0)).2.2)).sum = 3) ∧
    (([some ([MIdx.lst [0, 2], MIdx.slc slcNone], [some 2, some 5], 2),
       some ([MIdx.lst [3], MIdx.slc slcNone], [some 1, some 5], 1)].map
        (fun o : Option (List MIdx × List (Option Nat) × Nat) =>
          mlst ((o.getD ([], [], 0)).1.getD
            ((([0] : List Int).getD 0 0).toNat) (MIdx.slc slcNone)))).flatten
      = [0, 2, 3]) := by
  have h := maskedChunkIndex_batching [4, 5] 2 [[0, 2, 3]] (some [1]) none
    (some [slcNone])
    [some ([MIdx.lst [0, 2], MIdx.slc slcNone], [some 2, some 5], 2),
      some ([MIdx.lst [3], MIdx.slc slcNone], [some 1, some 5], 1)]
    [1] [0] 2 3 rfl (by decide)
  exact ⟨h.1, h.2.1, h.2.2.2 0 (by decide)⟩

/-- C9: the mask length-consistency check claimed by the spec does not
exist in the code.  Any mask passed as a tuple of per-axis integer-index
lists crashes with an `AttributeError` at the `mask.ndim` lookup (line 282)
before the `isinstance(mask, (list, tuple))` branch (line 302) is ever
reached — both for mismatched per-axis lengths (first conjunct) and for
perfectly consistent ones (second conjunct).  No data-inconsistency
`ValueError` is raised. -/
theorem maskedChunkIndex_tuple_mask_bug :
    (maskedChunkIndex [4, 5, 6] 2 (.tup [[0, 1], [2, 3, 4]]) (some [2]) none
        (some [slcNone])
      = .error (.attributeError "'tuple' object has no attribute 'ndim'")) ∧
    (maskedChunkIndex [4, 5, 6] 2 (.tup [[0, 1], [2, 3]]) (some [2]) none
        (some [slcNone])
      = .error (.attributeError "'tuple' object has no attribute 'ndim'")) := by
  exact ⟨rfl, rfl⟩

/-- C7: no chunk's count exceeds the row capacity `max nChunksMax 1`
(the requested maximum coerced to at least 1), for both planners: every
chunk enumerated from the dense planner, and every filled batch slot of
the masked planner. -/
theorem planner_capacity_bound :
    (∀ (shape : List Nat) (nChunksMax : Nat)
      (chunkAxesO axesOrderO : Option (List Int))
      (chunkAxesSliceO : Option (List PySlice))
      (chunkIndex : List (List (PySlice × Nat))) (cAxes aOrder : List Int)
      (nBuffer : Nat)
      (chunks : List (List (Option PySlice) × List (Option Nat) × Nat)),
      fullChunkIndex shape nChunksMax chunkAxesO axesOrderO chunkAxesSliceO
          true = .ok (chunkIndex, cAxes, aOrder, nBuffer) →
      chunkIndexProduct chunkIndex cAxes aOrder = .ok chunks →
      cAxes.Nodup →
      (∀ a ∈ cAxes, 0 ≤ a ∧ a < (shape.length : Int)) →
      ∀ ch ∈ chunks, ch.2.2 ≤ max nChunksMax 1) ∧
    (∀ (shape : List Nat) (nChunksMax : Nat) (nz : List (List Int))
      (chunkAxesO axesOrderO : Option (List Int))
      (chunkAxesSliceO : Option (List PySlice))
      (chunkIndexL : List (Option (List MIdx × List (Option Nat) × Nat)))
      (cAxes aOrder : List Int) (cap : Nat) (m : Nat),
      maskedChunkIndex shape nChunksMax (.arr nz) chunkAxesO axesOrderO
          chunkAxesSliceO = .ok (chunkIndexL, cAxes, aOrder, cap) →
      (∀ l ∈ nz, l.length = m) →
      ∀ o ∈ chunkIndexL, ∀ ch : List MIdx × List (Option Nat) × Nat,
        o = some ch → ch.2.2 ≤ max nChunksMax 1) := by
  constructor
  · intro shape nChunksMax chunkAxesO axesOrderO chunkAxesSliceO chunkIndex
      cAxes aOrder nBuffer chunks hfull hprod hCnodup hCrange ch hch
    obtain ⟨h1, h2, h3, h4⟩ := fullChunkIndex_master shape nChunksMax
      chunkAxesO axesOrderO chunkAxesSliceO chunkIndex cAxes aOrder nBuffer
      chunks hfull hprod hCnodup hCrange
    exact le_trans (h2 ch hch) h3
  · intro shape nChunksMax nz chunkAxesO axesOrderO chunkAxesSliceO
      chunkIndexL cAxes aOrder cap m hrun hwf o ho ch hch
    obtain ⟨h1, h2, h3, h4, h5⟩ := maskedChunkIndex_spec shape nChunksMax nz
      chunkAxesO axesOrderO chunkAxesSliceO chunkIndexL cAxes aOrder cap m
      hrun hwf
    obtain ⟨j, hj, hje⟩ := List.mem_iff_getElem.1 ho
    obtain ⟨ch2, hval, hcnt, hle, hfull2, hlists⟩ := h3 j hj
    have hoe : o = some ch2 := by
      rw [← hje, ← List.getD_eq_getElem chunkIndexL none hj]
      exact hval
    rw [hch] at hoe
    have hce : ch = ch2 := by simpa using hoe
    rw [hce, ← h1]
    exact hle

theorem planner_capacity_bound_witness :
    (∀ ch ∈ [(([some (⟨some 0, some 2, some 1⟩ : PySlice), some slcNone],
          [some 2, some 4], 2) :
            List (Option PySlice) × List (Option Nat) × Nat),
        ([some (⟨some 2, some 3, some 1⟩ : PySlice), some slcNone],
          [some 1, some 4], 1)], ch.2.2 ≤ max 2 1) ∧
    (∀ o ∈ [some ([MIdx.lst [0, 2], MIdx.slc slcNone], [some 2, some 5], 2),
        some ([MIdx.lst [3], MIdx.slc slcNone], [some 1, some 5], 1)],
      ∀ ch : List MIdx × List (Option Nat) × Nat,
        o = some ch → ch.2.2 ≤ max 2 1) := by
  constructor
  · exact planner_capacity_bound.1 [3, 4] 2 (some [1]) none (some [slcNone])
      [[(slcNone, 4)],
        [(⟨some 0, some 2, some 1⟩, 2), (⟨some 2, some 3, some 1⟩, 1)]]
      [1] [0] 2
      [([some (⟨some 0, some 2, some 1⟩ : PySlice), some slcNone],
          [some 2, some 4], 2),
        ([some (⟨some 2, some 3, some 1⟩ : PySlice), some slcNone],
          [some 1, some 4], 1)]
      rfl rfl (by decide) (by decide)
  · exact planner_capacity_bound.2 [4, 5] 2 [[0, 2, 3]] (some [1]) none
      (some [slcNone])
      [some ([MIdx.lst [0, 2], MIdx.slc slcNone], [some 2, some 5], 2),
        some ([MIdx.lst [3], MIdx.slc slcNone], [some 1, some 5], 1)]
      [1] [0] 2 3 rfl (by decide)

/-- C10: buffer-slice safety.  Every chunk enumerated from the dense
planner has count at most the `nBuffer` value `fullChunkIndex` itself
returns, and every filled batch of the masked planner has count at most
the capacity value `maskedChunkIndex` itself returns — the values the
views use to size their reusable row buffers — so `buffer[:count, :]`
never exceeds the buffer's first dimension. -/
theorem planner_buffer_bound :
    (∀ (shape : List Nat) (nChunksMax : Nat)
      (chunkAxesO axesOrderO : Option (List Int))
      (chunkAxesSliceO : Option (List PySlice))
      (chunkIndex : List (List (PySlice × Nat))) (cAxes aOrder : List Int)
      (nBuffer : Nat)
      (chunks : List (List (Option PySlice) × List (Option Nat) × Nat)),
      fullChunkIndex shape nChunksMax chunkAxesO axesOrderO chunkAxesSliceO
          true = .ok (chunkIndex, cAxes, aOrder, nBuffer) →
      chunkIndexProduct chunkIndex cAxes aOrder = .ok chunks →
      cAxes.Nodup →
      (∀ a ∈ cAxes, 0 ≤ a ∧ a < (shape.length : Int)) →
      ∀ ch ∈ chunks, ch.2.2 ≤ nBuffer) ∧
    (∀ (shape : List Nat) (nChunksMax : Nat) (nz : List (List Int))
      (chunkAxesO axesOrderO : Option (List Int))
      (chunkAxesSliceO : Option (List PySlice))
      (chunkIndexL : List (Option (List MIdx × List (Option Nat) × Nat)))
      (cAxes aOrder : List Int) (cap : Nat) (m : Nat),
      maskedChunkIndex shape nChunksMax (.arr nz) chunkAxesO axesOrderO
          chunkAxesSliceO = .ok (chunkIndexL, cAxes, aOrder, cap) →
      (∀ l ∈ nz, l.length = m) →
      ∀ o ∈ chunkIndexL, ∀ ch : List MIdx × List (Option Nat) × Nat,
        o = some ch → ch.2.2 ≤ cap) := by
  constructor
  · intro shape nChunksMax chunkAxesO axesOrderO chunkAxesSliceO chunkIndex
      cAxes aOrder nBuffer chunks hfull hprod hCnodup hCrange
    exact (fullChunkIndex_master shape nChunksMax chunkAxesO axesOrderO
      chunkAxesSliceO chunkIndex cAxes aOrder nBuffer chunks hfull hprod
      hCnodup hCrange).2.1
  · intro shape nChunksMax nz chunkAxesO axesOrderO chunkAxesSliceO
      chunkIndexL cAxes aOrder cap m hrun hwf o ho ch hch
    obtain ⟨h1, h2, h3, h4, h5⟩ := maskedChunkIndex_spec shape nChunksMax nz
      chunkAxesO axesOrderO chunkAxesSliceO chunkIndexL cAxes aOrder cap m
      hrun hwf
    obtain ⟨j, hj, hje⟩ := List.mem_iff_getElem.1 ho
    obtain ⟨ch2, hval, hcnt, hle, hfull2, hlists⟩ := h3 j hj
    have hoe : o = some ch2 := by
      rw [← hje, ← List.getD_eq_getElem chunkIndexL none hj]
      exact hval
    rw [hch] at hoe
    have hce : ch = ch2 := by simpa using hoe
    rw [hce]
    exact hle

theorem planner_buffer_bound_witness :
    (∀ ch ∈ [(([some (⟨some 0, some 2, some 1⟩ : PySlice), some slcNone],
          [some 2, some 4], 2) :
            List (Option PySlice) × List (Option Nat) × Nat),
        ([some (⟨some 2, some 3, some 1⟩ : PySlice), some slcNone],
          [some 1, some 4], 1)], ch.2.2 ≤ 2) ∧
    (∀ o ∈ [some ([MIdx.lst [0, 2], MIdx.slc slcNone], [some 2, some 5], 2),
        some ([MIdx.lst [3], MIdx.slc slcNone], [some 1, some 5], 1)],
      ∀ ch : List MIdx × List (Option Nat) × Nat,
        o = some ch → ch.2.2 ≤ 2) := by
  constructor
  · exact planner_buffer_bound.1 [3, 4] 2 (some [1]) none (some [slcNone])
      [[(slcNone, 4)],
        [(⟨some 0, some 2, some 1⟩, 2), (⟨some 2, some 3, some 1⟩, 1)]]
      [1] [0] 2
      [([some (⟨some 0, some 2, some 1⟩ : PySlice), some slcNone],
          [some 2, some 4], 2),
        ([some (⟨some 2, some 3, some 1⟩ : PySlice), some slcNone],
          [some 1, some 4], 1)]
      rfl rfl (by decide) (by decide)
  · exact planner_buffer_bound.2 [4, 5] 2 [[0, 2, 3]] (some [1]) none
      (some [slcNone])
      [some ([MIdx.lst [0, 2], MIdx.slc slcNone], [some 2, some 5], 2),
        some ([MIdx.lst [3], MIdx.slc slcNone], [some 1, some 5], 1)]
      [1] [0] 2 3 rfl (by decide)

/-- Python `list.pop(i)` with negative-index semantics. -/
def pyPop {α : Type _} (l : List α) (i : Int) : Except PyErr (List α) :=
  let j : Int := if i < 0 then i + l.length else i
  if 0 ≤ j ∧ j.toNat < l.length then .ok (l.eraseIdx j.toNat)
  else .error (.indexError "pop index out of range")

/-- Embeds `chunks_in_memory`.  The available-memory query of the source
(psutil / PyMca physical-memory helpers) is abstracted as the `memQuery`
parameter, with `none` standing for the "unknown" answer of the fallback
chain.  The float `margin` is carried as the exact rational
`mNum / mDen`, so `int((nbytes_mem * margin) / nbytes_chunk)` on
nonnegative values is the natural floor `nbytes_mem * mNum /
(nbytes_chunk * mDen)`; a zero `nbytes_chunk` raises `ZeroDivisionError`
as the Python division would.  `axis` is an int or a tuple/list of ints,
popped sequentially; `maximal` is `None` or a number, tested for Python
truthiness (`None` and `0` are falsy). -/
def chunks_in_memory (shape : List Nat) (itemsize : Nat)
    (axis : List Int ⊕ Int) (mNum mDen : Nat) (maximal : Option Nat)
    (memQuery : Option Nat) : Except PyErr (Option Nat) :=
  match memQuery with
  | none => .ok maximal
  | some nbytesMem =>
    (match axis with
      | .inl axs => axs.foldlM (fun sl ax => pyPop sl ax) shape
      | .inr ax => pyPop shape ax).bind (fun shapeSlice =>
      if shapeSlice = [] then
        .error (.valueError "Required: len(axis)<len(shape)")
      else
        let nItems := shapeSlice.prod
        let nbytesChunk := nItems * itemsize
        if nbytesChunk = 0 then
          .error (.zeroDivisionError "float division by zero")
        else
          let nChunks := nbytesMem * mNum / (nbytesChunk * mDen)
          match maximal with
          | some mx =>
            if mx ≠ 0 then .ok (some (max nChunks mx)) else .ok (some nChunks)
          | none => .ok (some nChunks))

/-- C8: memory-budgeting fail-soft.  When the available-memory query
answers "unknown" (`None`), `chunks_in_memory` never raises and returns
the caller-supplied `maximal` fallback unconditionally — even before any
axis validation.  When the memory is known and the axis arguments are
valid, it returns `floor(available_bytes * margin / bytes_per_chunk)`,
floored to at least the supplied minimum when a nonzero one is given. -/
theorem chunks_in_memory_fail_soft :
    (∀ (shape : List Nat) (itemsize : Nat) (axis : List Int ⊕ Int)
      (mNum mDen : Nat) (maximal : Option Nat),
      chunks_in_memory shape itemsize axis mNum mDen maximal none
        = .ok maximal) ∧
    (∀ (shape : List Nat) (itemsize : Nat) (axis : List Int ⊕ Int)
      (mNum mDen : Nat) (maximal : Option Nat) (nbytesMem : Nat)
      (shapeSlice : List Nat),
      (match axis with
        | .inl axs => axs.foldlM (fun sl ax => pyPop sl ax) shape
        | .inr ax => pyPop shape ax) = .ok shapeSlice →
      shapeSlice ≠ [] →
      shapeSlice.prod * itemsize ≠ 0 →
      chunks_in_memory shape itemsize axis mNum mDen maximal (some nbytesMem)
        = .ok (some (if 0 < maximal.getD 0 then
            max (nbytesMem * mNum / (shapeSlice.prod * itemsize * mDen))
              (maximal.getD 0)
          else nbytesMem * mNum / (shapeSlice.prod * itemsize * mDen)))) := by
  constructor
  · intro shape itemsize axis mNum mDen maximal
    rfl
  · intro shape itemsize axis mNum mDen maximal nbytesMem shapeSlice hpop
    intro hne hnz
    show (match axis with
        | .inl axs => axs.foldlM (fun sl ax => pyPop sl ax) shape
        | .inr ax => pyPop shape ax).bind _ = _
    rw [hpop]
    show (if shapeSlice = [] then _ else _) = _
    rw [if_neg hne]
    simp only [if_neg hnz]
    match maximal with
    | none => rfl
    | some mx =>
      by_cases hmx : mx = 0
      · subst hmx
        simp
      · simp only [Option.getD_some]
        rw [if_pos hmx, if_pos (by omega)]

theorem chunks_in_memory_fail_soft_witness :
    (chunks_in_memory [4, 5, 6] 8 (.inr (-1)) 1 100 (some 3) none
      = .ok (some 3)) ∧
    (chunks_in_memory [4, 5, 6] 8 (.inr (-1)) 1 100 (some 3) (some 1000000)
      = .ok (some 62)) := by
  constructor
  · exact chunks_in_memory_fail_soft.1 [4, 5, 6] 8 (.inr (-1)) 1 100 (some 3)
  · exact chunks_in_memory_fail_soft.2 [4, 5, 6] 8 (.inr (-1)) 1 100 (some 3)
      1000000 [4, 5] rfl (by decide) (by decide)

/-- A numpy array: shape plus C-order (row-major) flat contents. -/
structure NArr where
  shape : List Nat
  flat : List Int
  deriving DecidableEq

/-- All coordinates of a shape, enumerated in C (row-major) order. -/
def allCoords (shape : List Nat) : List (List Nat) :=
  pyProduct (shape.map (fun n => List.range n))

/-- C-order rank (flat position) of a coordinate. -/
def rank : List Nat → List Nat → Nat
  | _ :: s, c :: cs => c * s.prod + rank s cs
  | _, _ => 0

theorem allCoords_nil : allCoords [] = [[]] := rfl

theorem allCoords_cons (n : Nat) (s : List Nat) :
    allCoords (n :: s)
      = (List.range n).flatMap (fun x => (allCoords s).map (x :: ·)) := rfl

theorem allCoords_length (s : List Nat) : (allCoords s).length = s.prod := by
  induction s with
  | nil => rfl
  | cons n s ih =>
    rw [allCoords_cons, List.length_flatMap, List.prod_cons]
    have h1 : (List.range n).map
        (List.length ∘ fun x => (allCoords s).map (x :: ·))
        = (List.range n).map (fun _ => s.prod) := by
      refine List.map_congr_left (fun x _ => ?_)
      show ((allCoords s).map (x :: ·)).length = s.prod
      rw [List.length_map, ih]
    rw [h1, List.map_const', List.sum_replicate, List.length_range, smul_eq_mul,
      Nat.mul_comm]

/-- Position `k` of a `flatMap` whose blocks all have length `L`. -/
theorem flatMap_const_getD {α β : Type _} (d : β) (da : α) :
    ∀ (l : List α) (f : α → List β) (L : Nat), 0 < L →
      (∀ x ∈ l, (f x).length = L) →
      ∀ k, k < l.length * L →
        (l.flatMap f).getD k d = (f (l.getD (k / L) da)).getD (k % L) d := by
  intro l
  induction l with
  | nil =>
    intro f L hL hf k hk
    simp at hk
  | cons a l ih =>
    intro f L hL hf k hk
    rw [List.flatMap_cons]
    have hfa : (f a).length = L := hf a (List.mem_cons_self a l)
    by_cases hc : k < L
    · rw [List.getD_eq_getElem?_getD, List.getElem?_append_left (by omega),
        ← List.getD_eq_getElem?_getD]
      have h1 : k / L = 0 := Nat.div_eq_of_lt hc
      have h2 : k % L = k := Nat.mod_eq_of_lt hc
      rw [h1, h2, List.getD_cons_zero]
    · rw [List.getD_eq_getElem?_getD, List.getElem?_append_right (by omega),
        ← List.getD_eq_getElem?_getD]
      rw [hfa]
      have hk2 : k - L < l.length * L := by
        rw [List.length_cons] at hk
        have : (l.length + 1) * L = l.length * L + L := by ring
        omega
      have hq : 1 ≤ k / L := (Nat.one_le_div_iff hL).2 (by omega)
      have h8 : k / L - 1 + 1 = k / L := by omega
      have h5 : k - L = L * (k / L - 1) + k % L := by
        have h4b := Nat.div_add_mod k L
        have h7 : L * (k / L) = L * (k / L - 1) + L := by
          conv_lhs => rw [← h8]
          rw [Nat.mul_add, Nat.mul_one]
        omega
      have h3 : (k - L) / L = k / L - 1 := by
        rw [h5, Nat.mul_add_div hL, Nat.div_eq_of_lt (Nat.mod_lt _ hL),
          Nat.add_zero]
      have h4 : (k - L) % L = k % L := by
        rw [h5, Nat.mul_add_mod]
        exact Nat.mod_eq_of_lt (Nat.mod_lt _ hL)
      rw [ih f L hL (fun x hx => hf x (List.mem_cons_of_mem a hx)) (k - L) hk2]
      rw [h3, h4]
      have h6 : (a :: l).getD (k / L) da = l.getD (k / L - 1) da := by
        conv_lhs => rw [← h8]
        rw [List.getD_cons_succ]
      rw [h6]

theorem getD_map {α β : Type _} (g : α → β) (l : List α) (i : Nat) (d : β)
    (da : α) (h : i < l.length) : (l.map g).getD i d = g (l.getD i da) := by
  rw [List.getD_eq_getElem _ _ (by rw [List.length_map]; exact h),
    List.getElem_map, List.getD_eq_getElem _ _ h]

/-- The rank of an in-range coordinate is below the array size. -/
theorem rank_lt {c s : List Nat} (h : List.Forall₂ (· < ·) c s) :
    rank s c < s.prod := by
  induction h with
  | nil => exact Nat.zero_lt_one
  | @cons c0 n cs s hlt hrest ih =>
    show c0 * s.prod + rank s cs < (n :: s).prod
    rw [List.prod_cons]
    have h1 : c0 * s.prod + rank s cs < (c0 + 1) * s.prod := by
      rw [Nat.add_mul, Nat.one_mul]
      omega
    have h2 : (c0 + 1) * s.prod ≤ n * s.prod :=
      Nat.mul_le_mul_right _ (by omega)
    omega

/-- Every enumerated coordinate is in range. -/
theorem allCoords_mem {s : List Nat} :
    ∀ c ∈ allCoords s, List.Forall₂ (· < ·) c s := by
  induction s with
  | nil =>
    intro c hc
    rw [allCoords_nil] at hc
    have h2 : c = [] := by simpa using hc
    subst h2
    exact List.Forall₂.nil
  | cons n s ih =>
    intro c hc
    rw [allCoords_cons] at hc
    simp only [List.mem_flatMap, List.mem_map] at hc
    obtain ⟨x, hx, c', hc', rfl⟩ := hc
    exact List.Forall₂.cons (by simpa using hx) (ih c' hc')

/-- The `k`-th enumerated coordinate has rank `k`. -/
theorem rank_allCoords (s : List Nat) :
    ∀ k, k < s.prod → rank s ((allCoords s).getD k []) = k := by
  induction s with
  | nil =>
    intro k hk
    have h2 : k = 0 := by simpa using hk
    subst h2
    rfl
  | cons n s ih =>
    intro k hk
    rw [List.prod_cons] at hk
    have hL : 0 < s.prod := by
      rcases Nat.eq_zero_or_pos s.prod with h0 | h0
      · rw [h0, Nat.mul_zero] at hk
        omega
      · exact h0
    rw [allCoords_cons,
      flatMap_const_getD [] 0 (List.range n)
        (fun x => (allCoords s).map (x :: ·)) s.prod hL
        (fun x _ => by rw [List.length_map, allCoords_length])
        k (by rw [List.length_range]; exact hk)]
    have hdiv : k / s.prod < n := (Nat.div_lt_iff_lt_mul hL).2 hk
    have hmod : k % s.prod < s.prod := Nat.mod_lt _ hL
    rw [List.getD_eq_getElem (List.range n) 0
        (show k / s.prod < (List.range n).length by
          rw [List.length_range]; exact hdiv),
      List.getElem_range,
      getD_map _ _ _ _ [] (by rw [allCoords_length]; exact hmod)]
    simp only [rank]
    rw [ih (k % s.prod) hmod, Nat.mul_comm]
    exact Nat.div_add_mod k s.prod

/-- Ranking inverts the coordinate enumeration on in-range coordinates. -/
theorem allCoords_rank {c s : List Nat} (h : List.Forall₂ (· < ·) c s) :
    (allCoords s).getD (rank s c) [] = c := by
  induction h with
  | nil => rfl
  | @cons c0 n cs s hlt hrest ih =>
    have hr : rank s cs < s.prod := rank_lt hrest
    have hL : 0 < s.prod := by omega
    have hk : c0 * s.prod + rank s cs < n * s.prod := by
      have h2 := rank_lt (List.Forall₂.cons hlt hrest)
      rw [List.prod_cons] at h2
      simpa [rank] using h2
    show (allCoords (n :: s)).getD (c0 * s.prod + rank s cs) [] = c0 :: cs
    rw [allCoords_cons,
      flatMap_const_getD [] 0 (List.range n)
        (fun x => (allCoords s).map (x :: ·)) s.prod hL
        (fun x _ => by rw [List.length_map, allCoords_length])
        _ (by rw [List.length_range]; exact hk)]
    have hdiv : (c0 * s.prod + rank s cs) / s.prod = c0 := by
      rw [Nat.add_comm, Nat.add_mul_div_right _ _ hL,
        Nat.div_eq_of_lt hr, Nat.zero_add]
    have hmod : (c0 * s.prod + rank s cs) % s.prod = rank s cs := by
      rw [Nat.mul_comm, Nat.mul_add_mod]
      exact Nat.mod_eq_of_lt hr
    rw [hdiv, hmod,
      List.getD_eq_getElem (List.range n) 0
        (show c0 < (List.range n).length by rw [List.length_range]; exact hlt),
      List.getElem_range,
      getD_map _ _ _ _ [] (by rw [allCoords_length]; exact hr), ih]

/-- Apply a transpose axis list: `applyPerm p s` has `i`-th entry
`s[p[i]]` (the shape rule of `numpy.transpose`). -/
def applyPerm (p : List Nat) (s : List Nat) : List Nat :=
  p.map (fun i => s.getD i 0)

/-- numpy `argsort` of an integer list: the positions sorted by value. -/
def argsortN (p : List Nat) : List Nat :=
  List.insertionSort (fun i j => p.getD i 0 ≤ p.getD j 0) (List.range p.length)

/-- The source coordinate selected by `numpy.transpose` for a result
coordinate: `(unperm p c)[j] = c[index of j in p]`. -/
def unperm (p : List Nat) (c : List Nat) : List Nat :=
  (List.range p.length).map (fun j => c.getD (p.indexOf j) 0)

theorem perm_range_getD_lt {p : List Nat} {n : Nat}
    (hp : List.Perm p (List.range n)) {i : Nat} (hi : i < n) :
    p.getD i 0 < n := by
  have hlen : p.length = n := by rw [hp.length_eq, List.length_range]
  have hmem : p.getD i 0 ∈ p := by
    rw [List.getD_eq_getElem _ _ (by omega)]
    exact List.getElem_mem (by omega)
  have h2 := hp.mem_iff.1 hmem
  simpa using h2

/-- `argsort` of a permutation of `range n` is a permutation of `range n`
and is its right inverse. -/
theorem argsortN_spec {p : List Nat} {n : Nat}
    (hp : List.Perm p (List.range n)) :
    List.Perm (argsortN p) (List.range n) ∧
    ∀ i, i < n → p.getD ((argsortN p).getD i 0) 0 = i := by
  have hlen : p.length = n := by rw [hp.length_eq, List.length_range]
  have hq : List.Perm (argsortN p) (List.range n) := by
    unfold argsortN
    rw [hlen]
    exact List.perm_insertionSort _ _
  refine ⟨hq, ?_⟩
  have hqlen : (argsortN p).length = n := by rw [hq.length_eq, List.length_range]
  have hsorted : List.Sorted (fun i j => p.getD i 0 ≤ p.getD j 0)
      (argsortN p) := by
    haveI : IsTotal Nat (fun i j => p.getD i 0 ≤ p.getD j 0) :=
      ⟨fun a b => Nat.le_total _ _⟩
    haveI : IsTrans Nat (fun i j => p.getD i 0 ≤ p.getD j 0) :=
      ⟨fun a b c hab hbc => Nat.le_trans hab hbc⟩
    exact List.sorted_insertionSort _ _
  have hvs : List.Sorted (· ≤ ·) ((argsortN p).map (fun i => p.getD i 0)) :=
    List.Pairwise.map _ (fun a b h => h) hsorted
  have hvp : List.Perm ((argsortN p).map (fun i => p.getD i 0))
      (List.range n) := by
    have h1 : (List.range n).map (fun i => p.getD i 0) = p := by
      rw [← hlen]
      exact map_getD_range p 0
    have h2 : List.Perm ((argsortN p).map (fun i => p.getD i 0))
        ((List.range n).map (fun i => p.getD i 0)) := hq.map _
    rw [h1] at h2
    exact h2.trans hp
  have hve : (argsortN p).map (fun i => p.getD i 0) = List.range n :=
    List.eq_of_perm_of_sorted hvp hvs (List.pairwise_le_range n)
  intro i hi
  have h2 := congrArg (fun l => l.getD i 0) hve
  simp only at h2
  rw [getD_map _ _ _ _ 0 (by omega)] at h2
  rw [h2, List.getD_eq_getElem _ _ (by simpa using hi), List.getElem_range]

/-- In a duplicate-free list, `indexOf` recovers the position. -/
theorem nodup_indexOf_eq {q : List Nat} (h : q.Nodup) {pos j : Nat}
    (hpos : pos < q.length) (hval : q.getD pos 0 = j) : q.indexOf j = pos := by
  have hmem : j ∈ q := by
    rw [← hval, List.getD_eq_getElem _ _ hpos]
    exact List.getElem_mem hpos
  have hlt : q.indexOf j < q.length := List.indexOf_lt_length.2 hmem
  have h2 : q[q.indexOf j] = j := List.getElem_indexOf hlt
  rw [List.getD_eq_getElem _ _ hpos] at hval
  exact h.getElem_inj_iff.1 (by rw [h2, hval])

/-- A right inverse of a permutation of `range n` is also a left
inverse. -/
theorem perm_inv_flip {p q : List Nat} {n : Nat}
    (hp : List.Perm p (List.range n)) (hq : List.Perm q (List.range n))
    (h : ∀ i, i < n → p.getD (q.getD i 0) 0 = i) :
    ∀ i, i < n → q.getD (p.getD i 0) 0 = i := by
  intro i hi
  have hlen : p.length = n := by rw [hp.length_eq, List.length_range]
  have hqlen : q.length = n := by rw [hq.length_eq, List.length_range]
  have hnodup : p.Nodup := hp.nodup_iff.2 (List.nodup_range n)
  have hj : p.getD i 0 < n := perm_range_getD_lt hp hi
  have h2 := h (p.getD i 0) hj
  have ha : q.getD (p.getD i 0) 0 < n := perm_range_getD_lt hq hj
  have e1 := nodup_indexOf_eq hnodup
    (show q.getD (p.getD i 0) 0 < p.length by omega) h2
  have e2 := nodup_indexOf_eq hnodup (show i < p.length by omega) rfl
  omega

theorem indexOf_getD {p : List Nat} {n : Nat}
    (hp : List.Perm p (List.range n)) {j : Nat} (hj : j < n) :
    p.indexOf j < p.length ∧ p.getD (p.indexOf j) 0 = j := by
  have hmem : j ∈ p := hp.mem_iff.2 (by simpa using hj)
  have hlt : p.indexOf j < p.length := List.indexOf_lt_length.2 hmem
  refine ⟨hlt, ?_⟩
  rw [List.getD_eq_getElem _ _ hlt]
  exact List.getElem_indexOf hlt

theorem applyPerm_length (p s : List Nat) :
    (applyPerm p s).length = p.length := List.length_map p _

theorem applyPerm_getD {p : List Nat} (s : List Nat) {i : Nat}
    (h : i < p.length) :
    (applyPerm p s).getD i 0 = s.getD (p.getD i 0) 0 :=
  getD_map _ _ _ _ 0 h

/-- Shapes permuted by a transpose list are permutations of the original
shape (so sizes are preserved). -/
theorem applyPerm_perm {p s : List Nat} {n : Nat}
    (hp : List.Perm p (List.range n)) (hs : s.length = n) :
    List.Perm (applyPerm p s) s := by
  have h1 : (List.range n).map (fun i => s.getD i 0) = s := by
    rw [← hs]
    exact map_getD_range s 0
  have h2 : List.Perm (p.map (fun i => s.getD i 0))
      ((List.range n).map (fun i => s.getD i 0)) := hp.map _
  rw [h1] at h2
  exact h2

/-- Applying a permutation and then its right inverse restores a list of
matching length. -/
theorem applyPerm_applyPerm {p q : List Nat} {n : Nat}
    (hp : List.Perm p (List.range n)) (hq : List.Perm q (List.range n))
    (hpq : ∀ i, i < n → p.getD (q.getD i 0) 0 = i) (s : List Nat)
    (hs : s.length = n) : applyPerm q (applyPerm p s) = s := by
  have hlen : p.length = n := by rw [hp.length_eq, List.length_range]
  have hqlen : q.length = n := by rw [hq.length_eq, List.length_range]
  apply List.ext_getElem
  · rw [applyPerm_length, hqlen, hs]
  · intro i hi1 hi2
    rw [applyPerm_length] at hi1
    rw [← List.getD_eq_getElem (applyPerm q (applyPerm p s)) 0 (by
        rw [applyPerm_length]; exact hi1),
      ← List.getD_eq_getElem s 0 hi2]
    rw [applyPerm_getD _ (by omega)]
    have hqi : q.getD i 0 < n := perm_range_getD_lt hq (by omega)
    rw [applyPerm_getD _ (by omega), hpq i (by omega)]

theorem list_ext_getD {α : Type _} (d : α) {l1 l2 : List α}
    (hl : l1.length = l2.length)
    (h : ∀ i, i < l1.length → l1.getD i d = l2.getD i d) : l1 = l2 := by
  apply List.ext_getElem hl
  intro i hi1 hi2
  rw [← List.getD_eq_getElem l1 d hi1, ← List.getD_eq_getElem l2 d hi2]
  exact h i hi1

theorem unperm_length (p c : List Nat) : (unperm p c).length = p.length := by
  rw [unperm, List.length_map, List.length_range]

theorem unperm_getD (p c : List Nat) {j : Nat} (h : j < p.length) :
    (unperm p c).getD j 0 = c.getD (p.indexOf j) 0 := by
  rw [unperm, getD_map _ _ _ _ 0 (by simpa using h),
    List.getD_eq_getElem (List.range p.length) 0 (by simpa using h),
    List.getElem_range]

theorem forall2_of_getD {c s : List Nat} (hl : c.length = s.length)
    (h : ∀ i, i < s.length → c.getD i 0 < s.getD i 0) :
    List.Forall₂ (· < ·) c s := by
  induction s generalizing c with
  | nil =>
    have h2 : c = [] := List.eq_nil_of_length_eq_zero (by simpa using hl)
    subst h2
    exact List.Forall₂.nil
  | cons b s ih =>
    rcases c with _ | ⟨a, c⟩
    · simp at hl
    · refine List.Forall₂.cons (by simpa using h 0 (by simp)) ?_
      refine ih (by simpa using hl) (fun i hi => ?_)
      simpa using h (i + 1) (by simpa using hi)

theorem forall2_getD {c s : List Nat} (h : List.Forall₂ (· < ·) c s) :
    c.length = s.length ∧ ∀ i, i < s.length → c.getD i 0 < s.getD i 0 := by
  induction h with
  | nil => exact ⟨rfl, fun i hi => by simp at hi⟩
  | @cons a b c s hab hrest ih =>
    refine ⟨by simpa using ih.1, fun i hi => ?_⟩
    cases i with
    | zero => simpa using hab
    | succ i => simpa using ih.2 i (by simpa using hi)

/-- Embeds `numpy.transpose(a, axes)` on the flat C-order representation:
the result shape is `axes` applied to the shape, and the entry at result
coordinate `c` is the source entry at the coordinate whose `axes[i]`-th
component is `c[i]`.  An `axes` list that is not a permutation of the
dimensions raises `ValueError` as numpy does. -/
def transposeN (A : NArr) (p : List Nat) : Except PyErr NArr :=
  if List.Perm p (List.range A.shape.length) then
    .ok ⟨applyPerm p A.shape,
      (allCoords (applyPerm p A.shape)).map (fun c =>
        A.flat.getD (rank A.shape (unperm p c)) 0)⟩
  else .error (.valueError "axes don't match array")

/-- Transposing by `axes` and then by `argsort(axes)` restores the
array. -/
theorem transposeN_transposeN (A : NArr) (p : List Nat)
    (hp : List.Perm p (List.range A.shape.length))
    (hreg : A.flat.length = A.shape.prod) :
    (transposeN A p).bind (fun T1 => transposeN T1 (argsortN p)) = .ok A := by
  obtain ⟨Ash, Afl⟩ := A
  simp only at hp hreg ⊢
  obtain ⟨hq, hpq⟩ := argsortN_spec hp
  have hqp := perm_inv_flip hp hq hpq
  have hlen : p.length = Ash.length := by
    rw [hp.length_eq, List.length_range]
  have hqlen : (argsortN p).length = Ash.length := by
    rw [hq.length_eq, List.length_range]
  have hqnodup : (argsortN p).Nodup := hq.nodup_iff.2 (List.nodup_range _)
  have hs1len : (applyPerm p Ash).length = Ash.length := by
    rw [applyPerm_length, hlen]
  rw [transposeN, if_pos hp]
  show transposeN _ (argsortN p) = _
  rw [transposeN]
  rw [if_pos (by
    show List.Perm (argsortN p) (List.range (applyPerm p Ash).length)
    rw [hs1len]
    exact hq)]
  have hsh : applyPerm (argsortN p) (applyPerm p Ash) = Ash :=
    applyPerm_applyPerm hp hq hpq Ash rfl
  refine congrArg Except.ok ?_
  have hflat : (allCoords (applyPerm (argsortN p) (applyPerm p Ash))).map
      (fun c => ((allCoords (applyPerm p Ash)).map (fun c2 =>
          Afl.getD (rank Ash (unperm p c2)) 0)).getD
        (rank (applyPerm p Ash) (unperm (argsortN p) c)) 0)
      = Afl := by
    rw [hsh]
    have hprod1 : (applyPerm p Ash).prod = Ash.prod :=
      (applyPerm_perm hp rfl).prod_eq
    apply List.ext_getElem
    · rw [List.length_map, allCoords_length, hreg]
    · intro k hk1 hk2
      rw [List.length_map, allCoords_length] at hk1
      rw [List.getElem_map,
        ← List.getD_eq_getElem (allCoords Ash) []
          (by rw [allCoords_length]; exact hk1),
        ← List.getD_eq_getElem Afl 0 hk2]
      have hck := allCoords_mem ((allCoords Ash).getD k []) (by
        rw [List.getD_eq_getElem (allCoords Ash) []
          (by rw [allCoords_length]; exact hk1)]
        exact List.getElem_mem _)
      obtain ⟨hcklen, hckbnd⟩ := forall2_getD hck
      -- the inner source coordinate is the `p`-permuted result coordinate
      have hun : unperm (argsortN p) ((allCoords Ash).getD k [])
          = applyPerm p ((allCoords Ash).getD k []) := by
        refine list_ext_getD 0 ?_ (fun j hj => ?_)
        · rw [unperm_length, applyPerm_length, hqlen, hlen]
        · rw [unperm_length, hqlen] at hj
          rw [unperm_getD _ _ (by omega : j < (argsortN p).length),
            applyPerm_getD _ (by omega : j < p.length)]
          have hidx : (argsortN p).indexOf j = p.getD j 0 := by
            refine nodup_indexOf_eq hqnodup ?_ (hqp j (by omega))
            rw [hqlen]
            exact perm_range_getD_lt hp (by omega)
          rw [hidx]
      rw [hun]
      set d := applyPerm p ((allCoords Ash).getD k []) with hd
      have hdrange : List.Forall₂ (· < ·) d (applyPerm p Ash) := by
        refine forall2_of_getD ?_ (fun i hi => ?_)
        · rw [hd, applyPerm_length, applyPerm_length]
        · rw [hs1len] at hi
          rw [hd, applyPerm_getD _ (by omega : i < p.length),
            applyPerm_getD _ (by omega : i < p.length)]
          exact hckbnd _ (perm_range_getD_lt hp (by omega))
      have hrk : rank (applyPerm p Ash) d < (applyPerm p Ash).prod :=
        rank_lt hdrange
      rw [getD_map _ _ _ _ []
        (by rw [allCoords_length]; exact hrk)]
      rw [allCoords_rank hdrange]
      have hun2 : unperm p d = (allCoords Ash).getD k [] := by
        refine list_ext_getD 0 ?_ (fun j hj => ?_)
        · rw [unperm_length, hlen, hcklen]
        · rw [unperm_length] at hj
          rw [unperm_getD _ _ (by omega : j < p.length)]
          obtain ⟨hidx1, hidx2⟩ := indexOf_getD hp (show j < Ash.length by
            rw [← hlen]; exact hj)
          rw [hd, applyPerm_getD _ hidx1, hidx2]
      rw [hun2, rank_allCoords Ash k hk1]
  dsimp only
  simp only [Except.ok.injEq, NArr.mk.injEq]
  exact ⟨hsh, hflat⟩

def MIdx.isLst : MIdx → Bool
  | .lst _ => true
  | .slc _ => false

def MIdx.lstOf : MIdx → List Int
  | .lst l => l
  | .slc _ => []

/-- numpy index wrap-around for integer indices (bounds checking is not
modelled; the round-trip property does not depend on it). -/
def npWrap (x : Int) (n : Nat) : Int := if x < 0 then x + n else x

/-- numpy advanced-indexing layout, restricted to the patterns the views
use: a tuple of slices and "zipped" integer lists (all of one common
length).  Returns the result shape and, in result C-order, the source
flat position selected for each result cell.  The integer lists' broadcast
dimension sits at the position of the first list when the list positions
are consecutive, else in front — the rule `intListIndexAxis` mirrors. -/
def idxLayout (shape : List Nat) (idx : List MIdx) :
    Except PyErr (List Nat × List Nat) :=
  if idx.length ≠ shape.length then
    .error (.indexError "too many indices for array")
  else
    let ndim := shape.length
    let expAt : Nat → List Int := fun i =>
      match idx.getD i (MIdx.slc slcNone) with
      | .slc s => sliceList s (shape.getD i 0)
      | .lst _ => []
    let lstPos := (List.range ndim).filter
      (fun i => (idx.getD i (MIdx.slc slcNone)).isLst)
    let slcCntBefore : Nat → Nat := fun i =>
      ((List.range i).filter
        (fun t => ! (idx.getD t (MIdx.slc slcNone)).isLst)).length
    match lstPos with
    | [] =>
      let dims := (List.range ndim).map (fun i => (expAt i).length)
      let srcCoord : List Nat → List Nat := fun c =>
        (List.range ndim).map (fun i => ((expAt i).getD (c.getD i 0) 0).toNat)
      .ok (dims, (allCoords dims).map (fun c => rank shape (srcCoord c)))
    | i0 :: _ =>
      let lists := lstPos.map (fun i => (idx.getD i (MIdx.slc slcNone)).lstOf)
      let nBr := (lists.getD 0 []).length
      if lists.all (fun l => l.length == nBr) then
        let blockPos := if lstPos = List.range' i0 lstPos.length then i0 else 0
        let slcPosL := (List.range ndim).filter
          (fun i => ! (idx.getD i (MIdx.slc slcNone)).isLst)
        let dims := List.insertIdx blockPos nBr
          (slcPosL.map (fun i => (expAt i).length))
        let srcCoord : List Nat → List Nat := fun c =>
          (List.range ndim).map (fun i =>
            match idx.getD i (MIdx.slc slcNone) with
            | .lst l =>
                (npWrap (l.getD (c.getD blockPos 0) 0) (shape.getD i 0)).toNat
            | .slc _ =>
                ((expAt i).getD ((c.eraseIdx blockPos).getD (slcCntBefore i) 0)
                  0).toNat)
        .ok (dims, (allCoords dims).map (fun c => rank shape (srcCoord c)))
      else
        .error (.indexError
          "shape mismatch: indexing arrays could not be broadcast together")

/-- On success the layout selects one source position per result cell. -/
theorem idxLayout_len {shape : List Nat} {idx : List MIdx}
    {lay : List Nat × List Nat} (h : idxLayout shape idx = .ok lay) :
    lay.2.length = lay.1.prod := by
  unfold idxLayout at h
  split at h
  · exact absurd h (by simp)
  · simp only at h
    split at h
    · have h2 := h
      simp only [Except.ok.injEq] at h2
      rw [← h2, List.length_map, allCoords_length]
    · split at h
      · have h2 := h
        simp only [Except.ok.injEq] at h2
        rw [← h2, List.length_map, allCoords_length]
      · exact absurd h (by simp)

/-- numpy `reshape` on the flat representation: keep the flat contents,
replace the shape, require the total size to match. -/
def reshapeN (A : NArr) (dims : List Nat) : Except PyErr NArr :=
  if A.flat.length = dims.prod then .ok ⟨dims, A.flat⟩
  else .error (.valueError "cannot reshape array")

/-- Convert a chunk-shape tuple (which may contain `None` placeholders)
into reshape dimensions. -/
def dimsOf (l : List (Option Nat)) : Except PyErr (List Nat) :=
  l.mapM (fun o => match o with
    | some v => .ok v
    | none => .error (.typeError "unsupported NoneType dimension"))

/-- `data[idx]`: gather the selected cells into a fresh array. -/
def npIndexGet (shape : List Nat) (flat : List Int) (idx : List MIdx) :
    Except PyErr NArr :=
  (idxLayout shape idx).bind (fun lay =>
    .ok ⟨lay.1, lay.2.map (fun pos => flat.getD pos 0)⟩)

/-- `data[idx] = val`: scatter `val` into the selected cells (requiring an
exact shape match; numpy broadcasting is not modelled). -/
def npIndexSet (shape : List Nat) (flat : List Int) (idx : List MIdx)
    (val : NArr) : Except PyErr (List Int) :=
  (idxLayout shape idx).bind (fun lay =>
    if val.shape = lay.1 then
      .ok ((lay.2.zip val.flat).foldl (fun f q => f.set q.1 q.2) flat)
    else .error (.valueError "could not broadcast input array"))

theorem set_getD_self {α : Type _} (l : List α) (pos : Nat) (d : α) :
    l.set pos (l.getD pos d) = l := by
  by_cases h : pos < l.length
  · apply List.ext_getElem (by simp)
    intro i hi1 hi2
    rw [List.getElem_set]
    split_ifs with he
    · subst he
      rw [List.getD_eq_getElem _ _ h]
    · rfl
  · rw [List.set_eq_of_length_le (by omega)]

/-- Scattering back exactly the gathered values changes nothing. -/
theorem scatter_gather_id (flat : List Int) :
    ∀ ps : List Nat,
      (ps.zip (ps.map (fun pos => flat.getD pos 0))).foldl
        (fun f q => f.set q.1 q.2) flat = flat := by
  intro ps
  induction ps with
  | nil => rfl
  | cons p ps ih =>
    rw [List.map_cons, List.zip_cons_cons, List.foldl_cons, set_getD_self]
    exact ih

/-- One iteration of `MaskedView.items` on an in-memory array with
`readonly=False` and an unmutated buffer: read the chunk as
`transpose(data[idxChunk], transposeAxes).reshape(nMca, nChan)`, then
write it back as
`data[idxChunk] = transpose(value.reshape(idxShapeT), itransposeAxes)`
where `idxShapeT` permutes `idxShape` by `transposeAxes` and
`itransposeAxes = argsort(transposeAxes)`. -/
def itemsChunk (shape : List Nat) (tAxes : List Nat) (nChan : Nat)
    (flat : List Int) (ch : List MIdx × List (Option Nat) × Nat) :
    Except PyErr (List Int) :=
  (npIndexGet shape flat ch.1).bind (fun A =>
    (transposeN A tAxes).bind (fun T1 =>
      (reshapeN T1 [ch.2.2, nChan]).bind (fun value =>
        (dimsOf (tAxes.map (fun i => ch.2.1.getD i none))).bind (fun dimsT =>
          (reshapeN value dimsT).bind (fun V2 =>
            (transposeN V2 (argsortN tAxes)).bind (fun M2 =>
              npIndexSet shape flat ch.1 M2))))))

/-- Per-chunk round trip: an iteration that reads a chunk and writes the
unmutated buffer back leaves the array unchanged (the two
transpose/reshape passes are mutually inverse and the scatter writes each
gathered value to the cell it came from). -/
theorem itemsChunk_id (shape : List Nat) (tAxes : List Nat) (nChan : Nat)
    (flat : List Int) (ch : List MIdx × List (Option Nat) × Nat)
    (res : List Int) (h : itemsChunk shape tAxes nChan flat ch = .ok res) :
    res = flat := by
  unfold itemsChunk at h
  obtain ⟨A, hA, h2⟩ := bindOk h
  obtain ⟨T1, hT1, h3⟩ := bindOk h2
  obtain ⟨value, hval, h4⟩ := bindOk h3
  obtain ⟨dimsT, hdims, h5⟩ := bindOk h4
  obtain ⟨V2, hV2, h6⟩ := bindOk h5
  obtain ⟨M2, hM2, h7⟩ := bindOk h6
  -- the gather
  unfold npIndexGet at hA
  obtain ⟨lay, hlay, hAok⟩ := bindOk hA
  have hAe : A = ⟨lay.1, lay.2.map (fun pos => flat.getD pos 0)⟩ := by
    simpa using hAok.symm
  have hAreg : A.flat.length = A.shape.prod := by
    rw [hAe]
    simpa using idxLayout_len hlay
  -- the transpose succeeded, so the axes are a permutation
  have hperm : List.Perm tAxes (List.range A.shape.length) := by
    by_contra hc
    rw [transposeN, if_neg hc] at hT1
    exact absurd hT1 (by simp)
  have hT1e : T1 = ⟨applyPerm tAxes A.shape,
      (allCoords (applyPerm tAxes A.shape)).map (fun c =>
        A.flat.getD (rank A.shape (unperm tAxes c)) 0)⟩ := by
    rw [transposeN, if_pos hperm] at hT1
    simpa using hT1.symm
  obtain ⟨hq, hpq⟩ := argsortN_spec hperm
  have hqp := perm_inv_flip hperm hq hpq
  -- the first reshape keeps the transposed flat contents
  have hvale : value = ⟨[ch.2.2, nChan], T1.flat⟩ := by
    rw [reshapeN] at hval
    by_cases hsz : T1.flat.length = ([ch.2.2, nChan] : List Nat).prod
    · rw [if_pos hsz] at hval
      simpa using hval.symm
    · rw [if_neg hsz] at hval
      exact absurd hval (by simp)
  -- the reshape dims have full length
  have hdlen : dimsT.length = tAxes.length := by
    have h8 := mapM_ok_mem hdims
    rw [h8.1, List.length_map]
  have htlen : tAxes.length = A.shape.length := by
    rw [hperm.length_eq, List.length_range]
  -- the second reshape keeps the contents again
  have hV2e : V2 = ⟨dimsT, T1.flat⟩ := by
    rw [reshapeN] at hV2
    by_cases hsz : value.flat.length = dimsT.prod
    · rw [if_pos hsz] at hV2
      rw [hvale] at hV2
      simpa using hV2.symm
    · rw [if_neg hsz] at hV2
      exact absurd hV2 (by simp)
  -- the back transpose succeeded
  have hpermq : List.Perm (argsortN tAxes) (List.range V2.shape.length) := by
    by_contra hc
    rw [transposeN, if_neg hc] at hM2
    exact absurd hM2 (by simp)
  have hM2e : M2 = ⟨applyPerm (argsortN tAxes) V2.shape,
      (allCoords (applyPerm (argsortN tAxes) V2.shape)).map (fun c =>
        V2.flat.getD (rank V2.shape (unperm (argsortN tAxes) c)) 0)⟩ := by
    rw [transposeN, if_pos hpermq] at hM2
    simpa using hM2.symm
  -- the scatter succeeded, pinning the shapes
  rw [npIndexSet, hlay] at h7
  simp only [Except.bind] at h7
  by_cases hsh : M2.shape = lay.1
  · rw [if_pos hsh] at h7
    have hshA : M2.shape = A.shape := by
      rw [hsh, hAe]
    -- the reshape dims are exactly the transposed shape
    have hdT : dimsT = applyPerm tAxes A.shape := by
      have h9 : applyPerm (argsortN tAxes) dimsT = A.shape := by
        have h10 : M2.shape = applyPerm (argsortN tAxes) dimsT := by
          rw [hM2e, hV2e]
        rw [← h10, hshA]
      have h11 : applyPerm tAxes (applyPerm (argsortN tAxes) dimsT)
          = dimsT := by
        refine applyPerm_applyPerm hq hperm ?_ dimsT (by omega)
        exact hqp
      rw [h9] at h11
      exact h11.symm
    have hVT : V2 = T1 := by
      rw [hV2e, hdT, hT1e]
    -- the double transpose restores the gathered array
    have htt := transposeN_transposeN A tAxes hperm hAreg
    rw [hT1] at htt
    have htt2 : transposeN T1 (argsortN tAxes) = .ok A := by
      simpa [Except.bind] using htt
    have hMA : M2 = A := by
      rw [hVT] at hM2
      rw [htt2] at hM2
      simpa using hM2.symm
    -- the scatter writes back exactly what was gathered
    have hres : res = (lay.2.zip M2.flat).foldl
        (fun f q => f.set q.1 q.2) flat := by
      simpa using h7.symm
    rw [hres, hMA, hAe]
    exact scatter_gather_id flat lay.2
  · rw [if_neg hsh] at h7
    exact absurd h7 (by simp)

/-- A fold whose steps never change the state on success. -/
theorem foldlM_id {β : Type _} (f : List Int → β → Except PyErr (List Int))
    (hid : ∀ a b res, f a b = .ok res → res = a) :
    ∀ (l : List β) (a res : List Int), l.foldlM f a = .ok res → res = a := by
  intro l
  induction l with
  | nil =>
    intro a res h
    have h3 : (pure a : Except PyErr (List Int)) = .ok res := by
      simpa [List.foldlM] using h
    have h4 : a = res := by simpa [pure, Except.pure] using h3
    exact h4.symm
  | cons b l ih =>
    intro a res h
    rw [List.foldlM_cons] at h
    obtain ⟨a1, hstep, hrest⟩ := bindOk h
    have h2 := hid a b a1 hstep
    rw [h2] at hrest
    exact ih a res hrest

/-- Embeds the masked branch of `MaskedView.items` on an in-memory array
with `readonly=False` and a consumer that does not mutate the yielded
buffer: for each chunk, read it into the buffer and write the buffer
back.  `transposeAxes` is `(0, 1)` when the broadcast dimension sits in
front and `(1, 0)` otherwise, exactly as computed from
`intListIndexAxis`. -/
def itemsRunMasked (shape : List Nat) (aOrder : List Int) (nChan : Nat)
    (chunkList : List (List MIdx × List (Option Nat) × Nat))
    (flat : List Int) : Except PyErr (List Int) :=
  let lstAxis := intListIndexAxis shape aOrder
  let tAxes : List Nat := if lstAxis = some 0 then [0, 1] else [1, 0]
  chunkList.foldlM (fun f ch => itemsChunk shape tAxes nChan f ch) flat

/-- Embeds the dense branch of `MaskedView.items` (chunk generator
`chunkIndexProduct`) on an in-memory array with `readonly=False` and an
unmutating consumer; `transposeAxes = sorted(axesOrder) + chunkAxes`.  A
`None` left in a chunk index would not be a valid numpy index and is
rejected. -/
def itemsRunFull (shape : List Nat) (cAxes aOrder : List Int) (nChan : Nat)
    (chunkList : List (List (Option PySlice) × List (Option Nat) × Nat))
    (flat : List Int) : Except PyErr (List Int) :=
  let sortedOrder := List.insertionSort (fun a b => a ≤ b) aOrder
  let tAxes : List Nat := (sortedOrder ++ cAxes).map (fun a => a.toNat)
  chunkList.foldlM (fun f ch =>
    (ch.1.mapM (fun o => (match o with
      | some sl => .ok (MIdx.slc sl)
      | none => .error (.typeError "NoneType is not a valid index") :
        Except PyErr MIdx))).bind
      (fun idx => itemsChunk shape tAxes nChan f (idx, ch.2.1, ch.2.2))) flat

/-- C4: write-back round trip.  For a writable (`readonly=False`) view
over an in-memory array, iterating `items()` once to exhaustion without
mutating any yielded buffer leaves every element of the source array equal
to its original value — for the masked branch and for the dense branch
alike: on each chunk the read `transpose(...).reshape(nMca, nChan)` and
the write-back `transpose(value.reshape(idxShapeT), itransposeAxes)` are
mutually inverse, and scattering the gathered values returns every cell
its own value. -/
theorem items_roundtrip :
    (∀ (shape : List Nat) (aOrder : List Int) (nChan : Nat)
      (chunkList : List (List MIdx × List (Option Nat) × Nat))
      (flat res : List Int),
      itemsRunMasked shape aOrder nChan chunkList flat = .ok res →
      res = flat) ∧
    (∀ (shape : List Nat) (cAxes aOrder : List Int) (nChan : Nat)
      (chunkList : List (List (Option PySlice) × List (Option Nat) × Nat))
      (flat res : List Int),
      itemsRunFull shape cAxes aOrder nChan chunkList flat = .ok res →
      res = flat) := by
  constructor
  · intro shape aOrder nChan chunkList flat res h
    exact foldlM_id _ (fun a b r hr => itemsChunk_id _ _ _ _ _ _ hr)
      chunkList flat res h
  · intro shape cAxes aOrder nChan chunkList flat res h
    refine foldlM_id _ (fun a b r hr => ?_) chunkList flat res h
    obtain ⟨idx, hidx, h2⟩ := bindOk hr
    exact itemsChunk_id _ _ _ _ _ _ h2

theorem items_roundtrip_witness :
    ∃ res1 res2 : List Int,
      (itemsRunMasked [4, 5] [0] 5
        [([MIdx.lst [0, 2], MIdx.slc slcNone], [some 2, some 5], 2),
         ([MIdx.lst [3], MIdx.slc slcNone], [some 1, some 5], 1)]
        [10, 11, 12, 13, 14, 20, 21, 22, 23, 24, 30, 31, 32, 33, 34,
         40, 41, 42, 43, 44] = .ok res1) ∧
      res1 = [10, 11, 12, 13, 14, 20, 21, 22, 23, 24, 30, 31, 32, 33, 34,
        40, 41, 42, 43, 44] ∧
      (itemsRunFull [3, 4] [1] [0] 4
        [([some (⟨some 0, some 2, some 1⟩ : PySlice), some slcNone],
            [some 2, some 4], 2),
         ([some (⟨some 2, some 3, some 1⟩ : PySlice), some slcNone],
            [some 1, some 4], 1)]
        [1, 2, 3, 4, 5, 6, 7, 8, 9, 10, 11, 12] = .ok res2) ∧
      res2 = [1, 2, 3, 4, 5, 6, 7, 8, 9, 10, 11, 12] := by
  refine ⟨[10, 11, 12, 13, 14, 20, 21, 22, 23, 24, 30, 31, 32, 33, 34,
      40, 41, 42, 43, 44],
    [1, 2, 3, 4, 5, 6, 7, 8, 9, 10, 11, 12], rfl, ?_, rfl, ?_⟩
  · exact items_roundtrip.1 [4, 5] [0] 5
      [([MIdx.lst [0, 2], MIdx.slc slcNone], [some 2, some 5], 2),
       ([MIdx.lst [3], MIdx.slc slcNone], [some 1, some 5], 1)]
      [10, 11, 12, 13, 14, 20, 21, 22, 23, 24, 30, 31, 32, 33, 34,
       40, 41, 42, 43, 44]
      [10, 11, 12, 13, 14, 20, 21, 22, 23, 24, 30, 31, 32, 33, 34,
       40, 41, 42, 43, 44] rfl
  · exact items_roundtrip.2 [3, 4] [1] [0] 4
      [([some (⟨some 0, some 2, some 1⟩ : PySlice), some slcNone],
          [some 2, some 4], 2),
       ([some (⟨some 2, some 3, some 1⟩ : PySlice), some slcNone],
          [some 1, some 4], 1)]
      [1, 2, 3, 4, 5, 6, 7, 8, 9, 10, 11, 12]
      [1, 2, 3, 4, 5, 6, 7, 8, 9, 10, 11, 12] rfl

end McaStackView
